import Mathlib

/-!
Verification development for the trace-analysis tool.

Shallow embedding of the core algorithms:
* `src/trivia-state-machine.ts` — the character-level trivia lexer;
* `normalize-positions` — the single-pass multi-query position normalizer;
* `parse-trace-file` — streaming trace-event ingestion (begin/end span matching);
* `analyze-trace-utilities` / `buildHotPathsTree` — the hot-path tree builder;
* `get-type-tree` — the cycle-safe type-graph walker.

Machine numbers from the source (JS `number`s holding integral timestamps,
character codes and counters) are modelled as `Int`; the fractional
`minPercentage` threshold is modelled as `Rat`.  Fallible code paths
(a JS runtime error such as popping an empty array and dereferencing the
result) are modelled with `Except`.
-/

namespace AnalyzeTrace

/-! ### Trivia state machine (src/trivia-state-machine.ts) -/
def code_CarriageReturn : Int := 13

def code_NewLine : Int := 10

def code_Space : Int := 32

def code_Tab : Int := 9

def code_Slash : Int := 47

def code_Backslash : Int := 92

def code_Star : Int := 42

def code_Hash : Int := 35

def code_Bang : Int := 33

def code_SingleQuote : Int := 39

def code_DoubleQuote : Int := 34

def code_OpenBrace : Int := 123

def code_CloseBrace : Int := 125

def code_OpenBracket : Int := 91

def code_CloseBracket : Int := 93

def code_Backtick : Int := 96

def code_Dollar : Int := 36

/-- The `State` enum of the trivia state machine.  `Uninitialized` is the
sentinel the source uses for "no deferred state change requested". -/
inductive TState where
  | Uninitialized
  | Default
  | StartSingleLineComment
  | SingleLineComment
  | StartMultiLineComment
  | MultiLineComment
  | EndMultiLineComment
  | StartShebangComment
  | ShebangComment
  | SingleQuoteString
  | SingleQuoteStringEscapeBackslash
  | SingleQuoteStringEscapeQuote
  | DoubleQuoteString
  | DoubleQuoteStringEscapeBackslash
  | DoubleQuoteStringEscapeQuote
  | TemplateString
  | TemplateStringEscapeBackslash
  | TemplateStringEscapeQuote
  | StartExpressionHole
  | Regex
  | RegexEscapeBackslash
  | RegexEscapeSlash
  | RegexEscapeOpenBracket
  | CharClass
  | CharClassEscapeBackslash
  | CharClassEscapeCloseBracket
  deriving DecidableEq, Repr

/-- The `CharKind` classification returned for each character. -/
inductive CharKind where
  | whitespace
  | comment
  | string
  | regex
  | code
  deriving DecidableEq, Repr

/-- The closure state of `create()`: current state, global brace depth,
the stack of "brace depth at expression-hole entry" snapshots (top of the
JS array = head of the list here), and the beginning-of-file flag. -/
structure MachineState where
  state : TState
  braceDepth : Int
  templateStringBraceDepthStack : List Int
  isBOF : Bool
  deriving DecidableEq, Repr

/-- `create()`'s initial closure state. -/
def createMachine : MachineState :=
  { state := .Default, braceDepth := 0, templateStringBraceDepthStack := [], isBOF := true }

/-- JS `/^\s$/.test(String.fromCharCode(ch))`: the ECMAScript `\s` class. -/
def isRegexSpace (ch : Int) : Bool :=
  ch = 9 ∨ ch = 10 ∨ ch = 11 ∨ ch = 12 ∨ ch = 13 ∨ ch = 32 ∨
  ch = 0xa0 ∨ ch = 0x1680 ∨ (0x2000 ≤ ch ∧ ch ≤ 0x200a) ∨
  ch = 0x2028 ∨ ch = 0x2029 ∨ ch = 0x202f ∨ ch = 0x205f ∨ ch = 0x3000 ∨ ch = 0xfeff

structure StepResult where
  charKind : CharKind
  wrapLine : Bool
  next : MachineState
  deriving DecidableEq, Repr

/-- The result type of one `switch` dispatch: state after the in-`case`
mutations, brace depth, snapshot stack, the deferred `nextStateId` (`none`
models `State.Uninitialized`), and `wrapLine`. -/
abbrev Dispatch := TState × Int × List Int × Option TState × Bool

/-- A `case` arm that changes nothing. -/
def caseNone (m : MachineState) : Dispatch :=
  (m.state, m.braceDepth, m.templateStringBraceDepthStack, none, false)

/-- The `case code_NewLine` body (also reached by fall-through from CR). -/
def caseNewLine (m : MachineState) : Dispatch :=
  (if m.state = .ShebangComment ∨ m.state = .SingleLineComment ∨
      m.state = .SingleQuoteString ∨ m.state = .DoubleQuoteString then .Default else m.state,
   m.braceDepth, m.templateStringBraceDepthStack, none, true)

def caseCarriageReturn (nextCh : Int) (m : MachineState) : Dispatch :=
  if nextCh = code_NewLine then
    (if m.state = .ShebangComment ∨ m.state = .SingleLineComment ∨
        m.state = .SingleQuoteString ∨ m.state = .DoubleQuoteString ∨
        m.state = .Regex ∨ m.state = .CharClass then .Default else m.state,
     m.braceDepth, m.templateStringBraceDepthStack, none, false)
  else caseNewLine m

def caseSlash (nextCh : Int) (m : MachineState) : Dispatch :=
  let s := m.state
  let d := m.braceDepth
  let k := m.templateStringBraceDepthStack
  if s = .Default then
    (if nextCh = code_Slash then .StartSingleLineComment
     else if nextCh = code_Star then .StartMultiLineComment
     else .Regex, d, k, none, false)
  else if s = .StartSingleLineComment then (.SingleLineComment, d, k, none, false)
  else if s = .EndMultiLineComment then (s, d, k, some .Default, false)
  else if s = .Regex then (s, d, k, some .Default, false)
  else if s = .RegexEscapeSlash then (s, d, k, some .Regex, false)
  else caseNone m

def caseStar (nextCh : Int) (m : MachineState) : Dispatch :=
  if m.state = .StartMultiLineComment then
    (.MultiLineComment, m.braceDepth, m.templateStringBraceDepthStack, none, false)
  else if m.state = .MultiLineComment ∧ nextCh = code_Slash then
    (.EndMultiLineComment, m.braceDepth, m.templateStringBraceDepthStack, none, false)
  else caseNone m

def caseHash (nextCh : Int) (m : MachineState) : Dispatch :=
  if m.isBOF ∧ m.state = .Default ∧ nextCh = code_Bang then
    (.StartShebangComment, m.braceDepth, m.templateStringBraceDepthStack, none, false)
  else caseNone m

def caseBang (m : MachineState) : Dispatch :=
  if m.state = .StartShebangComment then
    (.ShebangComment, m.braceDepth, m.templateStringBraceDepthStack, none, false)
  else caseNone m

def caseSingleQuote (m : MachineState) : Dispatch :=
  let d := m.braceDepth
  let k := m.templateStringBraceDepthStack
  if m.state = .Default then (.SingleQuoteString, d, k, none, false)
  else if m.state = .SingleQuoteStringEscapeQuote then (m.state, d, k, some .SingleQuoteString, false)
  else if m.state = .SingleQuoteString then (m.state, d, k, some .Default, false)
  else caseNone m

def caseDoubleQuote (m : MachineState) : Dispatch :=
  let d := m.braceDepth
  let k := m.templateStringBraceDepthStack
  if m.state = .Default then (.DoubleQuoteString, d, k, none, false)
  else if m.state = .DoubleQuoteStringEscapeQuote then (m.state, d, k, some .DoubleQuoteString, false)
  else if m.state = .DoubleQuoteString then (m.state, d, k, some .Default, false)
  else caseNone m

def caseBacktick (m : MachineState) : Dispatch :=
  let d := m.braceDepth
  let k := m.templateStringBraceDepthStack
  if m.state = .Default then (.TemplateString, d, k, none, false)
  else if m.state = .TemplateStringEscapeQuote then (m.state, d, k, some .TemplateString, false)
  else if m.state = .TemplateString then (m.state, d, k, some .Default, false)
  else caseNone m

def caseBackslash (nextCh : Int) (m : MachineState) : Dispatch :=
  let s := m.state
  let d := m.braceDepth
  let k := m.templateStringBraceDepthStack
  if s = .SingleQuoteString then
    (if nextCh = code_SingleQuote then .SingleQuoteStringEscapeQuote
     else if nextCh = code_Backslash then .SingleQuoteStringEscapeBackslash
     else s, d, k, none, false)
  else if s = .DoubleQuoteString then
    (if nextCh = code_DoubleQuote then .DoubleQuoteStringEscapeQuote
     else if nextCh = code_Backslash then .DoubleQuoteStringEscapeBackslash
     else s, d, k, none, false)
  else if s = .TemplateString then
    (if nextCh = code_Backtick then .TemplateStringEscapeQuote
     else if nextCh = code_Backslash then .TemplateStringEscapeBackslash
     else s, d, k, none, false)
  else if s = .Regex then
    (if nextCh = code_OpenBracket then .RegexEscapeOpenBracket
     else if nextCh = code_Slash then .RegexEscapeSlash
     else if nextCh = code_Backslash then .RegexEscapeBackslash
     else s, d, k, none, false)
  else if s = .CharClass then
    (if nextCh = code_CloseBracket then .CharClassEscapeCloseBracket
     else if nextCh = code_Backslash then .CharClassEscapeBackslash
     else s, d, k, none, false)
  else if s = .SingleQuoteStringEscapeBackslash then (s, d, k, some .SingleQuoteString, false)
  else if s = .DoubleQuoteStringEscapeBackslash then (s, d, k, some .DoubleQuoteString, false)
  else if s = .TemplateStringEscapeBackslash then (s, d, k, some .TemplateString, false)
  else if s = .RegexEscapeBackslash then (s, d, k, some .Regex, false)
  else if s = .CharClassEscapeBackslash then (s, d, k, some .CharClass, false)
  else caseNone m

def caseDollar (nextCh : Int) (m : MachineState) : Dispatch :=
  if m.state = .TemplateString ∧ nextCh = code_OpenBrace then
    (.StartExpressionHole, m.braceDepth, m.templateStringBraceDepthStack, none, false)
  else caseNone m

def caseOpenBrace (m : MachineState) : Dispatch :=
  if m.state = .Default then
    (m.state, m.braceDepth + 1, m.templateStringBraceDepthStack, none, false)
  else if m.state = .StartExpressionHole then
    (m.state, m.braceDepth, m.braceDepth :: m.templateStringBraceDepthStack, some .Default, false)
  else caseNone m

def caseCloseBrace (m : MachineState) : Dispatch :=
  match m.templateStringBraceDepthStack with
  | top :: rest =>
    if m.braceDepth = top then
      (.TemplateString, m.braceDepth, rest, none, false)
    else if m.state = .Default ∧ m.braceDepth > 0 then -- Error recovery
      (m.state, m.braceDepth - 1, top :: rest, none, false)
    else caseNone m
  | [] =>
    if m.state = .Default ∧ m.braceDepth > 0 then -- Error recovery
      (m.state, m.braceDepth - 1, [], none, false)
    else caseNone m

def caseOpenBracket (m : MachineState) : Dispatch :=
  if m.state = .RegexEscapeOpenBracket then
    (m.state, m.braceDepth, m.templateStringBraceDepthStack, some .Regex, false)
  else if m.state = .Regex then
    (.CharClass, m.braceDepth, m.templateStringBraceDepthStack, none, false)
  else caseNone m

def caseCloseBracket (m : MachineState) : Dispatch :=
  if m.state = .CharClassEscapeCloseBracket then
    (m.state, m.braceDepth, m.templateStringBraceDepthStack, some .CharClass, false)
  else if m.state = .CharClass then
    (m.state, m.braceDepth, m.templateStringBraceDepthStack, some .Regex, false)
  else caseNone m

/-- The `switch (ch)` dispatch of one `step` call. -/
def stepDispatch (ch nextCh : Int) (m : MachineState) : Dispatch :=
  if ch = code_CarriageReturn then caseCarriageReturn nextCh m
  else if ch = code_NewLine then caseNewLine m
  else if ch = code_Slash then caseSlash nextCh m
  else if ch = code_Star then caseStar nextCh m
  else if ch = code_Hash then caseHash nextCh m
  else if ch = code_Bang then caseBang m
  else if ch = code_SingleQuote then caseSingleQuote m
  else if ch = code_DoubleQuote then caseDoubleQuote m
  else if ch = code_Backtick then caseBacktick m
  else if ch = code_Backslash then caseBackslash nextCh m
  else if ch = code_Dollar then caseDollar nextCh m
  else if ch = code_OpenBrace then caseOpenBrace m
  else if ch = code_CloseBrace then caseCloseBrace m
  else if ch = code_OpenBracket then caseOpenBracket m
  else if ch = code_CloseBracket then caseCloseBracket m
  else caseNone m

/-- The output classification of the state reached by the in-`switch`
mutations (the deferred `nextStateId` does not influence the returned kind). -/
def classify (st : TState) (ch : Int) : CharKind :=
  match st with
  | .StartSingleLineComment | .SingleLineComment
  | .StartMultiLineComment | .MultiLineComment | .EndMultiLineComment
  | .StartShebangComment | .ShebangComment => .comment
  | .SingleQuoteString | .SingleQuoteStringEscapeBackslash | .SingleQuoteStringEscapeQuote
  | .DoubleQuoteString | .DoubleQuoteStringEscapeBackslash | .DoubleQuoteStringEscapeQuote
  | .TemplateString | .TemplateStringEscapeBackslash | .TemplateStringEscapeQuote
  | .StartExpressionHole => .string
  | .Regex | .RegexEscapeBackslash | .RegexEscapeSlash | .RegexEscapeOpenBracket
  | .CharClass | .CharClassEscapeBackslash | .CharClassEscapeCloseBracket => .regex
  | _ =>
    if ch = code_Space ∨ ch = code_Tab ∨ ch = code_NewLine ∨ ch = code_CarriageReturn ∨
        isRegexSpace ch then .whitespace else .code

/-- One `step(ch, nextCh)` call of the state machine. -/
def step (ch nextCh : Int) (m : MachineState) : StepResult :=
  let r := stepDispatch ch nextCh m
  let state1 := r.1
  let depth1 := r.2.1
  let stack1 := r.2.2.1
  let nextStateId := r.2.2.2.1
  let wrapLine := r.2.2.2.2
  { charKind := classify state1 ch
    wrapLine := wrapLine
    next :=
      { state := nextStateId.getD state1
        braceDepth := depth1
        templateStringBraceDepthStack := stack1
        isBOF := false } }

/-- Drive the machine over a whole text (`List Int` of char codes), the way
`normalizePositions` drives it: each character is stepped with the following
character as lookahead, the last one with `-1`.  Returns the `(charKind,
wrapLine)` outputs in order. -/
def scanKinds (m : MachineState) : List Int → List (CharKind × Bool)
  | [] => []
  | c :: rest =>
    let nxt := match rest with
      | [] => -1
      | d :: _ => d
    let r := step c nxt m
    (r.charKind, r.wrapLine) :: scanKinds r.next rest

/-- Fold the machine over a list of `(ch, nextCh)` step arguments. -/
def runSteps (m : MachineState) (l : List (Int × Int)) : MachineState :=
  l.foldl (fun acc p => (step p.1 p.2 acc).next) m

/-! ### Position normalizer (normalize-positions.ts)

The source streams the file one character at a time (`onChar(prevCh, ch)`,
with a final `onChar(prevCh, -1)` on close); here the whole text is a
`List Int` of char codes.  The `PositionWrapper` arrays with their advancing
cursor index (`...WrappersPos`) are modelled as a pair of lists:
entries already passed by the cursor (`done`, resolved, in resolution order)
and the entries at or after the cursor (`pending`). -/
abbrev LineChar := Int × Int

/-- `compareLineChars(a, b) <= 0`, i.e. lexicographic order on (line, char). -/
def lcLe (a b : LineChar) : Bool := a.1 < b.1 ∨ (a.1 = b.1 ∧ a.2 ≤ b.2)

/-- A raw input position: absolute character offset, or line/char pair. -/
inductive RawPosition where
  | off (n : Int)
  | lineChar (line char : Int)
  deriving DecidableEq, Repr

/-- A wrapper in one of the two offset buckets (`returnIndex` plus the
(already sign-decoded) target offset). -/
structure OffWrapper where
  returnIndex : ℕ
  offset : Int
  deriving DecidableEq, Repr

/-- A wrapper in one of the two line/char buckets. -/
structure LcWrapper where
  returnIndex : ℕ
  lineChar : LineChar
  deriving DecidableEq, Repr

/-- The four query buckets built by the partition loop of `normalizePositions`. -/
structure Buckets where
  fixedOffsetWrappers : List OffWrapper
  offsetWrappers : List OffWrapper
  fixedLineCharWrappers : List LcWrapper
  lineCharWrappers : List LcWrapper
  deriving Repr

/-- One step of the partition loop: negative offsets (and line/char pairs
with a negative component) land in the "fixed" buckets with the sign
stripped. -/
def partitionStep (b : Buckets) (ip : ℕ × RawPosition) : Buckets :=
  match ip.2 with
  | .off n =>
    if n < 0 then
      { b with fixedOffsetWrappers := b.fixedOffsetWrappers ++ [⟨ip.1, -n⟩] }
    else
      { b with offsetWrappers := b.offsetWrappers ++ [⟨ip.1, n⟩] }
  | .lineChar l c =>
    if l < 0 ∨ c < 0 then
      { b with fixedLineCharWrappers := b.fixedLineCharWrappers ++ [⟨ip.1, (|l|, |c|)⟩] }
    else
      { b with lineCharWrappers := b.lineCharWrappers ++ [⟨ip.1, (l, c)⟩] }

/-- The partition loop of `normalizePositions`. -/
def partitionPositions (positions : List RawPosition) : Buckets :=
  positions.enum.foldl partitionStep ⟨[], [], [], []⟩

/-- State carried across `onChar` calls. -/
structure ScanState where
  fixedOffDone : List (ℕ × LineChar)
  fixedOffPending : List OffWrapper
  offDone : List (ℕ × LineChar)
  offPending : List OffWrapper
  fixedLcDone : List (ℕ × LineChar)
  fixedLcPending : List LcWrapper
  lcDone : List (ℕ × LineChar)
  lcPending : List LcWrapper
  currOffset : Int
  currLineChar : LineChar
  machine : MachineState
  deriving Repr

/-- One resolution loop over an offset bucket: resolve (at the current
cursor line/char) every pending query whose target offset is `≤ currOffset`. -/
def drainOff (cur : Int) (lc : LineChar) (pending : List OffWrapper) :
    List (ℕ × LineChar) × List OffWrapper :=
  ((pending.takeWhile fun w => w.offset ≤ cur).map fun w => (w.returnIndex, lc),
   pending.dropWhile fun w => w.offset ≤ cur)

/-- One resolution loop over a line/char bucket. -/
def drainLc (cur : LineChar) (pending : List LcWrapper) :
    List (ℕ × LineChar) × List LcWrapper :=
  ((pending.takeWhile fun w => lcLe w.lineChar cur).map fun w => (w.returnIndex, cur),
   pending.dropWhile fun w => lcLe w.lineChar cur)

/-- Advance the (line, char) cursor after one character. -/
def cursorAdvance (lc : LineChar) (wrap : Bool) : LineChar :=
  if wrap then (lc.1 + 1, 1) else (lc.1, lc.2 + 1)

/-- The `onChar(ch, nextCh)` handler. -/
def onChar (ch nextCh : Int) (s : ScanState) : ScanState :=
  let r := step ch nextCh s.machine
  let isTrivia := r.charKind = .comment ∨ r.charKind = .whitespace
  let f1 := drainOff s.currOffset s.currLineChar s.fixedOffPending
  let f2 := drainLc s.currLineChar s.fixedLcPending
  let f3 := if isTrivia then ([], s.offPending) else drainOff s.currOffset s.currLineChar s.offPending
  let f4 := if isTrivia then ([], s.lcPending) else drainLc s.currLineChar s.lcPending
  { fixedOffDone := s.fixedOffDone ++ f1.1, fixedOffPending := f1.2
    offDone := s.offDone ++ f3.1, offPending := f3.2
    fixedLcDone := s.fixedLcDone ++ f2.1, fixedLcPending := f2.2
    lcDone := s.lcDone ++ f4.1, lcPending := f4.2
    currOffset := s.currOffset + 1
    currLineChar := cursorAdvance s.currLineChar r.wrapLine
    machine := r.next }

/-- Feed every character of the text to `onChar`, with one-character lookahead
(`-1` past the end), exactly as the stream handlers do. -/
def runScan (s : ScanState) : List Int → ScanState
  | [] => s
  | c :: rest =>
    runScan (onChar c (match rest with | [] => -1 | d :: _ => d) s) rest

/-- The `onEof` result assembly: resolved queries keep their recorded
line/char, still-pending queries resolve to the final cursor position;
each pair carries its `returnIndex`. -/
def eofResultPairs (s : ScanState) : List (ℕ × LineChar) :=
  s.fixedOffDone ++ s.fixedOffPending.map (fun w => (w.returnIndex, s.currLineChar)) ++
  (s.offDone ++ s.offPending.map (fun w => (w.returnIndex, s.currLineChar)) ++
  (s.fixedLcDone ++ s.fixedLcPending.map (fun w => (w.returnIndex, s.currLineChar)) ++
  (s.lcDone ++ s.lcPending.map (fun w => (w.returnIndex, s.currLineChar)))))

def offWLe (a b : OffWrapper) : Bool := a.offset ≤ b.offset

def lcWLe (a b : LcWrapper) : Bool := lcLe a.lineChar b.lineChar

/-- Stable insertion into a `le`-sorted list (the new element goes after
existing elements it ties with). -/
def insertW {α : Type} (le : α → α → Bool) (x : α) : List α → List α
  | [] => [x]
  | y :: ys => if le y x then y :: insertW le x ys else x :: y :: ys

/-- Stable comparison sort, modelling the JS `Array.prototype.sort` calls on
the four buckets (any stable comparison sort computes the same list). -/
def sortW {α : Type} (le : α → α → Bool) (l : List α) : List α :=
  l.foldl (fun acc x => insertW le x acc) []

/-- `normalizePositions`: partition, sort each bucket, run the single pass,
then write every result back at its query's `returnIndex`. -/
def normalizePositions (text : List Int) (positions : List RawPosition) : List LineChar :=
  if positions.isEmpty then [] else
  let b := partitionPositions positions
  let s0 : ScanState :=
    { fixedOffDone := [], fixedOffPending := sortW offWLe b.fixedOffsetWrappers
      offDone := [], offPending := sortW offWLe b.offsetWrappers
      fixedLcDone := [], fixedLcPending := sortW lcWLe b.fixedLineCharWrappers
      lcDone := [], lcPending := sortW lcWLe b.lineCharWrappers
      currOffset := 0, currLineChar := (1, 1), machine := createMachine }
  let s := runScan s0 text
  let pairs := eofResultPairs s
  (List.range positions.length).map fun i =>
    (((pairs.find? fun q => q.1 = i).map Prod.snd).getD (0, 0))

/-! Specification-side description of the scan: the sequence of cursor
states the scan passes through, one entry per character. -/
structure TraceEntry where
  offset : Int
  lineChar : LineChar
  trivia : Bool
  deriving DecidableEq, Repr

/-- The cursor trace: for each character, the offset, (line, char) and
triviality (`comment`/`whitespace` classification) observed at it. -/
def cursorTrace (m : MachineState) (off : Int) (lc : LineChar) : List Int → List TraceEntry
  | [] => []
  | c :: rest =>
    let r := step c (match rest with | [] => -1 | d :: _ => d) m
    ⟨off, lc, r.charKind = .comment ∨ r.charKind = .whitespace⟩ ::
      cursorTrace r.next (off + 1) (cursorAdvance lc r.wrapLine) rest

/-- The cursor's final (line, char), i.e. its position at end of stream. -/
def scanEofLineChar (m : MachineState) (lc : LineChar) : List Int → LineChar
  | [] => lc
  | c :: rest =>
    let r := step c (match rest with | [] => -1 | d :: _ => d) m
    scanEofLineChar r.next (cursorAdvance lc r.wrapLine) rest

/-- Resolve one query against the cursor trace: the (line, char) of the first
entry satisfying `hit`, or the end-of-file position when none does. -/
def resolveWith (hit : TraceEntry → Bool) (entries : List TraceEntry) (eofLc : LineChar) :
    LineChar :=
  ((entries.find? hit).map TraceEntry.lineChar).getD eofLc

def fixedOffHit (t : Int) (e : TraceEntry) : Bool := t ≤ e.offset

def skipOffHit (t : Int) (e : TraceEntry) : Bool := t ≤ e.offset ∧ ¬e.trivia

def fixedLcHit (t : LineChar) (e : TraceEntry) : Bool := lcLe t e.lineChar

def skipLcHit (t : LineChar) (e : TraceEntry) : Bool := lcLe t e.lineChar ∧ ¬e.trivia

/-- The specification of one query's answer: a fixed (negative-encoded) query
resolves at the first cursor position at/past its decoded target; a skipping
query additionally requires a non-trivia character there; a query that never
resolves gets the end-of-file position. -/
def resolveSingle (text : List Int) (p : RawPosition) : LineChar :=
  let entries := cursorTrace createMachine 0 (1, 1) text
  let eofLc := scanEofLineChar createMachine (1, 1) text
  match p with
  | .off n =>
    if n < 0 then resolveWith (fixedOffHit (-n)) entries eofLc
    else resolveWith (skipOffHit n) entries eofLc
  | .lineChar l c =>
    if l < 0 ∨ c < 0 then resolveWith (fixedLcHit (|l|, |c|)) entries eofLc
    else resolveWith (skipLcHit (l, c)) entries eofLc

/-! ### Trace-event ingestion (parse-trace-file.ts)

`parse` streams a JSON array of events; here the already-decoded event list
is the input.  `+event.ts` / `+event.dur` are modelled as `Int` fields
(`dur` is only read, via `+event.dur!`, on Complete events).  Of the free-form
`args` only `fileName` matters to the embedded code paths. -/
structure Event where
  ph : String
  ts : Int
  dur : Int
  name : String
  argFileName : Option String
  deriving DecidableEq, Repr

/-- An `EventSpan`.  The `children` array (always created empty by `parse`
and only populated through the aliasing mutation in `buildHotPathsTree`) is
not part of the span model; the tree structure is modelled separately by the
parent assignment produced by `buildHot`.  `stop` models the source's `end`
field (a Lean keyword). -/
structure Span where
  event : Option Event
  start : Int
  stop : Int
  deriving DecidableEq, Repr

/-- A fatal runtime fault of `parse`: popping an empty `unclosedStack` and
dereferencing the resulting `undefined` (an `E` without a matching `B`), or
the explicit `Unknown event phase` throw. -/
inductive ParseError where
  | endWithEmptyStack
  | unknownPhase
  deriving DecidableEq, Repr

/-- Match a literal character sequence, returning the remainder. -/
def dropLit : List Char → List Char → Option (List Char)
  | [], rest => some rest
  | _ :: _, [] => none
  | l :: ls, c :: cs => if c = l then dropLit ls cs else none

def nodeModulesLit : List Char := "/node_modules/".toList

/-- The capture group `((?:[^@][^/]+)|(?:@[^/]+/[^/]+))` of
`packageNameRegex`, tried at the position right after `/node_modules/`:
returns the captured package name and the remainder after the match. -/
def matchName : List Char → Option (List Char × List Char)
  | [] => none
  | c :: cs =>
    if c ≠ '@' then
      -- first alternative: `[^@][^/]+` (greedy)
      let run := cs.takeWhile fun d => d ≠ '/'
      if run.isEmpty then none else some (c :: run, cs.drop run.length)
    else
      -- second alternative: `@[^/]+/[^/]+`
      let scope := cs.takeWhile fun d => d ≠ '/'
      if scope.isEmpty then none
      else
        match cs.drop scope.length with
        | '/' :: cs2 =>
          let nm := cs2.takeWhile fun d => d ≠ '/'
          if nm.isEmpty then none
          else some (('@' :: scope) ++ ('/' :: nm), cs2.drop nm.length)
        | _ => none

/-- The `while (true) { packageNameRegex.exec(path) }` loop: walk the path,
and at every position where the whole pattern matches, emit the captured
package name together with `m.input.substring(0, m.index + m[0].length)`
(the resolved path up to and including the package name); continue scanning
from the match end (`lastIndex` semantics).  `acc` is the already-consumed
text.  Every iteration consumes at least one character, so the recursion is
driven by a fuel at least the remaining length (`extractLoop_fuel` shows the
fuel never matters beyond that bound, i.e. the loop always terminates). -/
def extractLoop (acc : List Char) : ℕ → List Char → List (String × String)
  | _, [] => []
  | 0, _ => []
  | fuel + 1, c :: cs =>
    match dropLit nodeModulesLit (c :: cs) with
    | some afterLit =>
      match matchName afterLit with
      | some nmAfter =>
        let path := acc ++ nodeModulesLit ++ nmAfter.1
        (⟨nmAfter.1⟩, ⟨path⟩) :: extractLoop path fuel nmAfter.2
      | none => extractLoop (acc ++ [c]) fuel cs
    | none => extractLoop (acc ++ [c]) fuel cs

/-- All `(packageName, packagePath)` matches of `packageNameRegex` over a
file path. -/
def extractPackages (s : String) : List (String × String) :=
  extractLoop [] s.toList.length s.toList

/-- Insertion-ordered `Map<string, string[]>`: add `packagePath` to the entry
of `packageName` unless already present (the dedup in the source's
`paths.indexOf(packagePath) < 0` check). -/
def addPath : List (String × List String) → String × String → List (String × List String)
  | [], np => [(np.1, [np.2])]
  | (k, ps) :: rest, np =>
    if k = np.1 then (k, if np.2 ∈ ps then ps else ps ++ [np.2]) :: rest
    else (k, ps) :: addPath rest np

/-- The `parse` accumulator.  `minTime = none` models the initial
`Infinity`; `unclosedStack` has its top (most recently pushed Begin) at the
head. -/
structure ParseState where
  minTime : Option Int
  maxTime : Int
  unclosedStack : List Event
  spans : List Span
  nodeModulePaths : List (String × List String)
  deriving DecidableEq, Repr

def initialParseState : ParseState :=
  { minTime := none, maxTime := 0, unclosedStack := [], spans := [], nodeModulePaths := [] }

/-- The `findSourceFile` bookkeeping for one resolved span (performed before
the `minDuration` filter). -/
def recordNodeModulePaths (m : List (String × List String)) (span : Span) :
    List (String × List String) :=
  match span.event with
  | some e =>
    if e.name = "findSourceFile" then
      match e.argFileName with
      | some path => (extractPackages path).foldl addPath m
      | none => m
    else m
  | none => m

/-- The `p.onValue` handler for one event. -/
def processEvent (minDuration : Int) (st : ParseState) (e : Event) :
    Except ParseError ParseState :=
  if e.ph = "M" then .ok st
  else if e.ph = "i" ∨ e.ph = "I" then .ok st
  else if e.ph = "B" then .ok { st with unclosedStack := e :: st.unclosedStack }
  else do
    let sp ←
      if e.ph = "E" then
        match st.unclosedStack with
        | [] => .error ParseError.endWithEmptyStack
        | b :: rest => .ok ((⟨some b, b.ts, e.ts⟩ : Span), rest)
      else if e.ph = "X" then
        .ok ((⟨some e, e.ts, e.ts + e.dur⟩ : Span), st.unclosedStack)
      else .error ParseError.unknownPhase
    let span := sp.1
    .ok { minTime := some (match st.minTime with | none => span.start | some m => min m span.start)
          maxTime := max st.maxTime span.stop
          unclosedStack := sp.2
          spans := if minDuration ≤ span.stop - span.start then st.spans ++ [span] else st.spans
          nodeModulePaths := recordNodeModulePaths st.nodeModulePaths span }

/-- `parse(tracePath, minDuration)` over an already-decoded event list. -/
def parse (evs : List Event) (minDuration : Int) : Except ParseError ParseState :=
  evs.foldlM (processEvent minDuration) initialParseState

/-- `getDuplicateNodeModules`, restricted to the package names and paths (the
per-path `version` lookup reads `package.json`, an external collaborator). -/
def getDuplicateNodeModules (nodeModulePaths : List (String × List String)) :
    List (String × List String) :=
  nodeModulePaths.filter fun kp => 2 ≤ kp.2.length

/-! ### Hot-path tree builder (`buildHotPathsTree` in analyze-trace-utilities.ts)

The source mutates `parent.children` through aliases living on the explicit
stack; the faithful functional rendering records, for each span that passes
the inclusion test, the pair (span index, parent span index) — `none` for
the synthetic root — from which the tree is reconstructible.  The stack is
split into the immutable bottom entry (the root, which the scan loop never
examines: `i > 0`) and the entries above it (`mids`, top first). -/
structure HPEntry where
  start : Int
  stop : Int
  idx : Option ℕ
  deriving DecidableEq, Repr

structure HPState where
  mids : List HPEntry
  assigns : List (ℕ × Option ℕ)
  deriving DecidableEq, Repr

/-- The pop-down scan `for (; i > 0; i--) { if (stack[i].end > span.start) {
stack.length = i + 1; break; } }`: find the topmost non-root entry whose end
exceeds the span start and truncate above it.  `none` when no entry
qualifies (in which case the source leaves the stack untruncated and the
parent is the root). -/
def hpFind (s : Int) : List HPEntry → Option (HPEntry × List HPEntry)
  | [] => none
  | c :: rest => if c.stop > s then some (c, c :: rest) else hpFind s rest

/-- Process one span of the sorted list. -/
def hpStep (θ : Int) (p : ℚ) (root : HPEntry) (st : HPState) (ks : ℕ × Span) : HPState :=
  let k := ks.1
  let sp := ks.2
  let pm :=
    match hpFind sp.start st.mids with
    | some pr => pr
    | none => (root, st.mids)
  let parent := pm.1
  let dur := sp.stop - sp.start
  if θ ≤ dur ∨ p * ((parent.stop - parent.start : Int) : ℚ) ≤ (dur : ℚ) then
    { mids := ⟨sp.start, sp.stop, some k⟩ :: pm.2, assigns := st.assigns ++ [(k, parent.idx)] }
  else { mids := pm.2, assigns := st.assigns }

/-- The core loop of `buildHotPathsTree` over an (already sorted) span list
with the synthetic root `[rootStart, rootStop]`: the produced parent
assignments. -/
def buildHot (θ : Int) (p : ℚ) (rootStart rootStop : Int) (spans : List Span) :
    List (ℕ × Option ℕ) :=
  (spans.enum.foldl (hpStep θ p ⟨rootStart, rootStop, none⟩) ⟨[], []⟩).assigns

/-- Re-insert unterminated Begin events (iterated from the top of the stack
down) with a synthetic end equal to the overall `maxTime`. -/
def withUnclosed (pst : ParseState) : List Span :=
  pst.spans ++ pst.unclosedStack.map fun e => ⟨some e, e.ts, pst.maxTime⟩

def spanLe (a b : Span) : Bool := a.start ≤ b.start

/-- The span list as the tree-builder loop visits it:
re-inserted unterminated events, then `spans.sort((a, b) => a.start - b.start)`. -/
def sortedSpans (pst : ParseState) : List Span :=
  sortW spanLe (withUnclosed pst)

/-! Specification-side characterization of the tree builder: keep the full
list of surviving (previously included) spans, most recent first; a span's
parent is the most recent survivor whose end exceeds the span's start (the
synthetic root when none does); the span survives iff its duration passes
the absolute floor or the percentage-of-parent test.  A discarded span is
never added to the survivor list, hence never considered as a parent. -/
def survParent (root : HPEntry) (surv : List HPEntry) (s : Int) : HPEntry :=
  match surv.find? (fun t => t.stop > s) with
  | some t => t
  | none => root

def specStep (θ : Int) (p : ℚ) (root : HPEntry)
    (st : List HPEntry × List (ℕ × Option ℕ)) (ks : ℕ × Span) :
    List HPEntry × List (ℕ × Option ℕ) :=
  let k := ks.1
  let sp := ks.2
  let parent := survParent root st.1 sp.start
  let dur := sp.stop - sp.start
  if θ ≤ dur ∨ p * ((parent.stop - parent.start : Int) : ℚ) ≤ (dur : ℚ) then
    (⟨sp.start, sp.stop, some k⟩ :: st.1, st.2 ++ [(k, parent.idx)])
  else st

def specAssigns (θ : Int) (p : ℚ) (rootStart rootStop : Int) (spans : List Span) :
    List (ℕ × Option ℕ) :=
  (spans.enum.foldl (specStep θ p ⟨rootStart, rootStop, none⟩) ([], [])).2

/-! ### Type-graph walker (get-type-tree.ts)

`getTypeTree` walks, for each property of the simplified record whose name
matches `/type/i`, the referenced type ids (scalars or arrays), suppressing
children when the id is already on the ancestor path.  The lookup
`simplifiedTypes.get(id) ?? simplify(types[id - 1])` is abstracted into one
function `getSimp : Int → Option JRec` (`simplify` is deterministic, so the
memo cache is semantically transparent); records are modelled as ordered
property lists, and `JSON.stringify(type)`-keyed object insertion as keyed
insertion on such lists. -/
inductive JVal where
  | num (n : Int)
  | arr (elems : List JVal)
  | other
  deriving Repr

/-! Structural equality on JSON-like values (what `JSON.stringify` equality
of two records with identical property order amounts to). -/
mutual
def JVal.beq : JVal → JVal → Bool
  | .num a, .num b => a == b
  | .arr as, .arr bs => JVal.beqs as bs
  | .other, .other => true
  | _, _ => false
def JVal.beqs : List JVal → List JVal → Bool
  | [], [] => true
  | x :: xs, y :: ys => JVal.beq x y && JVal.beqs xs ys
  | _, _ => false
end

instance : BEq JVal := ⟨JVal.beq⟩

abbrev JRec := List (String × JVal)

inductive TTree where
  | node (entries : List (JRec × TTree))

/-- Case-insensitive substring test: does `needle` (lowercase) occur in the
lowercased haystack?  Models `prop.match(/type/i)` for the ASCII needle. -/
def hasSubL (needle : List Char) : List Char → Bool
  | [] => needle.isEmpty
  | c :: cs => (dropLit needle (c :: cs)).isSome || hasSubL needle cs

def propMatchesType (prop : String) : Bool :=
  hasSubL "type".toList (prop.toList.map Char.toLower)

/-- The referenced values walked for a record: for each `/type/i`-named
property, the array elements (for array values) or the value itself. -/
def childRefs (ty : JRec) : List JVal :=
  ty.flatMap fun kv =>
    if propMatchesType kv.1 then
      match kv.2 with
      | .arr es => es
      | v => [v]
    else []

/-- `tree[JSON.stringify(type)] = children`: JS object assignment (replace
in place when the key exists, else append). -/
def insertEntry (key : JRec) (v : TTree) : List (JRec × TTree) → List (JRec × TTree)
  | [] => [(key, v)]
  | (k, w) :: rest => if k == key then (k, v) :: rest else (k, w) :: insertEntry key v rest

/-- `addTypeToTree(tree, id, ancestorIds)` with explicit fuel: `none` models
a recursion that would descend deeper than the fuel allows (the termination
theorem shows sufficient fuel is never exhausted).  Non-number ids return
the tree unchanged (`typeof id !== "number"`); ids with no record likewise.
On a cycle (id already an ancestor) the node is still inserted, with empty
children. -/
def addT (getSimp : Int → Option JRec) :
    ℕ → List (JRec × TTree) → JVal → List Int → Option (List (JRec × TTree))
  | 0, _, _, _ => none
  | fuel + 1, entries, id, ancestorIds =>
    match id with
    | .num n =>
      (match getSimp n with
       | none => some entries
       | some ty =>
         if n ∈ ancestorIds then
           some (insertEntry ty (.node []) entries)
         else do
           let children ← (childRefs ty).foldlM
             (fun acc v => addT getSimp fuel acc v (ancestorIds ++ [n])) []
           some (insertEntry ty (.node children) entries))
    | _ => some entries

/-- `getTypeTree(id, ...)`. -/
def getTypeTree (getSimp : Int → Option JRec) (fuel : ℕ) (id : Int) :
    Option (List (JRec × TTree)) :=
  addT getSimp fuel [] (.num id) []

instance {ε α : Type} [DecidableEq ε] [DecidableEq α] : DecidableEq (Except ε α) := fun a b =>
  match a, b with
  | .ok x, .ok y => if h : x = y then .isTrue (by rw [h]) else .isFalse (by simp [h])
  | .error x, .error y => if h : x = y then .isTrue (by rw [h]) else .isFalse (by simp [h])
  | .ok _, .error _ => .isFalse (by simp)
  | .error _, .ok _ => .isFalse (by simp)

/-- The six phase codes `parse` accepts without throwing `Unknown event
phase`. -/
def validPhase (e : Event) : Prop :=
  e.ph = "M" ∨ e.ph = "i" ∨ e.ph = "I" ∨ e.ph = "B" ∨ e.ph = "E" ∨ e.ph = "X"

def countB (l : List Event) : ℕ := (l.filter fun e => e.ph = "B").length

def countE (l : List Event) : ℕ := (l.filter fun e => e.ph = "E").length

/-! ### Specification-side view of span resolution

`parse`'s Begin/End matching, replayed over the index-annotated event list:
each resolved span is recorded as a `Pairing` carrying the positions of the
events it came from, which lets the LIFO discipline be characterized
declaratively (balanced-interior intervals). -/
inductive Pairing where
  | be (i : ℕ) (b : Event) (j : ℕ) (e : Event)
  | xe (i : ℕ) (e : Event)
  deriving DecidableEq, Repr

/-- The span a pairing resolves to (exactly the span `parse` builds). -/
def pairingSpan : Pairing → Span
  | .be _ b _ e => ⟨some b, b.ts, e.ts⟩
  | .xe _ e => ⟨some e, e.ts, e.ts + e.dur⟩

structure TrackSt where
  stack : List (ℕ × Event)
  pairs : List Pairing
  deriving DecidableEq, Repr

/-- One event of the index-annotated replay (same control flow as
`processEvent`, keeping only stack and pairings). -/
def trackStep (st : TrackSt) (ie : ℕ × Event) : Except ParseError TrackSt :=
  if ie.2.ph = "M" then .ok st
  else if ie.2.ph = "i" ∨ ie.2.ph = "I" then .ok st
  else if ie.2.ph = "B" then .ok { st with stack := ie :: st.stack }
  else if ie.2.ph = "E" then
    match st.stack with
    | [] => .error .endWithEmptyStack
    | ib :: r => .ok { stack := r, pairs := st.pairs ++ [.be ib.1 ib.2 ie.1 ie.2] }
  else if ie.2.ph = "X" then .ok { st with pairs := st.pairs ++ [.xe ie.1 ie.2] }
  else .error .unknownPhase

def track (evs : List Event) : Except ParseError TrackSt :=
  (evs.enum).foldlM trackStep ⟨[], []⟩

/-- The running `Math.min` over span starts (`none` models the initial
`Infinity`). -/
def minTimeFold (spans : List Span) : Option Int :=
  spans.foldl (fun a s => some (match a with | none => s.start | some m => min m s.start)) none

/-- The running `Math.max` over span ends, starting at 0. -/
def maxTimeFold (spans : List Span) : Int :=
  spans.foldl (fun a s => max a s.stop) 0

/-- Componentwise relation between two `Except` results. -/
def ExceptRel {ε α β : Type} (R : α → β → Prop) : Except ε α → Except ε β → Prop
  | .ok a, .ok b => R a b
  | .error a, .error b => a = b
  | _, _ => False

/-- How a `ParseState` is determined by the pairing replay: the stack holds
the same events, and spans / bookkeeping / time bounds are folds over the
resolved span sequence (spans additionally filtered by the duration floor). -/
def ParseTrackRel (d : Int) (pst : ParseState) (tst : TrackSt) : Prop :=
  pst.unclosedStack = tst.stack.map Prod.snd ∧
  pst.spans = (tst.pairs.map pairingSpan).filter (fun s => decide (d ≤ s.stop - s.start)) ∧
  pst.nodeModulePaths = (tst.pairs.map pairingSpan).foldl recordNodeModulePaths [] ∧
  pst.minTime = minTimeFold (tst.pairs.map pairingSpan) ∧
  pst.maxTime = maxTimeFold (tst.pairs.map pairingSpan)

/-- Events strictly between positions `i` and `j`. -/
def slice (evs : List Event) (i j : ℕ) : List Event :=
  (evs.drop (i + 1)).take (j - i - 1)

/-- Equal numbers of Begin and End events: the characterization of the
segment between a LIFO-matched Begin/End pair. -/
def balancedBE (l : List Event) : Prop := countB l = countE l

/-- The declarative correctness property of one recorded pairing: a
Begin/End pairing joins a `B` at `i` with an `E` at a later `j` such that
the events strictly between them have balanced Begin/End counts (i.e. the
`B` at `i` is the most recently pushed Begin still unmatched when the `E`
at `j` arrives), and the span it yields runs from the Begin's timestamp to
the End's; a Complete pairing yields the `start + dur` span of the `X`
event at its position. -/
def PairOk (evs : List Event) : Pairing → Prop
  | .be i b j e =>
    i < j ∧ evs[i]? = some b ∧ b.ph = "B" ∧ evs[j]? = some e ∧ e.ph = "E" ∧
      balancedBE (slice evs i j)
  | .xe i e => evs[i]? = some e ∧ e.ph = "X"

/-- Invariant of the replay stack after consuming `k` events: entries are
Begin events at positions below `k`, in strictly decreasing position order
(most recent on top), with Begin/End-balanced gaps between consecutive
entries and above the top entry. -/
def StackOk (evs : List Event) (k : ℕ) (stack : List (ℕ × Event)) : Prop :=
  (∀ p ∈ stack, p.1 < k ∧ evs[p.1]? = some p.2 ∧ p.2.ph = "B") ∧
  List.Chain' (fun a b => b.1 < a.1) stack ∧
  (match stack with
   | [] => True
   | (i, _) :: _ => balancedBE (slice evs i k)) ∧
  List.Chain' (fun a b => balancedBE (slice evs b.1 a.1)) stack

/-- Every Complete event among the first `k` has produced its pairing, and
every End event among the first `k` has been paired with some Begin. -/
def PairsComplete (evs : List Event) (k : ℕ) (pairs : List Pairing) : Prop :=
  (∀ i e, i < k → evs[i]? = some e → e.ph = "X" → Pairing.xe i e ∈ pairs) ∧
  (∀ j e, j < k → evs[j]? = some e → e.ph = "E" → ∃ i b, Pairing.be i b j e ∈ pairs)

/-- The three possible effects of one dispatch on the brace depth:
unchanged, incremented, or decremented under the explicit `braceDepth > 0`
error-recovery guard. -/
def DepthSpec (m : MachineState) (r : Dispatch) : Prop :=
  r.2.1 = m.braceDepth ∨ r.2.1 = m.braceDepth + 1 ∨
    (0 < m.braceDepth ∧ r.2.1 = m.braceDepth - 1)

/-- A concrete well-formed trace: two nested Begin/End pairs with a
Complete event inside. -/
def exTraceC2 : List Event :=
  [⟨"B", 10, 0, "checkSourceFile", none⟩,
   ⟨"B", 12, 0, "checkExpression", none⟩,
   ⟨"X", 13, 4, "findSourceFile", some "/p/node_modules/foo/idx.ts"⟩,
   ⟨"E", 18, 0, "checkExpression", none⟩,
   ⟨"E", 20, 0, "checkSourceFile", none⟩]

/-- A concrete self-referential record family: id 1 whose only
`type`-named field points back at id 1. -/
def exGetSimp : Int → Option JRec :=
  fun n => if n = 1 then some [("type", JVal.num 1)] else none

/-- Trace for the C6 witness: three Complete `findSourceFile` lookups of
duration 0 — package `foo` resolved under two distinct directories, `bar`
under one. -/
def exTraceC6 : List Event :=
  [⟨"X", 1, 0, "findSourceFile", some "/a/node_modules/foo/x.ts"⟩,
   ⟨"X", 2, 0, "findSourceFile", some "/b/node_modules/foo/y.ts"⟩,
   ⟨"X", 3, 0, "findSourceFile", some "/a/node_modules/bar/z.ts"⟩]

/-! ## The hot-path tree builder refines its survivor-chain specification (C1) -/
/-- `SkipOk b mids surv`: the live stack `mids` is the survivor list `surv`
with some entries removed, every removed entry having `stop ≤ b` (it was
truncated at a span start at most `b`, so — starts being sorted — it can
never again satisfy the `end > start` parent test). -/
inductive SkipOk (b : Int) : List HPEntry → List HPEntry → Prop
  | nil : SkipOk b [] []
  | keep {t : HPEntry} {ms ss : List HPEntry} :
      SkipOk b ms ss → SkipOk b (t :: ms) (t :: ss)
  | drop {t : HPEntry} {ms ss : List HPEntry} :
      SkipOk b ms ss → t.stop ≤ b → SkipOk b ms (t :: ss)

/-- The replay of one bucket's drain loop over the cursor trace: `skipT`
buckets skip trivia characters entirely; at every other character the
pending prefix satisfying the positional test `q` resolves at the current
line/char. -/
def bucketRun {α : Type} (skipT : Bool) (q : α → TraceEntry → Bool) (ridx : α → ℕ) :
    List TraceEntry → List (ℕ × LineChar) → List α →
    List (ℕ × LineChar) × List α
  | [], done, pending => (done, pending)
  | e :: rest, done, pending =>
    if skipT && e.trivia then bucketRun skipT q ridx rest done pending
    else
      bucketRun skipT q ridx rest
        (done ++ (pending.takeWhile fun w => q w e).map fun w => (ridx w, e.lineChar))
        (pending.dropWhile fun w => q w e)

/-- The per-entry hit test a bucket's drain implements: the positional test,
and non-triviality for the skipping buckets. -/
def bucketHit {α : Type} (skipT : Bool) (q : α → TraceEntry → Bool) (w : α)
    (e : TraceEntry) : Bool :=
  q w e && (!skipT || !e.trivia)

/-- The positional test of the two offset buckets. -/
def qOff (w : OffWrapper) (e : TraceEntry) : Bool := w.offset ≤ e.offset

/-- The positional test of the two line/char buckets. -/
def qLc (w : LcWrapper) (e : TraceEntry) : Bool := lcLe w.lineChar e.lineChar

/-- The per-bucket projection invariant of the single pass: each bucket's
(done, pending) pair is the drain replay `bucketRun` over the cursor trace,
and the final cursor line/char is `scanEofLineChar`. -/
def ScanProj (s : ScanState) (text : List Int) : Prop :=
  ((runScan s text).fixedOffDone, (runScan s text).fixedOffPending) =
    bucketRun false qOff OffWrapper.returnIndex
      (cursorTrace s.machine s.currOffset s.currLineChar text)
      s.fixedOffDone s.fixedOffPending ∧
  ((runScan s text).offDone, (runScan s text).offPending) =
    bucketRun true qOff OffWrapper.returnIndex
      (cursorTrace s.machine s.currOffset s.currLineChar text)
      s.offDone s.offPending ∧
  ((runScan s text).fixedLcDone, (runScan s text).fixedLcPending) =
    bucketRun false qLc LcWrapper.returnIndex
      (cursorTrace s.machine s.currOffset s.currLineChar text)
      s.fixedLcDone s.fixedLcPending ∧
  ((runScan s text).lcDone, (runScan s text).lcPending) =
    bucketRun true qLc LcWrapper.returnIndex
      (cursorTrace s.machine s.currOffset s.currLineChar text)
      s.lcDone s.lcPending ∧
  (runScan s text).currLineChar = scanEofLineChar s.machine s.currLineChar text

/-- Which (if any) fixed-offset wrapper one partition step emits. -/
def selFixedOff (ip : ℕ × RawPosition) : Option OffWrapper :=
  match ip.2 with
  | .off n => if n < 0 then some ⟨ip.1, -n⟩ else none
  | .lineChar _ _ => none

def selOff (ip : ℕ × RawPosition) : Option OffWrapper :=
  match ip.2 with
  | .off n => if n < 0 then none else some ⟨ip.1, n⟩
  | .lineChar _ _ => none

def selFixedLc (ip : ℕ × RawPosition) : Option LcWrapper :=
  match ip.2 with
  | .off _ => none
  | .lineChar l c => if l < 0 ∨ c < 0 then some ⟨ip.1, (|l|, |c|)⟩ else none

def selLc (ip : ℕ × RawPosition) : Option LcWrapper :=
  match ip.2 with
  | .off _ => none
  | .lineChar l c => if l < 0 ∨ c < 0 then none else some ⟨ip.1, (l, c)⟩

/-- Character codes of the text `a b` (a letter, a space, a letter). -/
def exTextC9 : List Int := [97, 32, 98]

/-- A query list hitting all four buckets, with an index-1 query picked out. -/
def exPosC9 : List RawPosition :=
  [.off 1, .off (-2), .lineChar 1 2, .off 99]

/-- Character codes of `a/*x*/b` — a letter, a block comment, a letter. -/
def exTextC3 : List Int := [97, 47, 42, 120, 42, 47, 98]

/-- One skipping offset query targeting offset 1 (inside the comment). -/
def exPosC3 : List RawPosition := [.off 1]

/-! ## Theorems -/

theorem dropLit_length {l : List Char} :
    ∀ {s r : List Char}, dropLit l s = some r → r.length + l.length = s.length := by
  induction l with
  | nil => intro s r h; simp [dropLit] at h; simp [h]
  | cons a as ih =>
    intro s r h
    match s with
    | [] => simp [dropLit] at h
    | c :: cs =>
      simp only [dropLit] at h
      split at h
      · have := ih h
        simp only [List.length_cons]
        omega
      · exact absurd h (by simp)

theorem matchName_length {s : List Char} {nm aft : List Char}
    (h : matchName s = some (nm, aft)) : aft.length < s.length := by
  match s with
  | [] => simp [matchName] at h
  | c :: cs =>
    simp only [matchName] at h
    split at h
    · split at h
      · exact absurd h (by simp)
      · rename_i hrun
        have hlen : (cs.takeWhile fun d => d ≠ '/').length ≠ 0 := by
          simpa [List.isEmpty_iff, List.length_eq_zero] using hrun
        have htake : (cs.takeWhile fun d => d ≠ '/').length ≤ cs.length :=
          (cs.takeWhile_sublist _).length_le
        have : aft = cs.drop (cs.takeWhile fun d => d ≠ '/').length := by
          injection h with h1; injection h1 with _ h2; exact h2.symm
        subst this
        simp only [List.length_drop, List.length_cons]
        omega
    · split at h
      · exact absurd h (by simp)
      · rename_i hscope
        split at h
        · rename_i cs2 heq
          split at h
          · exact absurd h (by simp)
          · have haft : aft = cs2.drop (cs2.takeWhile fun d => d ≠ '/').length := by
              injection h with h1; injection h1 with _ h2; exact h2.symm
            have hcs2 : cs2.length < cs.length := by
              have hdrop : (cs.drop (cs.takeWhile fun d => d ≠ '/').length).length =
                  cs.length - (cs.takeWhile fun d => d ≠ '/').length := List.length_drop _ _
              have hlen : (cs.takeWhile fun d => d ≠ '/').length ≠ 0 := by
                simpa [List.isEmpty_iff, List.length_eq_zero] using hscope
              have htake : (cs.takeWhile fun d => d ≠ '/').length ≤ cs.length :=
                (cs.takeWhile_sublist _).length_le
              have : (cs.drop (cs.takeWhile fun d => d ≠ '/').length).length = cs2.length + 1 := by
                rw [heq]; simp
              omega
            subst haft
            have : (cs2.drop (cs2.takeWhile fun d => d ≠ '/').length).length ≤ cs2.length := by
              simp
            simp only [List.length_cons]
            omega
        · exact absurd h (by simp)

theorem extractLoop_fuel {fuel : ℕ} :
    ∀ {fuel' : ℕ} {acc rest : List Char}, rest.length ≤ fuel → rest.length ≤ fuel' →
      extractLoop acc fuel rest = extractLoop acc fuel' rest := by
  induction fuel with
  | zero =>
    intro fuel' acc rest h _
    have : rest = [] := List.length_eq_zero.mp (Nat.le_zero.mp h)
    subst this
    cases fuel' <;> rfl
  | succ fuel ih =>
    intro fuel' acc rest h h'
    match rest with
    | [] => cases fuel' <;> rfl
    | c :: cs =>
      match fuel' with
      | 0 => simp at h'
      | fuel' + 1 =>
        have hcs : cs.length ≤ fuel := by simpa using h
        have hcs' : cs.length ≤ fuel' := by simpa using h'
        cases hdl : dropLit nodeModulesLit (c :: cs) with
        | none => simp only [extractLoop, hdl]; exact ih hcs hcs'
        | some afterLit =>
          cases hmn : matchName afterLit with
          | none => simp only [extractLoop, hdl, hmn]; exact ih hcs hcs'
          | some nmAfter =>
            have h1 := dropLit_length hdl
            have h2 := matchName_length hmn
            have hf : nmAfter.2.length ≤ fuel := by
              simp only [List.length_cons] at h1 h
              omega
            have h2' : nmAfter.2.length ≤ fuel' := by
              simp only [List.length_cons] at h1 h'
              omega
            simp only [extractLoop, hdl, hmn, List.cons.injEq, true_and]
            exact ih hf h2'

/-! ## Supporting lemmas for the trivia state machine claims -/
theorem step_next_braceDepth (ch nextCh : Int) (m : MachineState) :
    (step ch nextCh m).next.braceDepth = (stepDispatch ch nextCh m).2.1 := rfl

theorem step_next_state (ch nextCh : Int) (m : MachineState) :
    (step ch nextCh m).next.state =
      ((stepDispatch ch nextCh m).2.2.2.1.getD (stepDispatch ch nextCh m).1) := rfl

theorem caseNone_depth (m : MachineState) : DepthSpec m (caseNone m) := Or.inl rfl

theorem caseNewLine_depth (m : MachineState) : DepthSpec m (caseNewLine m) := Or.inl rfl

theorem caseCarriageReturn_depth (nc : Int) (m : MachineState) :
    DepthSpec m (caseCarriageReturn nc m) := by
  unfold caseCarriageReturn
  split
  · exact Or.inl rfl
  · exact caseNewLine_depth m

theorem caseSlash_depth (nc : Int) (m : MachineState) : DepthSpec m (caseSlash nc m) := by
  unfold caseSlash caseNone
  dsimp only
  repeat' split
  all_goals exact Or.inl rfl

theorem caseStar_depth (nc : Int) (m : MachineState) : DepthSpec m (caseStar nc m) := by
  unfold caseStar caseNone
  repeat' split
  all_goals exact Or.inl rfl

theorem caseHash_depth (nc : Int) (m : MachineState) : DepthSpec m (caseHash nc m) := by
  unfold caseHash caseNone
  repeat' split
  all_goals exact Or.inl rfl

theorem caseBang_depth (m : MachineState) : DepthSpec m (caseBang m) := by
  unfold caseBang caseNone
  repeat' split
  all_goals exact Or.inl rfl

theorem caseSingleQuote_depth (m : MachineState) : DepthSpec m (caseSingleQuote m) := by
  unfold caseSingleQuote caseNone
  dsimp only
  repeat' split
  all_goals exact Or.inl rfl

theorem caseDoubleQuote_depth (m : MachineState) : DepthSpec m (caseDoubleQuote m) := by
  unfold caseDoubleQuote caseNone
  dsimp only
  repeat' split
  all_goals exact Or.inl rfl

theorem caseBacktick_depth (m : MachineState) : DepthSpec m (caseBacktick m) := by
  unfold caseBacktick caseNone
  dsimp only
  repeat' split
  all_goals exact Or.inl rfl

theorem caseBackslash_depth (nc : Int) (m : MachineState) : DepthSpec m (caseBackslash nc m) := by
  unfold caseBackslash caseNone
  dsimp only
  repeat' split
  all_goals exact Or.inl rfl

theorem caseDollar_depth (nc : Int) (m : MachineState) : DepthSpec m (caseDollar nc m) := by
  unfold caseDollar caseNone
  repeat' split
  all_goals exact Or.inl rfl

theorem caseOpenBrace_depth (m : MachineState) : DepthSpec m (caseOpenBrace m) := by
  unfold caseOpenBrace caseNone
  repeat' split
  · exact Or.inr (Or.inl rfl)
  all_goals exact Or.inl rfl

theorem caseCloseBrace_depth (m : MachineState) : DepthSpec m (caseCloseBrace m) := by
  unfold caseCloseBrace caseNone
  repeat' split
  all_goals
    first
    | exact Or.inl rfl
    | (rename_i h; exact Or.inr (Or.inr ⟨h.2, rfl⟩))

theorem caseOpenBracket_depth (m : MachineState) : DepthSpec m (caseOpenBracket m) := by
  unfold caseOpenBracket caseNone
  repeat' split
  all_goals exact Or.inl rfl

theorem caseCloseBracket_depth (m : MachineState) : DepthSpec m (caseCloseBracket m) := by
  unfold caseCloseBracket caseNone
  repeat' split
  all_goals exact Or.inl rfl

/-- The brace depth resulting from one dispatch: unchanged, incremented, or
decremented under the explicit `braceDepth > 0` error-recovery guard. -/
theorem stepDispatch_depth (ch nextCh : Int) (m : MachineState) :
    (stepDispatch ch nextCh m).2.1 = m.braceDepth ∨
    (stepDispatch ch nextCh m).2.1 = m.braceDepth + 1 ∨
    (0 < m.braceDepth ∧ (stepDispatch ch nextCh m).2.1 = m.braceDepth - 1) := by
  show DepthSpec m (stepDispatch ch nextCh m)
  unfold stepDispatch
  by_cases h1 : ch = code_CarriageReturn
  · simp only [if_pos h1]; exact caseCarriageReturn_depth nextCh m
  simp only [if_neg h1]
  by_cases h2 : ch = code_NewLine
  · simp only [if_pos h2]; exact caseNewLine_depth m
  simp only [if_neg h2]
  by_cases h3 : ch = code_Slash
  · simp only [if_pos h3]; exact caseSlash_depth nextCh m
  simp only [if_neg h3]
  by_cases h4 : ch = code_Star
  · simp only [if_pos h4]; exact caseStar_depth nextCh m
  simp only [if_neg h4]
  by_cases h5 : ch = code_Hash
  · simp only [if_pos h5]; exact caseHash_depth nextCh m
  simp only [if_neg h5]
  by_cases h6 : ch = code_Bang
  · simp only [if_pos h6]; exact caseBang_depth m
  simp only [if_neg h6]
  by_cases h7 : ch = code_SingleQuote
  · simp only [if_pos h7]; exact caseSingleQuote_depth m
  simp only [if_neg h7]
  by_cases h8 : ch = code_DoubleQuote
  · simp only [if_pos h8]; exact caseDoubleQuote_depth m
  simp only [if_neg h8]
  by_cases h9 : ch = code_Backtick
  · simp only [if_pos h9]; exact caseBacktick_depth m
  simp only [if_neg h9]
  by_cases h10 : ch = code_Backslash
  · simp only [if_pos h10]; exact caseBackslash_depth nextCh m
  simp only [if_neg h10]
  by_cases h11 : ch = code_Dollar
  · simp only [if_pos h11]; exact caseDollar_depth nextCh m
  simp only [if_neg h11]
  by_cases h12 : ch = code_OpenBrace
  · simp only [if_pos h12]; exact caseOpenBrace_depth m
  simp only [if_neg h12]
  by_cases h13 : ch = code_CloseBrace
  · simp only [if_pos h13]; exact caseCloseBrace_depth m
  simp only [if_neg h13]
  by_cases h14 : ch = code_OpenBracket
  · simp only [if_pos h14]; exact caseOpenBracket_depth m
  simp only [if_neg h14]
  by_cases h15 : ch = code_CloseBracket
  · simp only [if_pos h15]; exact caseCloseBracket_depth m
  simp only [if_neg h15]
  exact caseNone_depth m

/-- One step never drives the brace depth negative. -/
theorem step_braceDepth_nonneg (ch nextCh : Int) (m : MachineState)
    (h : 0 ≤ m.braceDepth) : 0 ≤ (step ch nextCh m).next.braceDepth := by
  have hd := stepDispatch_depth ch nextCh m
  rw [step_next_braceDepth]
  rcases hd with h1 | h1 | ⟨h1, h2⟩ <;> omega

/-- After any step sequence, the brace depth stays non-negative. -/
theorem runSteps_braceDepth_nonneg (m : MachineState) (h : 0 ≤ m.braceDepth)
    (l : List (Int × Int)) : 0 ≤ (runSteps m l).braceDepth := by
  induction l generalizing m with
  | nil => exact h
  | cons p rest ih =>
    have := step_braceDepth_nonneg p.1 p.2 m h
    simpa [runSteps, List.foldl_cons] using ih _ this

/-- A `}` character always dispatches through `caseCloseBrace`. -/
theorem stepDispatch_closeBrace (nc : Int) (m : MachineState) :
    stepDispatch code_CloseBrace nc m = caseCloseBrace m := by
  unfold stepDispatch
  norm_num [code_CloseBrace, code_CarriageReturn, code_NewLine, code_Slash, code_Star,
    code_Hash, code_Bang, code_SingleQuote, code_DoubleQuote, code_Backtick, code_Backslash,
    code_Dollar, code_OpenBrace, code_OpenBracket, code_CloseBracket]

/-- The state after a `}` character: template-string mode exactly when the
snapshot stack is non-empty with its top equal to the current brace depth. -/
theorem step_closeBrace_state (nc : Int) (m : MachineState) :
    (step code_CloseBrace nc m).next.state =
      (if m.templateStringBraceDepthStack.head? = some m.braceDepth then TState.TemplateString
       else m.state) := by
  obtain ⟨ms, md, mk, mb⟩ := m
  rw [step_next_state, stepDispatch_closeBrace]
  unfold caseCloseBrace caseNone
  cases mk with
  | nil =>
    dsimp only
    rw [if_neg (show ¬(([] : List Int).head? = some md) by simp)]
    split <;> rfl
  | cons top rest =>
    dsimp only
    by_cases hd : md = top
    · rw [if_pos hd, if_pos (show (top :: rest).head? = some md by simp [hd])]
      rfl
    · rw [if_neg hd,
        if_neg (show ¬((top :: rest).head? = some md) by
          simp only [List.head?_cons, Option.some.injEq]
          exact fun h => hd h.symm)]
      split <;> rfl

/-- The brace depth after a `}` character. -/
theorem step_closeBrace_braceDepth (nc : Int) (m : MachineState) :
    (step code_CloseBrace nc m).next.braceDepth =
      (if m.templateStringBraceDepthStack.head? = some m.braceDepth then m.braceDepth
       else if m.state = .Default ∧ m.braceDepth > 0 then m.braceDepth - 1
       else m.braceDepth) := by
  obtain ⟨ms, md, mk, mb⟩ := m
  rw [step_next_braceDepth, stepDispatch_closeBrace]
  unfold caseCloseBrace caseNone
  cases mk with
  | nil =>
    dsimp only
    rw [if_neg (show ¬(([] : List Int).head? = some md) by simp)]
    split <;> rfl
  | cons top rest =>
    dsimp only
    by_cases hd : md = top
    · rw [if_pos hd, if_pos (show (top :: rest).head? = some md by simp [hd])]
    · rw [if_neg hd,
        if_neg (show ¬((top :: rest).head? = some md) by
          simp only [List.head?_cons, Option.some.injEq]
          exact fun h => hd h.symm)]
      split <;> rfl

/-- Character-level behaviour of `}`: it re-enters template-string mode
exactly when the snapshot stack is non-empty and the global brace depth
equals its top (for a machine not already in template-string state). -/
theorem step_closeBrace_template (nc : Int) (m : MachineState)
    (hm : m.state ≠ .TemplateString) :
    (step code_CloseBrace nc m).next.state = .TemplateString ↔
      (∃ t, m.templateStringBraceDepthStack.head? = some t ∧ m.braceDepth = t) := by
  rw [step_closeBrace_state]
  by_cases hc : m.templateStringBraceDepthStack.head? = some m.braceDepth
  · rw [if_pos hc]
    exact ⟨fun _ => ⟨m.braceDepth, hc, rfl⟩, fun _ => rfl⟩
  · rw [if_neg hc]
    constructor
    · intro h
      exact absurd h hm
    · rintro ⟨t, ht, hbt⟩
      exact absurd (by rw [hbt]; exact ht) hc

/-- Character-level behaviour of `}` on the depth: in default state at depth
0 with no snapshot at depth 0, the depth is unchanged. -/
theorem step_closeBrace_depth (nc : Int) (m : MachineState)
    (hs : m.state = .Default) (hd : m.braceDepth = 0)
    (hk : m.templateStringBraceDepthStack.head? ≠ some 0) :
    (step code_CloseBrace nc m).next.braceDepth = m.braceDepth := by
  rw [step_closeBrace_braceDepth]
  rw [if_neg (fun hcc => hk (hd ▸ hcc))]
  rw [if_neg (fun hg => absurd hg.2 (by omega))]

/-! ## Claim C4 and C10 theorems -/
/-- C4: scanning `` `a${b}c` `` from the default state classifies the
backtick-delimited characters `a` and `c` (and the delimiters and `${`/`}`)
as `string` while `b` classifies as `code` via the expression-hole
transition; in a hole containing a nested balanced brace pair (here
`` `a${ {x:1} }c` ``) the inner `}` stays `code` (it does not close the
hole) and only the depth-matched `}` returns to `string`; and in general a
`}` ends a template hole only when the snapshot stack is non-empty and the
global brace depth equals its most recent snapshot. -/
theorem C4_template_literal_classification :
    ((scanKinds createMachine [96, 97, 36, 123, 98, 125, 99, 96]).map Prod.fst =
      [.string, .string, .string, .string, .code, .string, .string, .string]) ∧
    ((scanKinds createMachine
        [96, 97, 36, 123, 32, 123, 120, 58, 49, 125, 32, 125, 99, 96]).map Prod.fst =
      [.string, .string, .string, .string, .whitespace, .code, .code, .code, .code, .code,
       .whitespace, .string, .string, .string]) ∧
    (∀ (nc : Int) (m : MachineState), m.state ≠ .TemplateString →
      (step code_CloseBrace nc m).next.state = .TemplateString →
      m.templateStringBraceDepthStack ≠ [] ∧
        m.templateStringBraceDepthStack.head? = some m.braceDepth) := by
  refine ⟨by decide, by decide, ?_⟩
  intro nc m hm hstep
  obtain ⟨t, ht, hbt⟩ := (step_closeBrace_template nc m hm).mp hstep
  constructor
  · intro hnil
    rw [hnil] at ht
    simp at ht
  · rw [hbt]
    exact ht

/-- Witness for C4: the hole-ending condition applied at a concrete state
(default state, depth 2, snapshot stack `[2]`, where `}` does end the hole). -/
theorem C4_template_literal_classification_witness :
    (⟨.Default, 2, [2], false⟩ : MachineState).templateStringBraceDepthStack ≠ [] ∧
    (⟨.Default, 2, [2], false⟩ : MachineState).templateStringBraceDepthStack.head? =
      some (⟨.Default, 2, [2], false⟩ : MachineState).braceDepth :=
  C4_template_literal_classification.2.2 (-1) ⟨.Default, 2, [2], false⟩
    (by decide) (by decide)

/-- C10: from the initial machine, any sequence of steps keeps the internal
brace-depth counter non-negative; a `}` seen in default code state at depth
0 with no snapshot equal to 0 on top of the hole stack leaves the depth
unchanged; and a `}` re-enters template-string mode (from a non-template
state) exactly when the depth equals the most recent expression-hole
snapshot. -/
theorem C10_braceDepth_invariant :
    (∀ l : List (Int × Int), 0 ≤ (runSteps createMachine l).braceDepth) ∧
    (∀ (nc : Int) (m : MachineState), m.state = .Default → m.braceDepth = 0 →
      m.templateStringBraceDepthStack.head? ≠ some 0 →
      (step code_CloseBrace nc m).next.braceDepth = m.braceDepth) ∧
    (∀ (nc : Int) (m : MachineState), m.state ≠ .TemplateString →
      ((step code_CloseBrace nc m).next.state = .TemplateString ↔
        (∃ t, m.templateStringBraceDepthStack.head? = some t ∧ m.braceDepth = t))) :=
  ⟨fun l => runSteps_braceDepth_nonneg createMachine (by decide) l,
   fun nc m h1 h2 h3 => step_closeBrace_depth nc m h1 h2 h3,
   fun nc m hm => step_closeBrace_template nc m hm⟩

/-- Witness for C10: concrete instances — a short step sequence (`{` then
`}`), the depth-preservation of `}` at a concrete state, and the
template-re-entry equivalence at a concrete state where it fires. -/
theorem C10_braceDepth_invariant_witness :
    0 ≤ (runSteps createMachine [(123, 125), (125, -1)]).braceDepth ∧
    (step code_CloseBrace (-1) ⟨.Default, 0, [1], false⟩).next.braceDepth = 0 ∧
    (step code_CloseBrace (-1) ⟨.Default, 3, [3], false⟩).next.state = .TemplateString := by
  refine ⟨C10_braceDepth_invariant.1 _, ?_, ?_⟩
  · exact C10_braceDepth_invariant.2.1 (-1) ⟨.Default, 0, [1], false⟩ rfl rfl (by decide)
  · exact (C10_braceDepth_invariant.2.2 (-1) ⟨.Default, 3, [3], false⟩ (by decide)).mpr
      ⟨3, rfl, rfl⟩

/-! ## Supporting lemmas for the trace-ingestion claims -/
theorem countB_cons (e : Event) (l : List Event) :
    countB (e :: l) = (if e.ph = "B" then 1 else 0) + countB l := by
  simp only [countB, List.filter_cons]
  by_cases h : e.ph = "B" <;> simp [h, Nat.add_comm]

theorem countE_cons (e : Event) (l : List Event) :
    countE (e :: l) = (if e.ph = "E" then 1 else 0) + countE l := by
  simp only [countE, List.filter_cons]
  by_cases h : e.ph = "E" <;> simp [h, Nat.add_comm]

theorem processEvent_MiI (d : Int) (st : ParseState) (e : Event)
    (h : e.ph = "M" ∨ e.ph = "i" ∨ e.ph = "I") : processEvent d st e = .ok st := by
  rcases h with h | h | h <;> simp [processEvent, h]

theorem processEvent_B (d : Int) (st : ParseState) (e : Event) (h : e.ph = "B") :
    processEvent d st e = .ok { st with unclosedStack := e :: st.unclosedStack } := by
  simp [processEvent, h]

theorem processEvent_E_nil (d : Int) (st : ParseState) (e : Event) (h : e.ph = "E")
    (hs : st.unclosedStack = []) : processEvent d st e = .error .endWithEmptyStack := by
  simp only [processEvent, h, hs]
  rfl

theorem processEvent_E_cons (d : Int) (st : ParseState) (e : Event) (b : Event)
    (r : List Event) (h : e.ph = "E") (hs : st.unclosedStack = b :: r) :
    processEvent d st e =
      .ok { minTime := some (match st.minTime with | none => b.ts | some m => min m b.ts)
            maxTime := max st.maxTime e.ts
            unclosedStack := r
            spans := if d ≤ e.ts - b.ts then st.spans ++ [⟨some b, b.ts, e.ts⟩] else st.spans
            nodeModulePaths := recordNodeModulePaths st.nodeModulePaths ⟨some b, b.ts, e.ts⟩ } := by
  simp only [processEvent, h, hs]
  rfl

theorem processEvent_X (d : Int) (st : ParseState) (e : Event) (h : e.ph = "X") :
    processEvent d st e =
      .ok { minTime := some (match st.minTime with | none => e.ts | some m => min m e.ts)
            maxTime := max st.maxTime (e.ts + e.dur)
            unclosedStack := st.unclosedStack
            spans := if d ≤ e.ts + e.dur - e.ts then st.spans ++ [⟨some e, e.ts, e.ts + e.dur⟩]
                     else st.spans
            nodeModulePaths := recordNodeModulePaths st.nodeModulePaths
              ⟨some e, e.ts, e.ts + e.dur⟩ } := by
  simp only [processEvent, h]
  rfl

/-- If some prefix of the remaining events contains more Ends than Begins
(counting the still-open Begins on the stack), the fold aborts with the
empty-stack error. -/
theorem foldl_parse_err (d : Int) :
    ∀ (evs : List Event) (st : ParseState),
      (∀ e ∈ evs, validPhase e) →
      (∃ n, countB (evs.take n) + st.unclosedStack.length < countE (evs.take n)) →
      List.foldlM (processEvent d) st evs = .error .endWithEmptyStack := by
  intro evs
  induction evs with
  | nil =>
    rintro st hval ⟨n, hn⟩
    simp [countB, countE] at hn
  | cons e rest ih =>
    rintro st hval ⟨n, hn⟩
    have hvale := hval e (List.mem_cons_self _ _)
    have hvalr : ∀ x ∈ rest, validPhase x := fun x hx => hval x (List.mem_cons_of_mem _ hx)
    match n with
    | 0 => simp [countB, countE] at hn
    | n + 1 =>
      rw [List.take_succ_cons, countB_cons, countE_cons] at hn
      rcases hvale with h | h | h | h | h | h
      · rw [List.foldlM_cons, processEvent_MiI d st e (Or.inl h)]
        exact ih st hvalr ⟨n, by simp [h] at hn; omega⟩
      · rw [List.foldlM_cons, processEvent_MiI d st e (Or.inr (Or.inl h))]
        exact ih st hvalr ⟨n, by simp [h] at hn; omega⟩
      · rw [List.foldlM_cons, processEvent_MiI d st e (Or.inr (Or.inr h))]
        exact ih st hvalr ⟨n, by simp [h] at hn; omega⟩
      · rw [List.foldlM_cons, processEvent_B d st e h]
        refine ih _ hvalr ⟨n, ?_⟩
        simp only [h, if_pos, List.length_cons] at hn ⊢
        simp at hn
        omega
      · cases hs : st.unclosedStack with
        | nil =>
          rw [List.foldlM_cons, processEvent_E_nil d st e h hs]
          rfl
        | cons b r =>
          rw [List.foldlM_cons, processEvent_E_cons d st e b r h hs]
          refine ih _ hvalr ⟨n, ?_⟩
          simp only [h, hs, List.length_cons] at hn ⊢
          simp at hn
          omega
      · rw [List.foldlM_cons, processEvent_X d st e h]
        refine ih _ hvalr ⟨n, ?_⟩
        simp [h] at hn
        dsimp only
        omega

/-! ## Claim C8 theorem -/
/-- C8: if at any point of the trace an End event arrives with no open
Begin left on the stack — i.e. some prefix contains strictly more `E`
events than `B` events — `parse` aborts fatally with the empty-stack error
(the model of the `unclosedStack.pop()!` dereference fault) instead of
producing a result. -/
theorem C8_end_without_begin_fatal (evs : List Event) (d : Int)
    (hval : ∀ e ∈ evs, validPhase e)
    (hbad : ∃ n, countB (evs.take n) < countE (evs.take n)) :
    parse evs d = .error .endWithEmptyStack := by
  obtain ⟨n, hn⟩ := hbad
  exact foldl_parse_err d evs initialParseState hval ⟨n, by simp [initialParseState]; omega⟩

/-- Witness for C8: a lone End event aborts parsing. -/
theorem C8_end_without_begin_fatal_witness :
    parse [⟨"E", 30, 0, "endEvent", none⟩] 0 = .error .endWithEmptyStack :=
  C8_end_without_begin_fatal [⟨"E", 30, 0, "endEvent", none⟩] 0
    (by intro e he; simp at he; subst he; right; right; right; right; left; rfl)
    ⟨1, by decide⟩

/-! ## Sorting lemmas (the stable `Array.sort` abstraction) -/
theorem insertW_perm {α : Type} (le : α → α → Bool) (x : α) (l : List α) :
    (insertW le x l).Perm (x :: l) := by
  induction l with
  | nil => exact List.Perm.refl _
  | cons y ys ih =>
    unfold insertW
    split
    · exact (ih.cons y).trans (List.Perm.swap x y ys)
    · exact List.Perm.refl _

theorem sortW_perm {α : Type} (le : α → α → Bool) (l : List α) : (sortW le l).Perm l := by
  have main : ∀ (l acc : List α),
      (l.foldl (fun a x => insertW le x a) acc).Perm (acc ++ l) := by
    intro l
    induction l with
    | nil => intro acc; simp
    | cons x xs ih =>
      intro acc
      have h1 : (xs.foldl (fun a x => insertW le x a) (insertW le x acc)).Perm
          ((insertW le x acc) ++ xs) := ih (insertW le x acc)
      have h2 : ((insertW le x acc) ++ xs).Perm ((x :: acc) ++ xs) :=
        (insertW_perm le x acc).append_right xs
      have h3 : ((x :: acc) ++ xs).Perm (acc ++ x :: xs) := by
        simpa using List.perm_middle.symm
      simpa [sortW, List.foldl_cons] using (h1.trans h2).trans h3
  simpa [sortW] using main l []

theorem mem_sortW {α : Type} (le : α → α → Bool) (l : List α) (x : α) :
    x ∈ sortW le l ↔ x ∈ l :=
  (sortW_perm le l).mem_iff

/-- Sortedness of `insertW` / `sortW` under a transitive, total boolean
order. -/
theorem insertW_pairwise {α : Type} (le : α → α → Bool)
    (htrans : ∀ a b c, le a b = true → le b c = true → le a c = true)
    (htotal : ∀ a b, le a b = true ∨ le b a = true)
    (x : α) (l : List α) (hl : l.Pairwise (fun a b => le a b = true)) :
    (insertW le x l).Pairwise (fun a b => le a b = true) := by
  induction l with
  | nil => simp [insertW]
  | cons y ys ih =>
    rcases List.pairwise_cons.mp hl with ⟨hy, hys⟩
    unfold insertW
    split
    · rename_i hyx
      refine List.Pairwise.cons ?_ (ih hys)
      intro z hz
      rcases List.mem_cons.mp ((insertW_perm le x ys).mem_iff.mp hz) with hz | hz
      · subst hz; exact hyx
      · exact hy z hz
    · rename_i hyx
      have hxy : le x y = true := by
        rcases htotal x y with h | h
        · exact h
        · exact absurd h hyx
      refine List.Pairwise.cons ?_ (List.pairwise_cons.mpr ⟨hy, hys⟩)
      intro z hz
      rcases List.mem_cons.mp hz with hz | hz
      · subst hz; exact hxy
      · exact htrans x y z hxy (hy z hz)

theorem sortW_pairwise {α : Type} (le : α → α → Bool)
    (htrans : ∀ a b c, le a b = true → le b c = true → le a c = true)
    (htotal : ∀ a b, le a b = true ∨ le b a = true)
    (l : List α) : (sortW le l).Pairwise (fun a b => le a b = true) := by
  have main : ∀ (l acc : List α), acc.Pairwise (fun a b => le a b = true) →
      (l.foldl (fun a x => insertW le x a) acc).Pairwise (fun a b => le a b = true) := by
    intro l
    induction l with
    | nil => intro acc h; simpa using h
    | cons x xs ih =>
      intro acc h
      exact ih _ (insertW_pairwise le htrans htotal x acc h)
  exact main l [] (by simp)

/-! ## Claim C7: the `end >= start` invariant -/
theorem processEvent_unknown (d : Int) (st : ParseState) (e : Event)
    (h : ¬validPhase e) : processEvent d st e = .error .unknownPhase := by
  simp only [validPhase] at h
  push_neg at h
  obtain ⟨h1, h2, h3, h4, h5, h6⟩ := h
  simp only [processEvent, h1, h2, h3, h4, h5, h6]
  rfl

/-- Fold invariant for span well-formedness: with non-decreasing timestamps
and non-negative Complete durations, every span `parse` accumulates has
`start ≤ stop`. -/
theorem foldl_parse_spans_ok (d : Int) :
    ∀ (evs : List Event) (st st' : ParseState),
      List.Pairwise (fun a b => a.ts ≤ b.ts) evs →
      (∀ e ∈ evs, 0 ≤ e.dur) →
      (∀ s ∈ st.spans, s.start ≤ s.stop) →
      (∀ b ∈ st.unclosedStack, ∀ e' ∈ evs, b.ts ≤ e'.ts) →
      List.foldlM (processEvent d) st evs = .ok st' →
      ∀ s ∈ st'.spans, s.start ≤ s.stop := by
  intro evs
  induction evs with
  | nil =>
    intro st st' _ _ hspans _ hfold
    simp only [List.foldlM_nil] at hfold
    injection hfold with hfold
    exact hfold ▸ hspans
  | cons e rest ih =>
    intro st st' hsort hdur hspans hstack hfold
    have hsort' := (List.pairwise_cons.mp hsort).2
    have hhead := (List.pairwise_cons.mp hsort).1
    have hdur' : ∀ x ∈ rest, 0 ≤ x.dur := fun x hx => hdur x (List.mem_cons_of_mem _ hx)
    rw [List.foldlM_cons] at hfold
    by_cases hM : e.ph = "M" ∨ e.ph = "i" ∨ e.ph = "I"
    · rw [processEvent_MiI d st e hM] at hfold
      have hfold' : List.foldlM (processEvent d) st rest = .ok st' := hfold
      exact ih st st' hsort' hdur' hspans
        (fun b hb e' he' => hstack b hb e' (List.mem_cons_of_mem _ he')) hfold'
    by_cases hB : e.ph = "B"
    · rw [processEvent_B d st e hB] at hfold
      have hfold' : List.foldlM (processEvent d)
          { st with unclosedStack := e :: st.unclosedStack } rest = .ok st' := hfold
      refine ih { st with unclosedStack := e :: st.unclosedStack } st' hsort' hdur'
        hspans ?_ hfold'
      intro b hb e' he'
      rcases List.mem_cons.mp hb with hb | hb
      · subst hb; exact hhead e' he'
      · exact hstack b hb e' (List.mem_cons_of_mem _ he')
    by_cases hE : e.ph = "E"
    · cases hs : st.unclosedStack with
      | nil =>
        rw [processEvent_E_nil d st e hE hs] at hfold
        have hfold' : (Except.error ParseError.endWithEmptyStack : Except ParseError ParseState) =
            .ok st' := hfold
        exact Except.noConfusion hfold'
      | cons b r =>
        rw [processEvent_E_cons d st e b r hE hs] at hfold
        have hfold' : List.foldlM (processEvent d)
            { minTime := some (match st.minTime with | none => b.ts | some m => min m b.ts)
              maxTime := max st.maxTime e.ts
              unclosedStack := r
              spans := if d ≤ e.ts - b.ts then st.spans ++ [⟨some b, b.ts, e.ts⟩] else st.spans
              nodeModulePaths := recordNodeModulePaths st.nodeModulePaths ⟨some b, b.ts, e.ts⟩ }
            rest = .ok st' := hfold
        refine ih _ st' hsort' hdur' ?_ ?_ hfold'
        · intro s hsmem
          dsimp only at hsmem
          split at hsmem
          · rcases List.mem_append.mp hsmem with hsmem | hsmem
            · exact hspans s hsmem
            · have hb : b.ts ≤ e.ts := by
                refine hstack b ?_ e (List.mem_cons_self _ _)
                rw [hs]
                exact List.mem_cons_self _ _
              simp only [List.mem_singleton] at hsmem
              subst hsmem
              exact hb
          · exact hspans s hsmem
        · intro b' hb' e' he'
          refine hstack b' ?_ e' (List.mem_cons_of_mem _ he')
          rw [hs]
          exact List.mem_cons_of_mem _ hb'
    by_cases hX : e.ph = "X"
    · rw [processEvent_X d st e hX] at hfold
      have hfold' : List.foldlM (processEvent d)
          { minTime := some (match st.minTime with | none => e.ts | some m => min m e.ts)
            maxTime := max st.maxTime (e.ts + e.dur)
            unclosedStack := st.unclosedStack
            spans := if d ≤ e.ts + e.dur - e.ts then st.spans ++ [⟨some e, e.ts, e.ts + e.dur⟩]
                     else st.spans
            nodeModulePaths := recordNodeModulePaths st.nodeModulePaths
              ⟨some e, e.ts, e.ts + e.dur⟩ }
          rest = .ok st' := hfold
      refine ih _ st' hsort' hdur' ?_ ?_ hfold'
      · intro s hsmem
        dsimp only at hsmem
        split at hsmem
        · rcases List.mem_append.mp hsmem with hsmem | hsmem
          · exact hspans s hsmem
          · have hd : 0 ≤ e.dur := hdur e (List.mem_cons_self _ _)
            simp only [List.mem_singleton] at hsmem
            subst hsmem
            dsimp only
            omega
        · exact hspans s hsmem
      · intro b' hb' e' he'
        exact hstack b' hb' e' (List.mem_cons_of_mem _ he')
    · rw [processEvent_unknown d st e (by simp [validPhase]; tauto)] at hfold
      have hfold' : (Except.error ParseError.unknownPhase : Except ParseError ParseState) =
          .ok st' := hfold
      exact Except.noConfusion hfold'

/-- C7 counterexample: the claim as stated is false.  A trace consisting of
one unterminated Begin at ts 50 is monotonic with non-negative durations,
but re-insertion gives it the synthetic end `maxTime = 0` (no resolved span
ever raised `maxTime`), producing a span with `end < start` in the list the
tree builder processes. -/
theorem C7_end_ge_start_counterexample :
    ¬(∀ (evs : List Event) (d : Int) (st : ParseState),
        List.Pairwise (fun a b => a.ts ≤ b.ts) evs →
        (∀ e ∈ evs, 0 ≤ e.dur) →
        parse evs d = .ok st →
        ∀ s ∈ sortedSpans st, s.start ≤ s.stop) := by
  intro h
  have := h [⟨"B", 50, 0, "createProgram", none⟩] 0
    ⟨none, 0, [⟨"B", 50, 0, "createProgram", none⟩], [], []⟩
    (by simp) (by simp) (by decide)
    ⟨some ⟨"B", 50, 0, "createProgram", none⟩, 50, 0⟩ (by decide)
  exact absurd this (by decide)

/-- C7 (amended): under monotonic timestamps and non-negative durations,
every span processed by the hot-path tree builder satisfies `end ≥ start`,
PROVIDED every unterminated Begin's timestamp is at most the overall
maximum resolved-span end (`maxTime`); the counterexample above shows the
proviso is necessary — a Begin event starting after every resolved span's
end (or a trace with no resolved span at all) yields a re-inserted span
with `end < start`. -/
theorem C7_end_ge_start_amended (evs : List Event) (d : Int) (st : ParseState)
    (hsort : List.Pairwise (fun a b => a.ts ≤ b.ts) evs)
    (hdur : ∀ e ∈ evs, 0 ≤ e.dur)
    (hok : parse evs d = .ok st)
    (hmax : ∀ e ∈ st.unclosedStack, e.ts ≤ st.maxTime) :
    ∀ s ∈ sortedSpans st, s.start ≤ s.stop := by
  intro s hs
  have hmem : s ∈ withUnclosed st := (mem_sortW _ _ _).mp hs
  rcases List.mem_append.mp hmem with hmem | hmem
  · exact foldl_parse_spans_ok d evs initialParseState st hsort hdur
      (by simp [initialParseState]) (by simp [initialParseState]) hok s hmem
  · obtain ⟨e, he, rfl⟩ := List.mem_map.mp hmem
    exact hmax e he

/-- Witness for the amended C7: a Begin/End pair plus a Complete event,
checked at the Complete event's span. -/
theorem C7_end_ge_start_amended_witness :
    ((⟨some ⟨"X", 15, 5, "x", none⟩, 15, 20⟩ : Span) ∈
      sortedSpans ⟨some 10, 30, [], [⟨some ⟨"X", 15, 5, "x", none⟩, 15, 20⟩,
        ⟨some ⟨"B", 10, 0, "a", none⟩, 10, 30⟩], []⟩) ∧
    (⟨some ⟨"X", 15, 5, "x", none⟩, 15, 20⟩ : Span).start ≤
      (⟨some ⟨"X", 15, 5, "x", none⟩, 15, 20⟩ : Span).stop :=
  ⟨by decide,
    C7_end_ge_start_amended
      [⟨"B", 10, 0, "a", none⟩, ⟨"X", 15, 5, "x", none⟩, ⟨"E", 30, 0, "e", none⟩] 0
      ⟨some 10, 30, [], [⟨some ⟨"X", 15, 5, "x", none⟩, 15, 20⟩,
          ⟨some ⟨"B", 10, 0, "a", none⟩, 10, 30⟩], []⟩
      (by simp) (by simp) (by decide) (by simp)
      ⟨some ⟨"X", 15, 5, "x", none⟩, 15, 20⟩ (by decide)⟩

/-! ## Claim C5: termination and cycle behaviour of the type-graph walker -/
theorem foldlM_option_isSome {α β : Type} (f : β → α → Option β) (l : List α)
    (h : ∀ a ∈ l, ∀ b, (f b a).isSome) : ∀ b, (l.foldlM f b).isSome := by
  induction l with
  | nil => intro b; simp
  | cons a rest ih =>
    intro b
    rw [List.foldlM_cons]
    obtain ⟨b', hb'⟩ := Option.isSome_iff_exists.mp (h a (List.mem_cons_self _ _) b)
    rw [hb']
    exact ih (fun x hx => h x (List.mem_cons_of_mem _ hx)) b'

/-- With fuel exceeding the number of distinct ids not yet on the ancestor
path, `addTypeToTree` never exhausts its fuel: each recursive descent pushes
a fresh id from the finite support onto the path. -/
theorem addT_isSome (getSimp : Int → Option JRec) (S : Finset Int)
    (hS : ∀ n, (getSimp n).isSome → n ∈ S) :
    ∀ (fuel : ℕ) (anc : List Int) (entries : List (JRec × TTree)) (id : JVal),
      (S.filter fun n => n ∉ anc).card < fuel →
      (addT getSimp fuel entries id anc).isSome := by
  intro fuel
  induction fuel with
  | zero => intro anc entries id h; exact absurd h (by omega)
  | succ fuel ih =>
    intro anc entries id h
    match id with
    | .arr es => simp [addT]
    | .other => simp [addT]
    | .num n =>
      cases hg : getSimp n with
      | none => simp [addT, hg]
      | some ty =>
        by_cases hanc : n ∈ anc
        · simp [addT, hg, hanc]
        · have hnS : n ∈ S := hS n (by simp [hg])
          have hcard : (S.filter fun x => x ∉ anc ++ [n]).card <
              (S.filter fun x => x ∉ anc).card := by
            refine Finset.card_lt_card ?_
            constructor
            · intro x hx
              simp only [Finset.mem_filter, List.mem_append, List.mem_singleton] at hx ⊢
              exact ⟨hx.1, fun hxa => hx.2 (Or.inl hxa)⟩
            · intro hsub
              have hn1 : n ∈ S.filter fun x => x ∉ anc := by
                simp only [Finset.mem_filter]
                exact ⟨hnS, hanc⟩
              have hn2 := hsub hn1
              simp at hn2
          have hfold : ((childRefs ty).foldlM
              (fun acc v => addT getSimp fuel acc v (anc ++ [n])) []).isSome := by
            refine foldlM_option_isSome _ _ ?_ []
            intro v _ b
            exact ih (anc ++ [n]) b v (by omega)
          obtain ⟨children, hch⟩ := Option.isSome_iff_exists.mp hfold
          simp [addT, hg, hanc, hch]

/-- C5: for every finite family of raw records (any lookup function with
finite support, covering self-referential records), the type-tree build
terminates — fuel one more than the number of distinct ids never runs
out — and an id already on the recursion ancestor path still gets a node
emitted at that occurrence, with an empty children set. -/
theorem C5_type_tree_terminates_and_cycles :
    (∀ (getSimp : Int → Option JRec) (S : Finset Int),
      (∀ n, (getSimp n).isSome → n ∈ S) →
      ∀ (id : Int) (fuel : ℕ), S.card < fuel → (getTypeTree getSimp fuel id).isSome) ∧
    (∀ (getSimp : Int → Option JRec) (fuel : ℕ) (entries : List (JRec × TTree))
        (n : Int) (anc : List Int) (ty : JRec),
      getSimp n = some ty → n ∈ anc →
      addT getSimp (fuel + 1) entries (.num n) anc =
        some (insertEntry ty (.node []) entries)) := by
  constructor
  · intro getSimp S hS id fuel hfuel
    refine addT_isSome getSimp S hS fuel [] [] (.num id) ?_
    calc (S.filter fun n => n ∉ ([] : List Int)).card ≤ S.card := Finset.card_filter_le _ _
      _ < fuel := hfuel
  · intro getSimp fuel entries n anc ty hg hanc
    simp [addT, hg, hanc]

/-! ## Bridging `parse` to the index-annotated replay -/
theorem minTimeFold_append (l : List Span) (s : Span) :
    minTimeFold (l ++ [s]) =
      some (match minTimeFold l with | none => s.start | some m => min m s.start) := by
  simp [minTimeFold, List.foldl_append]

theorem maxTimeFold_append (l : List Span) (s : Span) :
    maxTimeFold (l ++ [s]) = max (maxTimeFold l) s.stop := by
  simp [maxTimeFold, List.foldl_append]

theorem trackStep_MiI (st : TrackSt) (ie : ℕ × Event)
    (h : ie.2.ph = "M" ∨ ie.2.ph = "i" ∨ ie.2.ph = "I") : trackStep st ie = .ok st := by
  rcases h with h | h | h <;> simp [trackStep, h]

theorem trackStep_B (st : TrackSt) (ie : ℕ × Event) (h : ie.2.ph = "B") :
    trackStep st ie = .ok { st with stack := ie :: st.stack } := by
  simp [trackStep, h]

theorem trackStep_E_nil (st : TrackSt) (ie : ℕ × Event) (h : ie.2.ph = "E")
    (hs : st.stack = []) : trackStep st ie = .error .endWithEmptyStack := by
  simp [trackStep, h, hs]

theorem trackStep_E_cons (st : TrackSt) (ie : ℕ × Event) (i : ℕ) (b : Event)
    (r : List (ℕ × Event)) (h : ie.2.ph = "E") (hs : st.stack = (i, b) :: r) :
    trackStep st ie = .ok { stack := r, pairs := st.pairs ++ [.be i b ie.1 ie.2] } := by
  simp [trackStep, h, hs]

theorem trackStep_X (st : TrackSt) (ie : ℕ × Event) (h : ie.2.ph = "X") :
    trackStep st ie = .ok { st with pairs := st.pairs ++ [.xe ie.1 ie.2] } := by
  simp [trackStep, h]

theorem trackStep_unknown (st : TrackSt) (ie : ℕ × Event) (h : ¬validPhase ie.2) :
    trackStep st ie = .error .unknownPhase := by
  simp only [validPhase] at h
  push_neg at h
  obtain ⟨h1, h2, h3, h4, h5, h6⟩ := h
  simp [trackStep, h1, h2, h3, h4, h5, h6]

/-- The fold of `parse` and the fold of the index-annotated replay stay in
lock-step: same error, or related states. -/
theorem parse_track_aux (d : Int) :
    ∀ (evs : List Event) (k : ℕ) (pst : ParseState) (tst : TrackSt),
      ParseTrackRel d pst tst →
      ExceptRel (ParseTrackRel d) (List.foldlM (processEvent d) pst evs)
        (List.foldlM trackStep tst (List.enumFrom k evs)) := by
  intro evs
  induction evs with
  | nil =>
    intro k pst tst hrel
    simpa [ExceptRel] using hrel
  | cons e rest ih =>
    intro k pst tst hrel
    obtain ⟨h1, h2, h3, h4, h5⟩ := hrel
    rw [List.enumFrom_cons, List.foldlM_cons, List.foldlM_cons]
    by_cases hM : e.ph = "M" ∨ e.ph = "i" ∨ e.ph = "I"
    · rw [processEvent_MiI d pst e hM, trackStep_MiI tst (k, e) hM]
      exact ih (k + 1) pst tst ⟨h1, h2, h3, h4, h5⟩
    by_cases hB : e.ph = "B"
    · rw [processEvent_B d pst e hB, trackStep_B tst (k, e) hB]
      exact ih (k + 1) _ _ ⟨by simp [h1], h2, h3, h4, h5⟩
    by_cases hE : e.ph = "E"
    · cases hks : tst.stack with
      | nil =>
        have hnil : pst.unclosedStack = [] := by simp [h1, hks]
        rw [processEvent_E_nil d pst e hE hnil, trackStep_E_nil tst (k, e) hE hks]
        exact rfl
      | cons ib r =>
        have hcons : pst.unclosedStack = ib.2 :: r.map Prod.snd := by simp [h1, hks]
        rw [processEvent_E_cons d pst e ib.2 (r.map Prod.snd) hE hcons,
          trackStep_E_cons tst (k, e) ib.1 ib.2 r hE (by rw [hks])]
        refine ih (k + 1) _ _ ⟨by simp, ?_, ?_, ?_, ?_⟩
        · dsimp only
          rw [h2, List.map_append, List.filter_append]
          simp [pairingSpan]
          by_cases hdur : d ≤ e.ts - ib.2.ts <;> simp [hdur]
        · dsimp only
          rw [h3, List.map_append, List.foldl_append]
          simp [pairingSpan, recordNodeModulePaths]
        · dsimp only
          rw [h4, List.map_append]
          simp [pairingSpan, minTimeFold_append]
        · dsimp only
          rw [h5, List.map_append]
          simp [pairingSpan, maxTimeFold_append]
    by_cases hX : e.ph = "X"
    · rw [processEvent_X d pst e hX, trackStep_X tst (k, e) hX]
      refine ih (k + 1) _ _ ⟨by simp [h1], ?_, ?_, ?_, ?_⟩
      · dsimp only
        rw [h2, List.map_append, List.filter_append]
        have harith : e.ts + e.dur - e.ts = e.dur := by omega
        simp only [List.map_cons, List.map_nil, pairingSpan, harith]
        by_cases hdur : d ≤ e.dur <;> simp [hdur]
      · dsimp only
        rw [h3, List.map_append, List.foldl_append]
        simp [pairingSpan, recordNodeModulePaths]
      · dsimp only
        rw [h4, List.map_append]
        simp [pairingSpan, minTimeFold_append]
      · dsimp only
        rw [h5, List.map_append]
        simp [pairingSpan, maxTimeFold_append]
    · have hval : ¬validPhase e := by simp [validPhase]; tauto
      rw [processEvent_unknown d pst e hval, trackStep_unknown tst (k, e) hval]
      exact rfl

/-- `parse` and `track` agree on every input. -/
theorem parse_track (evs : List Event) (d : Int) :
    ExceptRel (ParseTrackRel d) (parse evs d) (track evs) := by
  have hinit : ParseTrackRel d initialParseState ⟨[], []⟩ := by
    refine ⟨rfl, rfl, rfl, rfl, rfl⟩
  simpa [parse, track, List.enum] using parse_track_aux d evs 0 initialParseState ⟨[], []⟩ hinit

/-! ## The LIFO-pairing invariant of the replay -/
theorem countB_append (l1 l2 : List Event) : countB (l1 ++ l2) = countB l1 + countB l2 := by
  simp [countB, List.filter_append]

theorem countE_append (l1 l2 : List Event) : countE (l1 ++ l2) = countE l1 + countE l2 := by
  simp [countE, List.filter_append]

theorem slice_snoc (evs : List Event) (i k : ℕ) (e : Event)
    (hik : i < k) (hk : evs[k]? = some e) :
    slice evs i (k + 1) = slice evs i k ++ [e] := by
  unfold slice
  have h1 : k + 1 - i - 1 = (k - i - 1) + 1 := by omega
  rw [h1, List.take_succ, List.getElem?_drop]
  have h2 : i + 1 + (k - i - 1) = k := by omega
  rw [h2, hk]
  rfl

theorem slice_split (evs : List Event) (i' i k : ℕ) (b : Event)
    (h1 : i' < i) (h2 : i < k) (hb : evs[i]? = some b) :
    slice evs i' k = slice evs i' i ++ b :: slice evs i k := by
  obtain ⟨hlt, hgeteq⟩ := List.getElem?_eq_some.mp hb
  unfold slice
  have ha : k - i' - 1 = (i - i' - 1) + (k - i) := by omega
  rw [ha, List.take_add]
  congr 1
  rw [List.drop_drop]
  have hidx : i' + 1 + (i - i' - 1) = i := by omega
  rw [hidx, List.drop_eq_getElem_cons hlt, hgeteq]
  have hki : k - i = (k - i - 1) + 1 := by omega
  rw [hki, List.take_succ_cons]
  have hsimp : k - i - 1 + 1 - 1 = k - i - 1 := by omega
  rw [hsimp]

/-- `evs[k]? = some e` and `evs.drop (k+1) = rest` from `evs.drop k = e :: rest`. -/
theorem drop_cons_getElem (evs : List Event) (k : ℕ) (e : Event) (rest : List Event)
    (h : evs.drop k = e :: rest) : evs[k]? = some e ∧ evs.drop (k + 1) = rest := by
  constructor
  · have := List.getElem?_drop evs k 0
    rw [h] at this
    simpa using this.symm
  · have : evs.drop (k + 1) = (evs.drop k).drop 1 := by
      rw [List.drop_drop]
    rw [this, h]
    rfl

theorem countB_take_succ (evs : List Event) (k : ℕ) (e : Event) (hk : evs[k]? = some e) :
    countB (evs.take (k + 1)) = countB (evs.take k) + (if e.ph = "B" then 1 else 0) := by
  have h1 : countB [e] = (if e.ph = "B" then 1 else 0) := by
    by_cases hph : e.ph = "B" <;> simp [countB, hph]
  rw [List.take_succ, hk]
  show countB (evs.take k ++ [e]) = _
  rw [countB_append, h1]

theorem countE_take_succ (evs : List Event) (k : ℕ) (e : Event) (hk : evs[k]? = some e) :
    countE (evs.take (k + 1)) = countE (evs.take k) + (if e.ph = "E" then 1 else 0) := by
  have h1 : countE [e] = (if e.ph = "E" then 1 else 0) := by
    by_cases hph : e.ph = "E" <;> simp [countE, hph]
  rw [List.take_succ, hk]
  show countE (evs.take k ++ [e]) = _
  rw [countE_append, h1]

/-- The main invariant run of the replay: with valid phases on the
remaining events and globally balanced prefixes, the fold succeeds and
every produced pairing satisfies `PairOk`, with every Complete and every
End event accounted for. -/
theorem track_go (evs : List Event)
    (hbal : ∀ n, countE (evs.take n) ≤ countB (evs.take n)) :
    ∀ (l : List Event) (k : ℕ), evs.drop k = l →
      (∀ e ∈ l, validPhase e) →
      ∀ (tst : TrackSt),
        StackOk evs k tst.stack →
        countB (evs.take k) = countE (evs.take k) + tst.stack.length →
        (∀ p ∈ tst.pairs, PairOk evs p) →
        PairsComplete evs k tst.pairs →
        ∃ tst', List.foldlM trackStep tst (List.enumFrom k l) = .ok tst' ∧
          (∀ p ∈ tst'.pairs, PairOk evs p) ∧
          PairsComplete evs evs.length tst'.pairs := by
  intro l
  induction l with
  | nil =>
    intro k hdrop _ tst _ _ hpairs hcompl
    have hk : evs.length ≤ k := List.drop_eq_nil_iff.mp hdrop
    refine ⟨tst, rfl, hpairs, ?_, ?_⟩
    · intro i x hi hx hph
      exact hcompl.1 i x (by omega) hx hph
    · intro j x hj hx hph
      exact hcompl.2 j x (by omega) hx hph
  | cons e rest ih =>
    intro k hdrop hval tst hstack hcount hpairs hcompl
    obtain ⟨hke, hdrop'⟩ := drop_cons_getElem evs k e rest hdrop
    have hklen : k < evs.length := (List.getElem?_eq_some.mp hke).1
    have hvale : validPhase e := hval e (List.mem_cons_self _ _)
    have hvalr : ∀ x ∈ rest, validPhase x := fun x hx => hval x (List.mem_cons_of_mem _ hx)
    obtain ⟨hsA, hsB, hsC, hsD⟩ := hstack
    rw [List.enumFrom_cons, List.foldlM_cons]
    by_cases hM : e.ph = "M" ∨ e.ph = "i" ∨ e.ph = "I"
    · rw [trackStep_MiI tst (k, e) hM]
      refine ih (k + 1) hdrop' hvalr tst ⟨?_, hsB, ?_, hsD⟩ ?_ hpairs ⟨?_, ?_⟩
      · intro p hp
        obtain ⟨hlt, hget, hph⟩ := hsA p hp
        exact ⟨by omega, hget, hph⟩
      · cases hks : tst.stack with
        | nil => trivial
        | cons top r =>
          obtain ⟨htlt, -, -⟩ := hsA top (by rw [hks]; exact List.mem_cons_self _ _)
          have hold : balancedBE (slice evs top.1 k) := by
            rw [hks] at hsC
            exact hsC
          show balancedBE (slice evs top.1 (k + 1))
          rw [slice_snoc evs top.1 k e htlt hke]
          unfold balancedBE at hold ⊢
          rw [countB_append, countE_append]
          have heB : countB [e] = 0 := by
            simp [countB]
            rcases hM with h | h | h <;> simp [h]
          have heE : countE [e] = 0 := by
            simp [countE]
            rcases hM with h | h | h <;> simp [h]
          omega
      · rw [countB_take_succ evs k e hke, countE_take_succ evs k e hke]
        have hnotB : ¬e.ph = "B" := by rcases hM with h | h | h <;> simp [h]
        have hnotE : ¬e.ph = "E" := by rcases hM with h | h | h <;> simp [h]
        simp only [hnotB, hnotE, if_neg]
        omega
      · intro i x hi hx hph
        rcases Nat.lt_succ_iff_lt_or_eq.mp hi with hi | hi
        · exact hcompl.1 i x hi hx hph
        · subst hi
          rw [hke] at hx
          injection hx with hx
          subst hx
          rcases hM with h | h | h <;> simp [h] at hph
      · intro j x hj hx hph
        rcases Nat.lt_succ_iff_lt_or_eq.mp hj with hj | hj
        · exact hcompl.2 j x hj hx hph
        · subst hj
          rw [hke] at hx
          injection hx with hx
          subst hx
          rcases hM with h | h | h <;> simp [h] at hph
    by_cases hB : e.ph = "B"
    · rw [trackStep_B tst (k, e) hB]
      refine ih (k + 1) hdrop' hvalr _ ⟨?_, ?_, ?_, ?_⟩ ?_ hpairs ⟨?_, ?_⟩
      · intro p hp
        rcases List.mem_cons.mp hp with hp | hp
        · subst hp
          exact ⟨by omega, hke, hB⟩
        · obtain ⟨hlt, hget, hph⟩ := hsA p hp
          exact ⟨by omega, hget, hph⟩
      · refine List.chain'_cons'.mpr ⟨?_, hsB⟩
        intro top htop
        have : top ∈ tst.stack := by
          cases hks : tst.stack with
          | nil => rw [hks] at htop; simp at htop
          | cons t r =>
            rw [hks] at htop
            simp at htop
            rw [← htop]
            exact List.mem_cons_self _ _
        exact (hsA top this).1
      · dsimp only
        show balancedBE (slice evs k (k + 1))
        unfold balancedBE slice
        simp [countB, countE]
      · refine List.chain'_cons'.mpr ⟨?_, hsD⟩
        intro top htop
        cases hks : tst.stack with
        | nil => rw [hks] at htop; simp at htop
        | cons t r =>
          rw [hks] at htop
          simp at htop
          subst htop
          rw [hks] at hsC
          exact hsC
      · rw [countB_take_succ evs k e hke, countE_take_succ evs k e hke]
        have hnotE : ("B" : String) ≠ "E" := by decide
        simp only [hB, if_pos, if_neg hnotE]
        simp only [List.length_cons]
        omega
      · intro i x hi hx hph
        rcases Nat.lt_succ_iff_lt_or_eq.mp hi with hi | hi
        · exact hcompl.1 i x hi hx hph
        · subst hi
          rw [hke] at hx
          injection hx with hx
          subst hx
          simp [hB] at hph
      · intro j x hj hx hph
        rcases Nat.lt_succ_iff_lt_or_eq.mp hj with hj | hj
        · exact hcompl.2 j x hj hx hph
        · subst hj
          rw [hke] at hx
          injection hx with hx
          subst hx
          simp [hB] at hph
    by_cases hE : e.ph = "E"
    · have hlen1 : 1 ≤ tst.stack.length := by
        have hb1 := hbal (k + 1)
        rw [countB_take_succ evs k e hke, countE_take_succ evs k e hke] at hb1
        have hnotB : ("E" : String) ≠ "B" := by decide
        simp only [hE, if_neg hnotB, if_pos] at hb1
        omega
      cases hks : tst.stack with
      | nil => rw [hks] at hlen1; simp at hlen1
      | cons ib r =>
        rw [trackStep_E_cons tst (k, e) ib.1 ib.2 r hE hks]
        obtain ⟨hiblt, hibget, hibph⟩ := hsA ib (by rw [hks]; exact List.mem_cons_self _ _)
        have hgapTop : balancedBE (slice evs ib.1 k) := by
          rw [hks] at hsC
          exact hsC
        have hnewpair : PairOk evs (.be ib.1 ib.2 k e) :=
          ⟨hiblt, hibget, hibph, hke, hE, hgapTop⟩
        refine ih (k + 1) hdrop' hvalr _ ⟨?_, ?_, ?_, ?_⟩ ?_ ?_ ⟨?_, ?_⟩
        · intro p hp
          have : p ∈ tst.stack := by rw [hks]; exact List.mem_cons_of_mem _ hp
          obtain ⟨hlt, hget, hph⟩ := hsA p this
          exact ⟨by omega, hget, hph⟩
        · rw [hks] at hsB
          exact (List.chain'_cons'.mp hsB).2
        · dsimp only
          cases hr : r with
          | nil => trivial
          | cons ib2 r2 =>
            obtain ⟨hib2lt, hib2get, -⟩ := hsA ib2
              (by rw [hks, hr]; exact List.mem_cons_of_mem _ (List.mem_cons_self _ _))
            have hords : ib2.1 < ib.1 := by
              rw [hks, hr] at hsB
              exact (List.chain'_cons'.mp hsB).1 ib2 (by simp)
            have hgapInner : balancedBE (slice evs ib2.1 ib.1) := by
              rw [hks, hr] at hsD
              exact (List.chain'_cons'.mp hsD).1 ib2 (by simp)
            show balancedBE (slice evs ib2.1 (k + 1))
            rw [slice_snoc evs ib2.1 k e hib2lt hke,
              slice_split evs ib2.1 ib.1 k ib.2 hords hiblt hibget]
            unfold balancedBE at hgapInner hgapTop ⊢
            rw [countB_append, countE_append, countB_append, countE_append,
              countB_cons, countE_cons]
            have heB : countB [e] = 0 := by simp [countB, hE]
            have heE : countE [e] = 1 := by simp [countE, hE]
            have hbB : (if ib.2.ph = "B" then 1 else 0) = 1 := by simp [hibph]
            have hbE : (if ib.2.ph = "E" then 1 else 0) = 0 := by simp [hibph]
            omega
        · rw [hks] at hsD
          exact (List.chain'_cons'.mp hsD).2
        · rw [countB_take_succ evs k e hke, countE_take_succ evs k e hke]
          have hnotB : ("E" : String) ≠ "B" := by decide
          simp only [hE, if_neg hnotB, if_pos]
          rw [hks] at hcount
          simp only [List.length_cons] at hcount
          omega
        · intro p hp
          rcases List.mem_append.mp hp with hp | hp
          · exact hpairs p hp
          · simp only [List.mem_singleton] at hp
            subst hp
            exact hnewpair
        · intro i x hi hx hph
          rcases Nat.lt_succ_iff_lt_or_eq.mp hi with hi | hi
          · exact List.mem_append_left _ (hcompl.1 i x hi hx hph)
          · subst hi
            rw [hke] at hx
            injection hx with hx
            subst hx
            simp [hE] at hph
        · intro j x hj hx hph
          rcases Nat.lt_succ_iff_lt_or_eq.mp hj with hj | hj
          · obtain ⟨i2, b2, hmem⟩ := hcompl.2 j x hj hx hph
            exact ⟨i2, b2, List.mem_append_left _ hmem⟩
          · subst hj
            rw [hke] at hx
            injection hx with hx
            subst hx
            exact ⟨ib.1, ib.2, List.mem_append_right _ (List.mem_singleton.mpr rfl)⟩
    by_cases hX : e.ph = "X"
    · rw [trackStep_X tst (k, e) hX]
      refine ih (k + 1) hdrop' hvalr _ ⟨?_, hsB, ?_, hsD⟩ ?_ ?_ ⟨?_, ?_⟩
      · intro p hp
        obtain ⟨hlt, hget, hph⟩ := hsA p hp
        exact ⟨by omega, hget, hph⟩
      · dsimp only
        cases hks : tst.stack with
        | nil => trivial
        | cons top r =>
          obtain ⟨htlt, -, -⟩ := hsA top (by rw [hks]; exact List.mem_cons_self _ _)
          have hold : balancedBE (slice evs top.1 k) := by
            rw [hks] at hsC
            exact hsC
          show balancedBE (slice evs top.1 (k + 1))
          rw [slice_snoc evs top.1 k e htlt hke]
          unfold balancedBE at hold ⊢
          rw [countB_append, countE_append]
          have heB : countB [e] = 0 := by simp [countB, hX]
          have heE : countE [e] = 0 := by simp [countE, hX]
          omega
      · rw [countB_take_succ evs k e hke, countE_take_succ evs k e hke]
        have hnotB : ¬e.ph = "B" := by simp [hX]
        have hnotE : ¬e.ph = "E" := by simp [hX]
        simp only [hnotB, hnotE, if_neg]
        omega
      · intro p hp
        rcases List.mem_append.mp hp with hp | hp
        · exact hpairs p hp
        · simp only [List.mem_singleton] at hp
          subst hp
          exact ⟨hke, hX⟩
      · intro i x hi hx hph
        rcases Nat.lt_succ_iff_lt_or_eq.mp hi with hi | hi
        · exact List.mem_append_left _ (hcompl.1 i x hi hx hph)
        · subst hi
          rw [hke] at hx
          injection hx with hx
          subst hx
          exact List.mem_append_right _ (List.mem_singleton.mpr rfl)
      · intro j x hj hx hph
        rcases Nat.lt_succ_iff_lt_or_eq.mp hj with hj | hj
        · obtain ⟨i2, b2, hmem⟩ := hcompl.2 j x hj hx hph
          exact ⟨i2, b2, List.mem_append_left _ hmem⟩
        · subst hj
          rw [hke] at hx
          injection hx with hx
          subst hx
          simp [hX] at hph
    · exact absurd hvale (by simp [validPhase]; tauto)

/-- C2: on a well-formed trace (only known phases, and no prefix with more
End than Begin events), the replay succeeds; every End event is paired with
the most recently pushed unmatched Begin (the strict-LIFO condition, stated
as Begin/End-balance of the events strictly between the pair), yielding the
span from the Begin timestamp to the End timestamp; every Complete (`X`)
event yields the span from its timestamp to timestamp plus duration; and
`parse` succeeds with exactly these spans, filtered by the duration floor. -/
theorem C2_lifo_pairing (evs : List Event) (d : Int)
    (hval : ∀ e ∈ evs, validPhase e)
    (hbal : ∀ n, countE (evs.take n) ≤ countB (evs.take n)) :
    ∃ tst, track evs = Except.ok tst ∧
      (∀ j e, j < evs.length → evs[j]? = some e → e.ph = "E" →
        ∃ i b, Pairing.be i b j e ∈ tst.pairs ∧ i < j ∧ evs[i]? = some b ∧
          b.ph = "B" ∧ balancedBE (slice evs i j) ∧
          pairingSpan (Pairing.be i b j e) = ⟨some b, b.ts, e.ts⟩) ∧
      (∀ i e, i < evs.length → evs[i]? = some e → e.ph = "X" →
        Pairing.xe i e ∈ tst.pairs ∧
        pairingSpan (Pairing.xe i e) = ⟨some e, e.ts, e.ts + e.dur⟩) ∧
      ∃ pst, parse evs d = Except.ok pst ∧
        pst.spans = (tst.pairs.map pairingSpan).filter
          (fun s => decide (d ≤ s.stop - s.start)) := by
  obtain ⟨tst, hfold, hok, hcompl⟩ :=
    track_go evs hbal evs 0 rfl hval ⟨[], []⟩
      ⟨by intro p hp; simp at hp, List.chain'_nil, trivial, List.chain'_nil⟩
      rfl (by intro p hp; simp at hp)
      ⟨by intro i e hi hx hph; simp at hi, by intro j e hj hx hph; simp at hj⟩
  have htrack : track evs = Except.ok tst := by
    have henum : List.enum evs = List.enumFrom 0 evs := rfl
    rw [track, henum]
    exact hfold
  refine ⟨tst, htrack, ?_, ?_, ?_⟩
  · intro j e hj hx hph
    obtain ⟨i, b, hmem⟩ := hcompl.2 j e hj hx hph
    obtain ⟨hij, hib, hbph, -, -, hslice⟩ := hok _ hmem
    exact ⟨i, b, hmem, hij, hib, hbph, hslice, rfl⟩
  · intro i e hi hx hph
    exact ⟨hcompl.1 i e hi hx hph, rfl⟩
  · have hrel := parse_track evs d
    rw [htrack] at hrel
    cases hp : parse evs d with
    | error err => rw [hp] at hrel; exact absurd hrel (by simp [ExceptRel])
    | ok pst =>
      rw [hp] at hrel
      exact ⟨pst, rfl, hrel.2.1⟩

/-- Witness for C2 at the concrete trace `exTraceC2`. -/
theorem C2_lifo_pairing_witness :
    (∀ e ∈ exTraceC2, validPhase e) ∧
    (∀ n, countE (exTraceC2.take n) ≤ countB (exTraceC2.take n)) ∧
    (∃ tst, track exTraceC2 = Except.ok tst ∧
      (∀ j e, j < exTraceC2.length → exTraceC2[j]? = some e → e.ph = "E" →
        ∃ i b, Pairing.be i b j e ∈ tst.pairs ∧ i < j ∧ exTraceC2[i]? = some b ∧
          b.ph = "B" ∧ balancedBE (slice exTraceC2 i j) ∧
          pairingSpan (Pairing.be i b j e) = ⟨some b, b.ts, e.ts⟩) ∧
      (∀ i e, i < exTraceC2.length → exTraceC2[i]? = some e → e.ph = "X" →
        Pairing.xe i e ∈ tst.pairs ∧
        pairingSpan (Pairing.xe i e) = ⟨some e, e.ts, e.ts + e.dur⟩) ∧
      ∃ pst, parse exTraceC2 2 = Except.ok pst ∧
        pst.spans = (tst.pairs.map pairingSpan).filter
          (fun s => decide ((2 : Int) ≤ s.stop - s.start))) := by
  have hval : ∀ e ∈ exTraceC2, validPhase e := by
    intro e he
    fin_cases he <;> simp [validPhase]
  have hbal : ∀ n, countE (exTraceC2.take n) ≤ countB (exTraceC2.take n) := by
    intro n
    rcases Nat.lt_or_ge n 6 with h | h
    · interval_cases n <;> decide
    · rw [List.take_of_length_le (by simp [exTraceC2]; omega)]
      decide
  exact ⟨hval, hbal, C2_lifo_pairing exTraceC2 2 hval hbal⟩

/-- Witness for C5: the self-referential record terminates with fuel 2, and
its revisit emits a node with empty children. -/
theorem C5_type_tree_terminates_and_cycles_witness :
    (getTypeTree exGetSimp 2 1).isSome ∧
    addT exGetSimp 1 [] (.num 1) [1] =
      some (insertEntry [("type", JVal.num 1)] (.node []) []) := by
  constructor
  · refine C5_type_tree_terminates_and_cycles.1 exGetSimp {1} ?_ 1 2 (by decide)
    intro n h
    by_cases hn : n = 1
    · simp [hn]
    · simp [exGetSimp, hn] at h
  · exact C5_type_tree_terminates_and_cycles.2 exGetSimp 0 [] 1 [1] [("type", JVal.num 1)]
      (by simp [exGetSimp]) (by simp)

/-! ## Duplicate-package bookkeeping (C6) -/
theorem addPath_nodup (m : List (String × List String)) (np : String × String)
    (h : ∀ kps ∈ m, kps.2.Nodup) : ∀ kps ∈ addPath m np, kps.2.Nodup := by
  induction m with
  | nil =>
    intro kps hk
    simp only [addPath, List.mem_singleton] at hk
    subst hk
    simp
  | cons head tail ih =>
    obtain ⟨k, ps⟩ := head
    intro kps hk
    simp only [addPath] at hk
    by_cases hkn : k = np.1
    · rw [if_pos hkn] at hk
      rcases List.mem_cons.mp hk with hk | hk
      · subst hk
        have hnd : ps.Nodup := h (k, ps) (List.mem_cons_self _ _)
        by_cases hmem : np.2 ∈ ps
        · simpa [hmem] using hnd
        · simp [hmem, List.nodup_append, hnd]
      · exact h kps (List.mem_cons_of_mem _ hk)
    · rw [if_neg hkn] at hk
      rcases List.mem_cons.mp hk with hk | hk
      · subst hk
        exact h (k, ps) (List.mem_cons_self _ _)
      · exact ih (fun kps hmem => h kps (List.mem_cons_of_mem _ hmem)) kps hk

theorem foldl_addPath_nodup (l : List (String × String)) :
    ∀ m, (∀ kps ∈ m, kps.2.Nodup) →
      ∀ kps ∈ l.foldl addPath m, kps.2.Nodup := by
  induction l with
  | nil =>
    intro m h
    simpa using h
  | cons np rest ih =>
    intro m h
    rw [List.foldl_cons]
    exact ih _ (addPath_nodup m np h)

theorem recordNodeModulePaths_none (m : List (String × List String)) (s : Span)
    (hs : s.event = none) : recordNodeModulePaths m s = m := by
  unfold recordNodeModulePaths
  rw [hs]

theorem recordNodeModulePaths_noPath (m : List (String × List String)) (s : Span)
    (e : Event) (hs : s.event = some e) (hn : e.name = "findSourceFile")
    (hp : e.argFileName = none) : recordNodeModulePaths m s = m := by
  unfold recordNodeModulePaths
  rw [hs]
  show (if e.name = "findSourceFile" then
      match e.argFileName with
      | some path => List.foldl addPath m (extractPackages path)
      | none => m
    else m) = m
  rw [if_pos hn, hp]

theorem recordNodeModulePaths_find (m : List (String × List String)) (s : Span)
    (e : Event) (path : String) (hs : s.event = some e)
    (hn : e.name = "findSourceFile") (hp : e.argFileName = some path) :
    recordNodeModulePaths m s = (extractPackages path).foldl addPath m := by
  unfold recordNodeModulePaths
  rw [hs]
  show (if e.name = "findSourceFile" then
      match e.argFileName with
      | some path => List.foldl addPath m (extractPackages path)
      | none => m
    else m) = List.foldl addPath m (extractPackages path)
  rw [if_pos hn, hp]

theorem recordNodeModulePaths_other (m : List (String × List String)) (s : Span)
    (e : Event) (hs : s.event = some e) (hn : ¬e.name = "findSourceFile") :
    recordNodeModulePaths m s = m := by
  unfold recordNodeModulePaths
  rw [hs]
  show (if e.name = "findSourceFile" then
      match e.argFileName with
      | some path => List.foldl addPath m (extractPackages path)
      | none => m
    else m) = m
  rw [if_neg hn]

theorem recordNodeModulePaths_nodup (m : List (String × List String)) (s : Span)
    (h : ∀ kps ∈ m, kps.2.Nodup) :
    ∀ kps ∈ recordNodeModulePaths m s, kps.2.Nodup := by
  cases hs : s.event with
  | none =>
    rw [recordNodeModulePaths_none m s hs]
    exact h
  | some e =>
    by_cases hn : e.name = "findSourceFile"
    · cases hp : e.argFileName with
      | none =>
        rw [recordNodeModulePaths_noPath m s e hs hn hp]
        exact h
      | some path =>
        rw [recordNodeModulePaths_find m s e path hs hn hp]
        exact foldl_addPath_nodup _ m h
    · rw [recordNodeModulePaths_other m s e hs hn]
      exact h

theorem foldl_record_nodup (spans : List Span) :
    ∀ m, (∀ kps ∈ m, kps.2.Nodup) →
      ∀ kps ∈ spans.foldl recordNodeModulePaths m, kps.2.Nodup := by
  induction spans with
  | nil =>
    intro m h
    simpa using h
  | cons s rest ih =>
    intro m h
    rw [List.foldl_cons]
    exact ih _ (recordNodeModulePaths_nodup m s h)

/-- C6: the duplicate-package accumulator is independent of the duration
floor (two parses of the same trace under any two floors agree on it); it
is the fold of the `findSourceFile` bookkeeping over ALL resolved spans
(the unfiltered pairing spans, not the floor-filtered `spans` list); each
package's recorded path list is duplicate-free (so its length counts
distinct resolved directories); a package appears in the duplicate report
iff its entry records at least two such paths; and the bookkeeping step
reads exactly the file-path argument of `findSourceFile` spans, ignoring
every other span. -/
theorem C6_duplicate_node_modules (evs : List Event) (d d' : Int)
    (pst pst' : ParseState)
    (h : parse evs d = Except.ok pst) (h' : parse evs d' = Except.ok pst') :
    pst.nodeModulePaths = pst'.nodeModulePaths ∧
    (∃ tst, track evs = Except.ok tst ∧
      pst.nodeModulePaths =
        (tst.pairs.map pairingSpan).foldl recordNodeModulePaths []) ∧
    (∀ kps ∈ pst.nodeModulePaths, kps.2.Nodup) ∧
    (∀ k ps, (k, ps) ∈ getDuplicateNodeModules pst.nodeModulePaths ↔
      (k, ps) ∈ pst.nodeModulePaths ∧ 2 ≤ ps.length) ∧
    (∀ m s e path, s.event = some e → e.name = "findSourceFile" →
      e.argFileName = some path →
      recordNodeModulePaths m s = (extractPackages path).foldl addPath m) ∧
    (∀ m s e, s.event = some e → ¬e.name = "findSourceFile" →
      recordNodeModulePaths m s = m) := by
  have hrel := parse_track evs d
  rw [h] at hrel
  cases ht : track evs with
  | error err =>
    rw [ht] at hrel
    exact absurd hrel (by simp [ExceptRel])
  | ok tst =>
    rw [ht] at hrel
    have hrel' := parse_track evs d'
    rw [h', ht] at hrel'
    have hnm : pst.nodeModulePaths =
        (tst.pairs.map pairingSpan).foldl recordNodeModulePaths [] := hrel.2.2.1
    refine ⟨?_, ⟨tst, rfl, hnm⟩, ?_, ?_, ?_, ?_⟩
    · rw [hnm, hrel'.2.2.1]
    · rw [hnm]
      exact foldl_record_nodup _ [] (by intro kps hk; simp at hk)
    · intro k ps
      simp [getDuplicateNodeModules, List.mem_filter]
    · intro m s e path hse hn hp
      exact recordNodeModulePaths_find m s e path hse hn hp
    · intro m s e hse hn
      exact recordNodeModulePaths_other m s e hse hn

/-- Witness for C6: on `exTraceC6`, parsing with floor 0 and with floor
1000 (which filters out every span) accumulates the same path evidence;
only `foo` — with its two distinct resolved directories — appears in the
duplicate report. -/
theorem C6_duplicate_node_modules_witness :
    ∃ pst pst', parse exTraceC6 0 = Except.ok pst ∧
      parse exTraceC6 1000 = Except.ok pst' ∧
      (pst.nodeModulePaths = pst'.nodeModulePaths ∧
       (∃ tst, track exTraceC6 = Except.ok tst ∧
         pst.nodeModulePaths =
           (tst.pairs.map pairingSpan).foldl recordNodeModulePaths []) ∧
       (∀ kps ∈ pst.nodeModulePaths, kps.2.Nodup) ∧
       (∀ k ps, (k, ps) ∈ getDuplicateNodeModules pst.nodeModulePaths ↔
         (k, ps) ∈ pst.nodeModulePaths ∧ 2 ≤ ps.length) ∧
       (∀ m s e path, s.event = some e → e.name = "findSourceFile" →
         e.argFileName = some path →
         recordNodeModulePaths m s = (extractPackages path).foldl addPath m) ∧
       (∀ m s e, s.event = some e → ¬e.name = "findSourceFile" →
         recordNodeModulePaths m s = m)) ∧
      pst'.spans = [] ∧
      getDuplicateNodeModules pst.nodeModulePaths =
        [("foo", ["/a/node_modules/foo", "/b/node_modules/foo"])] := by
  have h0 : parse exTraceC6 0 = Except.ok
      { minTime := some 1, maxTime := 3, unclosedStack := [],
        spans :=
          [⟨some ⟨"X", 1, 0, "findSourceFile", some "/a/node_modules/foo/x.ts"⟩, 1, 1⟩,
           ⟨some ⟨"X", 2, 0, "findSourceFile", some "/b/node_modules/foo/y.ts"⟩, 2, 2⟩,
           ⟨some ⟨"X", 3, 0, "findSourceFile", some "/a/node_modules/bar/z.ts"⟩, 3, 3⟩],
        nodeModulePaths :=
          [("foo", ["/a/node_modules/foo", "/b/node_modules/foo"]),
           ("bar", ["/a/node_modules/bar"])] } := by decide
  have h1 : parse exTraceC6 1000 = Except.ok
      { minTime := some 1, maxTime := 3, unclosedStack := [],
        spans := [],
        nodeModulePaths :=
          [("foo", ["/a/node_modules/foo", "/b/node_modules/foo"]),
           ("bar", ["/a/node_modules/bar"])] } := by decide
  exact ⟨_, _, h0, h1,
    C6_duplicate_node_modules exTraceC6 0 1000 _ _ h0 h1, by decide, by decide⟩

theorem SkipOk.mono {b b' : Int} (hbb : b ≤ b') :
    ∀ {ms ss : List HPEntry}, SkipOk b ms ss → SkipOk b' ms ss := by
  intro ms ss h
  induction h with
  | nil => exact .nil
  | keep _ ih => exact .keep ih
  | drop _ hle ih => exact .drop ih (le_trans hle hbb)

/-- The truncating scan of the live stack agrees with `find?` over the full
survivor list: removed entries never pass the `stop > s` test. -/
theorem hpFind_skipOk {b s : Int} (hbs : b ≤ s) :
    ∀ {ms ss : List HPEntry}, SkipOk b ms ss →
      (hpFind s ms = none ∧
        ss.find? (fun u => u.stop > s) = none) ∨
      (∃ t ms', hpFind s ms = some (t, t :: ms') ∧
        ss.find? (fun u => u.stop > s) = some t ∧
        SkipOk s (t :: ms') ss) := by
  intro ms ss h
  induction h with
  | nil => exact Or.inl ⟨rfl, rfl⟩
  | @keep t ms ss hrec ih =>
    by_cases hts : s < t.stop
    · right
      refine ⟨t, ms, ?_, ?_, ?_⟩
      · simp only [hpFind, if_pos (show t.stop > s from hts)]
      · rw [List.find?_cons_of_pos _ (by simpa using hts)]
      · exact .keep (hrec.mono hbs)
    · rcases ih with ⟨h1, h2⟩ | ⟨u, ms', h1, h2, h3⟩
      · left
        refine ⟨?_, ?_⟩
        · simp only [hpFind, if_neg (show ¬t.stop > s from hts)]
          exact h1
        · rw [List.find?_cons_of_neg _ (by simpa using hts)]
          exact h2
      · right
        refine ⟨u, ms', ?_, ?_, ?_⟩
        · simp only [hpFind, if_neg (show ¬t.stop > s from hts)]
          exact h1
        · rw [List.find?_cons_of_neg _ (by simpa using hts)]
          exact h2
        · exact .drop h3 (by omega)
  | @drop t ms ss hrec hle ih =>
    have hts : ¬s < t.stop := by omega
    rcases ih with ⟨h1, h2⟩ | ⟨u, ms', h1, h2, h3⟩
    · left
      refine ⟨h1, ?_⟩
      rw [List.find?_cons_of_neg _ (by simpa using hts)]
      exact h2
    · right
      refine ⟨u, ms', h1, ?_, .drop h3 (by omega)⟩
      rw [List.find?_cons_of_neg _ (by simpa using hts)]
      exact h2

theorem survParent_some {surv : List HPEntry} {s : Int} {t : HPEntry}
    (root : HPEntry) (hf : surv.find? (fun u => u.stop > s) = some t) :
    survParent root surv s = t := by
  unfold survParent
  rw [hf]

theorem survParent_none {surv : List HPEntry} {s : Int}
    (root : HPEntry) (hf : surv.find? (fun u => u.stop > s) = none) :
    survParent root surv s = root := by
  unfold survParent
  rw [hf]

theorem hpStep_found (θ : Int) (p : ℚ) (root : HPEntry) (st : HPState)
    (k : ℕ) (sp : Span) (t : HPEntry) (ms' : List HPEntry)
    (hf : hpFind sp.start st.mids = some (t, ms')) :
    hpStep θ p root st (k, sp) =
      if θ ≤ sp.stop - sp.start ∨
          p * ((t.stop - t.start : Int) : ℚ) ≤ ((sp.stop - sp.start : Int) : ℚ) then
        { mids := ⟨sp.start, sp.stop, some k⟩ :: ms',
          assigns := st.assigns ++ [(k, t.idx)] }
      else { mids := ms', assigns := st.assigns } := by
  unfold hpStep
  dsimp only
  rw [hf]

theorem hpStep_notFound (θ : Int) (p : ℚ) (root : HPEntry) (st : HPState)
    (k : ℕ) (sp : Span) (hf : hpFind sp.start st.mids = none) :
    hpStep θ p root st (k, sp) =
      if θ ≤ sp.stop - sp.start ∨
          p * ((root.stop - root.start : Int) : ℚ) ≤ ((sp.stop - sp.start : Int) : ℚ) then
        { mids := ⟨sp.start, sp.stop, some k⟩ :: st.mids,
          assigns := st.assigns ++ [(k, root.idx)] }
      else { mids := st.mids, assigns := st.assigns } := by
  unfold hpStep
  dsimp only
  rw [hf]

theorem specStep_eq (θ : Int) (p : ℚ) (root : HPEntry)
    (st : List HPEntry × List (ℕ × Option ℕ)) (k : ℕ) (sp : Span) :
    specStep θ p root st (k, sp) =
      if θ ≤ sp.stop - sp.start ∨
          p * (((survParent root st.1 sp.start).stop -
            (survParent root st.1 sp.start).start : Int) : ℚ) ≤
            ((sp.stop - sp.start : Int) : ℚ) then
        (⟨sp.start, sp.stop, some k⟩ :: st.1,
          st.2 ++ [(k, (survParent root st.1 sp.start).idx)])
      else st := rfl

theorem buildHot_spec_go (θ : Int) (p : ℚ) (root : HPEntry) :
    ∀ (spans : List Span) (k : ℕ) (b : Int) (mids surv : List HPEntry)
      (asg : List (ℕ × Option ℕ)),
      SkipOk b mids surv →
      (∀ sp ∈ spans, b ≤ sp.start) →
      spans.Pairwise (fun a c => a.start ≤ c.start) →
      ((List.enumFrom k spans).foldl (hpStep θ p root) ⟨mids, asg⟩).assigns =
        ((List.enumFrom k spans).foldl (specStep θ p root) (surv, asg)).2 := by
  intro spans
  induction spans with
  | nil => intros; rfl
  | cons sp rest ih =>
    intro k b mids surv asg hsk hb hpw
    rw [List.enumFrom_cons, List.foldl_cons, List.foldl_cons]
    have hbs : b ≤ sp.start := hb sp (List.mem_cons_self _ _)
    have hrest_b : ∀ u ∈ rest, sp.start ≤ u.start := (List.pairwise_cons.mp hpw).1
    have hpw' := (List.pairwise_cons.mp hpw).2
    rcases hpFind_skipOk hbs hsk with ⟨h1, h2⟩ | ⟨t, ms', h1, h2, h3⟩
    · rw [hpStep_notFound θ p root ⟨mids, asg⟩ k sp h1, specStep_eq,
        survParent_none root h2]
      by_cases htest : θ ≤ sp.stop - sp.start ∨
          p * ((root.stop - root.start : Int) : ℚ) ≤ ((sp.stop - sp.start : Int) : ℚ)
      · rw [if_pos htest, if_pos htest]
        exact ih (k + 1) sp.start _ _ _ (SkipOk.keep (hsk.mono hbs)) hrest_b hpw'
      · rw [if_neg htest, if_neg htest]
        exact ih (k + 1) sp.start _ _ _ (hsk.mono hbs) hrest_b hpw'
    · rw [hpStep_found θ p root ⟨mids, asg⟩ k sp t (t :: ms') h1, specStep_eq,
        survParent_some root h2]
      by_cases htest : θ ≤ sp.stop - sp.start ∨
          p * ((t.stop - t.start : Int) : ℚ) ≤ ((sp.stop - sp.start : Int) : ℚ)
      · rw [if_pos htest, if_pos htest]
        exact ih (k + 1) sp.start _ _ _ (SkipOk.keep h3) hrest_b hpw'
      · rw [if_neg htest, if_neg htest]
        exact ih (k + 1) sp.start _ _ _ h3 hrest_b hpw'

/-- C1: on any span list sorted by start, the tree-builder loop — with its
stale-entry-tolerant stack scan and truncation — produces exactly the
parent assignments of the declarative rule: a span becomes a node iff its
duration passes the absolute floor or the percentage test against its
parent, where the parent is the most recent SURVIVING span whose end
exceeds the span's start (the synthetic root when none does); a span that
fails contributes no assignment and never becomes a parent (it is never
added to the survivor list). -/
theorem C1_hot_path_inclusion (θ : Int) (p : ℚ) (rootStart rootStop : Int)
    (spans : List Span)
    (hsorted : spans.Pairwise (fun a c => a.start ≤ c.start)) :
    buildHot θ p rootStart rootStop spans =
      specAssigns θ p rootStart rootStop spans := by
  unfold buildHot specAssigns
  cases spans with
  | nil => rfl
  | cons sp rest =>
    have henum : (sp :: rest).enum = List.enumFrom 0 (sp :: rest) := rfl
    rw [henum]
    refine buildHot_spec_go θ p _ (sp :: rest) 0 sp.start [] [] [] .nil ?_ hsorted
    intro u hu
    rcases List.mem_cons.mp hu with hu | hu
    · exact le_of_eq (by rw [hu])
    · exact (List.pairwise_cons.mp hsorted).1 u hu

/-- Witness for C1 at a concrete sorted span list and thresholds
`θ = 30`, `p = 6/10`. -/
theorem C1_hot_path_inclusion_witness :
    ([(⟨none, 0, 100⟩ : Span), ⟨none, 0, 50⟩, ⟨none, 10, 20⟩,
      ⟨none, 55, 56⟩, ⟨none, 60, 90⟩].Pairwise (fun a c => a.start ≤ c.start)) ∧
    buildHot 30 (6 / 10) 0 100
        [⟨none, 0, 100⟩, ⟨none, 0, 50⟩, ⟨none, 10, 20⟩,
         ⟨none, 55, 56⟩, ⟨none, 60, 90⟩] =
      specAssigns 30 (6 / 10) 0 100
        [⟨none, 0, 100⟩, ⟨none, 0, 50⟩, ⟨none, 10, 20⟩,
         ⟨none, 55, 56⟩, ⟨none, 60, 90⟩] :=
  ⟨by decide, C1_hot_path_inclusion 30 (6 / 10) 0 100 _ (by decide)⟩

/-! ## The position normalizer refines per-query resolution (C9, C3) -/
theorem find?_congr {α : Type} (p q : α → Bool) (h : ∀ x, p x = q x) :
    ∀ l : List α, l.find? p = l.find? q := by
  intro l
  induction l with
  | nil => rfl
  | cons x xs ih => rw [List.find?_cons, List.find?_cons, h x, ih]

theorem find?_first {α : Type} (p : α → Bool) :
    ∀ (l : List α) (j : ℕ) (e : α), l[j]? = some e → p e = true →
      (∀ k x, k < j → l[k]? = some x → p x = false) →
      l.find? p = some e := by
  intro l
  induction l with
  | nil =>
    intro j e hj
    simp at hj
  | cons a as ih =>
    intro j e hj hpe hpre
    match j with
    | 0 =>
      have ha : a = e := by simpa using hj
      subst ha
      rw [List.find?_cons_of_pos _ hpe]
    | j + 1 =>
      have hpa : p a = false := hpre 0 a (Nat.succ_pos j) (by simp)
      rw [List.find?_cons_of_neg _ (by simp [hpa])]
      refine ih j e (by simpa using hj) hpe ?_
      intro k x hk hkx
      exact hpre (k + 1) x (by omega) (by simpa using hkx)

theorem find?_fst_nodup {β : Type} (i : ℕ) (v : β) :
    ∀ (l : List (ℕ × β)), (l.map Prod.fst).Nodup → (i, v) ∈ l →
      l.find? (fun q => q.1 = i) = some (i, v) := by
  intro l
  induction l with
  | nil =>
    intro _ h
    simp at h
  | cons a as ih =>
    intro hnd hmem
    rcases List.mem_cons.mp hmem with h | h
    · rw [← h]
      rw [List.find?_cons_of_pos _ (by simp)]
    · have hnd' : (as.map Prod.fst).Nodup := (List.nodup_cons.mp (by simpa using hnd)).2
      have hnotin : a.1 ∉ as.map Prod.fst := (List.nodup_cons.mp (by simpa using hnd)).1
      have hne : ¬a.1 = i := by
        intro hai
        exact hnotin (by rw [hai]; exact List.mem_map.mpr ⟨(i, v), h, rfl⟩)
      rw [List.find?_cons_of_neg _ (by simpa using hne)]
      exact ih hnd' h

theorem mem_takeWhile_pred {α : Type} (p : α → Bool) :
    ∀ (l : List α) (x : α), x ∈ l.takeWhile p → p x = true := by
  intro l
  induction l with
  | nil =>
    intro x hx
    simp at hx
  | cons a as ih =>
    intro x hx
    rw [List.takeWhile_cons] at hx
    by_cases ha : p a = true
    · rw [if_pos ha] at hx
      rcases List.mem_cons.mp hx with h | h
      · subst h
        exact ha
      · exact ih x h
    · rw [if_neg ha] at hx
      simp at hx

theorem dropWhile_all_false {α : Type} (le : α → α → Bool) (p : α → Bool)
    (hmono : ∀ w w', le w w' = true → p w' = true → p w = true) :
    ∀ l : List α, l.Pairwise (fun a b => le a b = true) →
      ∀ w ∈ l.dropWhile p, p w = false := by
  intro l
  induction l with
  | nil =>
    intro _ w hw
    simp at hw
  | cons x xs ih =>
    intro hpw w hw
    by_cases hx : p x = true
    · rw [List.dropWhile_cons, if_pos hx] at hw
      exact ih (List.pairwise_cons.mp hpw).2 w hw
    · rw [List.dropWhile_cons, if_neg hx] at hw
      rcases List.mem_cons.mp hw with hw | hw
      · subst hw
        simpa using hx
      · by_cases hpw2 : p w = true
        · exact absurd (hmono x w ((List.pairwise_cons.mp hpw).1 w hw) hpw2) hx
        · simpa using hpw2

theorem bucketRun_resolve {α : Type} (skipT : Bool) (q : α → TraceEntry → Bool)
    (ridx : α → ℕ) (le : α → α → Bool)
    (hmono : ∀ w w' e, le w w' = true → q w' e = true → q w e = true)
    (eofLc : LineChar) :
    ∀ (entries : List TraceEntry) (done : List (ℕ × LineChar)) (pending : List α),
      pending.Pairwise (fun a b => le a b = true) →
      (bucketRun skipT q ridx entries done pending).1 ++
        (bucketRun skipT q ridx entries done pending).2.map
          (fun w => (ridx w, eofLc)) =
      done ++ pending.map
        (fun w => (ridx w, resolveWith (bucketHit skipT q w) entries eofLc)) := by
  intro entries
  induction entries with
  | nil =>
    intro done pending _
    simp [bucketRun, resolveWith]
  | cons e rest ih =>
    intro done pending hpw
    by_cases htri : (skipT && e.trivia) = true
    · have hstep : bucketRun skipT q ridx (e :: rest) done pending =
          bucketRun skipT q ridx rest done pending := by
        simp [bucketRun, htri]
      rw [hstep, ih done pending hpw]
      congr 1
      refine List.map_congr_left ?_
      intro w hw
      have h12 : skipT = true ∧ e.trivia = true := by simpa using htri
      have hhit : bucketHit skipT q w e = false := by
        simp [bucketHit, h12.1, h12.2]
      have hres : resolveWith (bucketHit skipT q w) (e :: rest) eofLc =
          resolveWith (bucketHit skipT q w) rest eofLc := by
        unfold resolveWith
        rw [List.find?_cons_of_neg _ (by simp [hhit])]
      rw [hres]
    · have hstep : bucketRun skipT q ridx (e :: rest) done pending =
          bucketRun skipT q ridx rest
            (done ++ (pending.takeWhile fun w => q w e).map fun w => (ridx w, e.lineChar))
            (pending.dropWhile fun w => q w e) := by
        simp only [bucketRun, if_neg htri]
      have hpw' : (pending.dropWhile fun w => q w e).Pairwise
          (fun a b => le a b = true) :=
        List.Pairwise.sublist (List.dropWhile_sublist _) hpw
      rw [hstep, ih _ _ hpw']
      have hor : skipT = false ∨ e.trivia = false := by
        cases hs : skipT
        · exact Or.inl rfl
        · cases ht : e.trivia
          · exact Or.inr rfl
          · exact absurd (by rw [hs, ht]; rfl) htri
      conv_rhs =>
        rw [← @List.takeWhile_append_dropWhile _ (fun w => q w e) pending]
      rw [List.map_append, List.append_assoc]
      congr 1
      congr 1
      · refine List.map_congr_left ?_
        intro w hw
        have hq : q w e = true := mem_takeWhile_pred (fun w => q w e) pending w hw
        have hhit : bucketHit skipT q w e = true := by
          rcases hor with h | h <;> simp [bucketHit, hq, h]
        have hres : resolveWith (bucketHit skipT q w) (e :: rest) eofLc =
            e.lineChar := by
          unfold resolveWith
          rw [List.find?_cons_of_pos _ hhit]
          simp
        rw [hres]
      · refine List.map_congr_left ?_
        intro w hw
        have hq : q w e = false := dropWhile_all_false le (fun w => q w e)
          (fun a b hab hb => hmono a b e hab hb) pending hpw w hw
        have hhit : bucketHit skipT q w e = false := by simp [bucketHit, hq]
        have hres : resolveWith (bucketHit skipT q w) (e :: rest) eofLc =
            resolveWith (bucketHit skipT q w) rest eofLc := by
          unfold resolveWith
          rw [List.find?_cons_of_neg _ (by simp [hhit])]
        rw [hres]

theorem lcLe_trans (a b c : LineChar) (h1 : lcLe a b = true) (h2 : lcLe b c = true) :
    lcLe a c = true := by
  simp only [lcLe, decide_eq_true_eq] at h1 h2 ⊢
  omega

theorem lcLe_total (a b : LineChar) : lcLe a b = true ∨ lcLe b a = true := by
  simp only [lcLe, decide_eq_true_eq]
  omega

theorem offWLe_trans (a b c : OffWrapper) (h1 : offWLe a b = true)
    (h2 : offWLe b c = true) : offWLe a c = true := by
  simp only [offWLe, decide_eq_true_eq] at h1 h2 ⊢
  omega

theorem offWLe_total (a b : OffWrapper) : offWLe a b = true ∨ offWLe b a = true := by
  simp only [offWLe, decide_eq_true_eq]
  omega

theorem qOff_mono (w w' : OffWrapper) (e : TraceEntry) (h1 : offWLe w w' = true)
    (h2 : qOff w' e = true) : qOff w e = true := by
  simp only [offWLe, decide_eq_true_eq] at h1
  simp only [qOff, decide_eq_true_eq] at h2 ⊢
  omega

theorem qLc_mono (w w' : LcWrapper) (e : TraceEntry) (h1 : lcWLe w w' = true)
    (h2 : qLc w' e = true) : qLc w e = true := by
  simp only [lcWLe] at h1
  simp only [qLc] at h2 ⊢
  exact lcLe_trans _ _ _ h1 h2

theorem cursorTrace_length :
    ∀ (text : List Int) (m : MachineState) (off : Int) (lc : LineChar),
      (cursorTrace m off lc text).length = text.length := by
  intro text
  induction text with
  | nil => intros; rfl
  | cons c rest ih =>
    intro m off lc
    simp only [cursorTrace, List.length_cons]
    rw [ih]

theorem cursorTrace_offset :
    ∀ (text : List Int) (m : MachineState) (off : Int) (lc : LineChar)
      (j : ℕ) (e : TraceEntry),
      (cursorTrace m off lc text)[j]? = some e → e.offset = off + j := by
  intro text
  induction text with
  | nil =>
    intro m off lc j e h
    simp [cursorTrace] at h
  | cons c rest ih =>
    intro m off lc j e h
    match j with
    | 0 =>
      simp only [cursorTrace, List.getElem?_cons_zero] at h
      injection h with h
      rw [← h]
      simp
    | j + 1 =>
      simp only [cursorTrace, List.getElem?_cons_succ] at h
      have := ih _ _ _ j e h
      omega

/-- Membership version of the offset bound: every trace entry's offset lies
in `[off, off + text.length)`. -/
theorem cursorTrace_offset_lt :
    ∀ (text : List Int) (m : MachineState) (off : Int) (lc : LineChar)
      (e : TraceEntry), e ∈ cursorTrace m off lc text →
        off ≤ e.offset ∧ e.offset < off + text.length := by
  intro text
  induction text with
  | nil =>
    intro m off lc e h
    simp [cursorTrace] at h
  | cons c rest ih =>
    intro m off lc e h
    simp only [cursorTrace, List.mem_cons] at h
    rcases h with h | h
    · subst h
      simp only [List.length_cons]
      constructor
      · exact le_refl _
      · omega
    · have := ih _ _ _ e h
      simp only [List.length_cons]
      omega

theorem bucketRun_cons_noskip {α : Type} (q : α → TraceEntry → Bool) (ridx : α → ℕ)
    (e : TraceEntry) (T : List TraceEntry) (done : List (ℕ × LineChar))
    (pending : List α) :
    bucketRun false q ridx (e :: T) done pending =
      bucketRun false q ridx T
        (done ++ (pending.takeWhile fun w => q w e).map fun w => (ridx w, e.lineChar))
        (pending.dropWhile fun w => q w e) := by
  simp [bucketRun]

theorem bucketRun_cons_trivia {α : Type} (q : α → TraceEntry → Bool) (ridx : α → ℕ)
    (e : TraceEntry) (T : List TraceEntry) (done : List (ℕ × LineChar))
    (pending : List α) (h : e.trivia = true) :
    bucketRun true q ridx (e :: T) done pending =
      bucketRun true q ridx T done pending := by
  simp [bucketRun, h]

theorem bucketRun_cons_nontrivia {α : Type} (q : α → TraceEntry → Bool) (ridx : α → ℕ)
    (e : TraceEntry) (T : List TraceEntry) (done : List (ℕ × LineChar))
    (pending : List α) (h : e.trivia = false) :
    bucketRun true q ridx (e :: T) done pending =
      bucketRun true q ridx T
        (done ++ (pending.takeWhile fun w => q w e).map fun w => (ridx w, e.lineChar))
        (pending.dropWhile fun w => q w e) := by
  simp [bucketRun, h]

theorem onChar_offDone_trivia (ch nextCh : Int) (s : ScanState)
    (h : (step ch nextCh s.machine).charKind = CharKind.comment ∨
      (step ch nextCh s.machine).charKind = CharKind.whitespace) :
    (onChar ch nextCh s).offDone = s.offDone := by
  unfold onChar
  dsimp only
  rw [if_pos h]
  simp

theorem onChar_offPending_trivia (ch nextCh : Int) (s : ScanState)
    (h : (step ch nextCh s.machine).charKind = CharKind.comment ∨
      (step ch nextCh s.machine).charKind = CharKind.whitespace) :
    (onChar ch nextCh s).offPending = s.offPending := by
  unfold onChar
  dsimp only
  rw [if_pos h]

theorem onChar_offDone_nontrivia (ch nextCh : Int) (s : ScanState)
    (h : ¬((step ch nextCh s.machine).charKind = CharKind.comment ∨
      (step ch nextCh s.machine).charKind = CharKind.whitespace)) :
    (onChar ch nextCh s).offDone =
      s.offDone ++ (drainOff s.currOffset s.currLineChar s.offPending).1 := by
  unfold onChar
  dsimp only
  rw [if_neg h]

theorem onChar_offPending_nontrivia (ch nextCh : Int) (s : ScanState)
    (h : ¬((step ch nextCh s.machine).charKind = CharKind.comment ∨
      (step ch nextCh s.machine).charKind = CharKind.whitespace)) :
    (onChar ch nextCh s).offPending =
      (drainOff s.currOffset s.currLineChar s.offPending).2 := by
  unfold onChar
  dsimp only
  rw [if_neg h]

theorem onChar_lcDone_trivia (ch nextCh : Int) (s : ScanState)
    (h : (step ch nextCh s.machine).charKind = CharKind.comment ∨
      (step ch nextCh s.machine).charKind = CharKind.whitespace) :
    (onChar ch nextCh s).lcDone = s.lcDone := by
  unfold onChar
  dsimp only
  rw [if_pos h]
  simp

theorem onChar_lcPending_trivia (ch nextCh : Int) (s : ScanState)
    (h : (step ch nextCh s.machine).charKind = CharKind.comment ∨
      (step ch nextCh s.machine).charKind = CharKind.whitespace) :
    (onChar ch nextCh s).lcPending = s.lcPending := by
  unfold onChar
  dsimp only
  rw [if_pos h]

theorem onChar_lcDone_nontrivia (ch nextCh : Int) (s : ScanState)
    (h : ¬((step ch nextCh s.machine).charKind = CharKind.comment ∨
      (step ch nextCh s.machine).charKind = CharKind.whitespace)) :
    (onChar ch nextCh s).lcDone =
      s.lcDone ++ (drainLc s.currLineChar s.lcPending).1 := by
  unfold onChar
  dsimp only
  rw [if_neg h]

theorem onChar_lcPending_nontrivia (ch nextCh : Int) (s : ScanState)
    (h : ¬((step ch nextCh s.machine).charKind = CharKind.comment ∨
      (step ch nextCh s.machine).charKind = CharKind.whitespace)) :
    (onChar ch nextCh s).lcPending =
      (drainLc s.currLineChar s.lcPending).2 := by
  unfold onChar
  dsimp only
  rw [if_neg h]

theorem runScan_proj_step (c nc : Int) (rest : List Int) (s : ScanState)
    (hnext : runScan s (c :: rest) = runScan (onChar c nc s) rest)
    (htrace : cursorTrace s.machine s.currOffset s.currLineChar (c :: rest) =
      (⟨s.currOffset, s.currLineChar,
        (step c nc s.machine).charKind = CharKind.comment ∨
        (step c nc s.machine).charKind = CharKind.whitespace⟩ : TraceEntry) ::
      cursorTrace (step c nc s.machine).next (s.currOffset + 1)
        (cursorAdvance s.currLineChar (step c nc s.machine).wrapLine) rest)
    (heof : scanEofLineChar s.machine s.currLineChar (c :: rest) =
      scanEofLineChar (step c nc s.machine).next
        (cursorAdvance s.currLineChar (step c nc s.machine).wrapLine) rest)
    (ihp : ScanProj (onChar c nc s) rest) : ScanProj s (c :: rest) := by
  obtain ⟨ih1, ih2, ih3, ih4, ih5⟩ := ihp
  unfold ScanProj
  rw [hnext, htrace, heof]
  refine ⟨?_, ?_, ?_, ?_, ?_⟩
  · rw [bucketRun_cons_noskip]
    exact ih1
  · by_cases htriv : (step c nc s.machine).charKind = CharKind.comment ∨
        (step c nc s.machine).charKind = CharKind.whitespace
    · rw [bucketRun_cons_trivia _ _ _ _ _ _ (decide_eq_true htriv)]
      rw [onChar_offDone_trivia _ _ _ htriv, onChar_offPending_trivia _ _ _ htriv]
        at ih2
      exact ih2
    · rw [bucketRun_cons_nontrivia _ _ _ _ _ _ (decide_eq_false htriv)]
      rw [onChar_offDone_nontrivia _ _ _ htriv,
        onChar_offPending_nontrivia _ _ _ htriv] at ih2
      exact ih2
  · rw [bucketRun_cons_noskip]
    exact ih3
  · by_cases htriv : (step c nc s.machine).charKind = CharKind.comment ∨
        (step c nc s.machine).charKind = CharKind.whitespace
    · rw [bucketRun_cons_trivia _ _ _ _ _ _ (decide_eq_true htriv)]
      rw [onChar_lcDone_trivia _ _ _ htriv, onChar_lcPending_trivia _ _ _ htriv]
        at ih4
      exact ih4
    · rw [bucketRun_cons_nontrivia _ _ _ _ _ _ (decide_eq_false htriv)]
      rw [onChar_lcDone_nontrivia _ _ _ htriv,
        onChar_lcPending_nontrivia _ _ _ htriv] at ih4
      exact ih4
  · exact ih5

theorem runScan_proj : ∀ (text : List Int) (s : ScanState), ScanProj s text := by
  intro text
  induction text with
  | nil =>
    intro s
    exact ⟨rfl, rfl, rfl, rfl, rfl⟩
  | cons c rest ih =>
    intro s
    cases rest with
    | nil => exact runScan_proj_step c (-1) [] s rfl rfl rfl (ih _)
    | cons d rest2 => exact runScan_proj_step c d (d :: rest2) s rfl rfl rfl (ih _)

theorem partition_fow :
    ∀ (l : List (ℕ × RawPosition)) (b0 : Buckets),
      (l.foldl partitionStep b0).fixedOffsetWrappers =
        b0.fixedOffsetWrappers ++ l.filterMap selFixedOff := by
  intro l
  induction l with
  | nil =>
    intro b0
    simp
  | cons ip restl ih =>
    intro b0
    obtain ⟨i, p⟩ := ip
    rw [List.foldl_cons, ih, List.filterMap_cons]
    cases p with
    | off nn =>
      by_cases hn : nn < 0
      · simp [partitionStep, selFixedOff, hn]
      · simp [partitionStep, selFixedOff, hn]
    | lineChar lv cv =>
      by_cases hl : lv < 0 ∨ cv < 0
      · simp [partitionStep, selFixedOff, hl]
      · simp [partitionStep, selFixedOff, hl]

theorem partition_ow :
    ∀ (l : List (ℕ × RawPosition)) (b0 : Buckets),
      (l.foldl partitionStep b0).offsetWrappers =
        b0.offsetWrappers ++ l.filterMap selOff := by
  intro l
  induction l with
  | nil =>
    intro b0
    simp
  | cons ip restl ih =>
    intro b0
    obtain ⟨i, p⟩ := ip
    rw [List.foldl_cons, ih, List.filterMap_cons]
    cases p with
    | off nn =>
      by_cases hn : nn < 0
      · simp [partitionStep, selOff, hn]
      · simp [partitionStep, selOff, hn]
    | lineChar lv cv =>
      by_cases hl : lv < 0 ∨ cv < 0
      · simp [partitionStep, selOff, hl]
      · simp [partitionStep, selOff, hl]

theorem partition_flw :
    ∀ (l : List (ℕ × RawPosition)) (b0 : Buckets),
      (l.foldl partitionStep b0).fixedLineCharWrappers =
        b0.fixedLineCharWrappers ++ l.filterMap selFixedLc := by
  intro l
  induction l with
  | nil =>
    intro b0
    simp
  | cons ip restl ih =>
    intro b0
    obtain ⟨i, p⟩ := ip
    rw [List.foldl_cons, ih, List.filterMap_cons]
    cases p with
    | off nn =>
      by_cases hn : nn < 0
      · simp [partitionStep, selFixedLc, hn]
      · simp [partitionStep, selFixedLc, hn]
    | lineChar lv cv =>
      by_cases hl : lv < 0 ∨ cv < 0
      · simp [partitionStep, selFixedLc, hl]
      · simp [partitionStep, selFixedLc, hl]

theorem partition_lw :
    ∀ (l : List (ℕ × RawPosition)) (b0 : Buckets),
      (l.foldl partitionStep b0).lineCharWrappers =
        b0.lineCharWrappers ++ l.filterMap selLc := by
  intro l
  induction l with
  | nil =>
    intro b0
    simp
  | cons ip restl ih =>
    intro b0
    obtain ⟨i, p⟩ := ip
    rw [List.foldl_cons, ih, List.filterMap_cons]
    cases p with
    | off nn =>
      by_cases hn : nn < 0
      · simp [partitionStep, selLc, hn]
      · simp [partitionStep, selLc, hn]
    | lineChar lv cv =>
      by_cases hl : lv < 0 ∨ cv < 0
      · simp [partitionStep, selLc, hl]
      · simp [partitionStep, selLc, hl]

theorem mem_enumFrom_iff {α : Type} :
    ∀ (l : List α) (k i : ℕ) (x : α),
      (i, x) ∈ List.enumFrom k l ↔ k ≤ i ∧ l[i - k]? = some x := by
  intro l
  induction l with
  | nil =>
    intro k i x
    simp
  | cons a as ih =>
    intro k i x
    rw [List.enumFrom_cons, List.mem_cons]
    constructor
    · rintro (h | h)
      · have h1 : i = k ∧ x = a := by
          constructor
          · exact congrArg Prod.fst h
          · exact congrArg Prod.snd h
        obtain ⟨h1, h2⟩ := h1
        subst h1
        subst h2
        exact ⟨le_refl _, by simp⟩
      · obtain ⟨hk, hget⟩ := (ih (k + 1) i x).mp h
        refine ⟨by omega, ?_⟩
        rw [show i - k = (i - (k + 1)) + 1 from by omega]
        simpa using hget
    · rintro ⟨hk, hget⟩
      by_cases hik : i = k
      · subst hik
        simp only [Nat.sub_self, List.getElem?_cons_zero] at hget
        injection hget with hget
        subst hget
        exact Or.inl rfl
      · right
        refine (ih (k + 1) i x).mpr ⟨by omega, ?_⟩
        rw [show i - k = (i - (k + 1)) + 1 from by omega] at hget
        simpa using hget

theorem mem_enum_iff {α : Type} (l : List α) (i : ℕ) (x : α) :
    (i, x) ∈ l.enum ↔ l[i]? = some x := by
  have h := mem_enumFrom_iff l 0 i x
  simpa using h

theorem filterMap_ridx_sublist {α β : Type} (sel : ℕ × α → Option β) (ridx : β → ℕ)
    (h : ∀ ip w, sel ip = some w → ridx w = ip.1) :
    ∀ l : List (ℕ × α), ((l.filterMap sel).map ridx).Sublist (l.map Prod.fst) := by
  intro l
  induction l with
  | nil => simp
  | cons ip restl ih =>
    rw [List.filterMap_cons, List.map_cons]
    cases hs : sel ip with
    | none => exact ih.cons _
    | some w =>
      rw [List.map_cons, h ip w hs]
      exact ih.cons₂ _

theorem mem_bucket_fst {α β : Type} (sel : ℕ × α → Option β) (ridx : β → ℕ)
    (h : ∀ ip w, sel ip = some w → ridx w = ip.1) (l : List (ℕ × α)) (i : ℕ)
    (hm : i ∈ (l.filterMap sel).map ridx) :
    ∃ ip ∈ l, ip.1 = i ∧ (sel ip).isSome := by
  obtain ⟨w, hw, hwi⟩ := List.mem_map.mp hm
  obtain ⟨ip, hip, hsel⟩ := List.mem_filterMap.mp hw
  exact ⟨ip, hip, by rw [← hwi, h ip w hsel], by simp [hsel]⟩

/-- Every raw position lands in exactly one of the four buckets. -/
theorem sel_exclusive (ip : ℕ × RawPosition) :
    ((selFixedOff ip).isSome → ¬(selOff ip).isSome ∧ ¬(selFixedLc ip).isSome ∧
      ¬(selLc ip).isSome) ∧
    ((selOff ip).isSome → ¬(selFixedLc ip).isSome ∧ ¬(selLc ip).isSome) ∧
    ((selFixedLc ip).isSome → ¬(selLc ip).isSome) := by
  obtain ⟨i, p⟩ := ip
  cases p with
  | off nn =>
    by_cases hn : nn < 0
    · simp [selFixedOff, selOff, selFixedLc, selLc, hn]
    · simp [selFixedOff, selOff, selFixedLc, selLc, hn]
  | lineChar lv cv =>
    by_cases hl : lv < 0 ∨ cv < 0
    · simp [selFixedOff, selOff, selFixedLc, selLc, hl]
    · simp [selFixedOff, selOff, selFixedLc, selLc, hl]

theorem selFixedOff_ridx : ∀ (ip : ℕ × RawPosition) (w : OffWrapper),
    selFixedOff ip = some w → w.returnIndex = ip.1 := by
  intro ⟨i, p⟩ w h
  cases p with
  | off nn =>
    simp only [selFixedOff] at h
    by_cases hn : nn < 0
    · rw [if_pos hn] at h
      injection h with h
      rw [← h]
    · rw [if_neg hn] at h
      exact absurd h (by simp)
  | lineChar lv cv => simp [selFixedOff] at h

theorem selOff_ridx : ∀ (ip : ℕ × RawPosition) (w : OffWrapper),
    selOff ip = some w → w.returnIndex = ip.1 := by
  intro ⟨i, p⟩ w h
  cases p with
  | off nn =>
    simp only [selOff] at h
    by_cases hn : nn < 0
    · rw [if_pos hn] at h
      exact absurd h (by simp)
    · rw [if_neg hn] at h
      injection h with h
      rw [← h]
  | lineChar lv cv => simp [selOff] at h

theorem selFixedLc_ridx : ∀ (ip : ℕ × RawPosition) (w : LcWrapper),
    selFixedLc ip = some w → w.returnIndex = ip.1 := by
  intro ⟨i, p⟩ w h
  cases p with
  | off nn => simp [selFixedLc] at h
  | lineChar lv cv =>
    simp only [selFixedLc] at h
    by_cases hl : lv < 0 ∨ cv < 0
    · rw [if_pos hl] at h
      injection h with h
      rw [← h]
    · rw [if_neg hl] at h
      exact absurd h (by simp)

theorem selLc_ridx : ∀ (ip : ℕ × RawPosition) (w : LcWrapper),
    selLc ip = some w → w.returnIndex = ip.1 := by
  intro ⟨i, p⟩ w h
  cases p with
  | off nn => simp [selLc] at h
  | lineChar lv cv =>
    simp only [selLc] at h
    by_cases hl : lv < 0 ∨ cv < 0
    · rw [if_pos hl] at h
      exact absurd h (by simp)
    · rw [if_neg hl] at h
      injection h with h
      rw [← h]

theorem bucket_fst_disjoint {β γ : Type} (selA : ℕ × RawPosition → Option β)
    (selB : ℕ × RawPosition → Option γ) (ridxA : β → ℕ) (ridxB : γ → ℕ)
    (hA : ∀ ip w, selA ip = some w → ridxA w = ip.1)
    (hB : ∀ ip w, selB ip = some w → ridxB w = ip.1)
    (hexcl : ∀ ip, (selA ip).isSome → ¬(selB ip).isSome)
    (positions : List RawPosition) :
    List.Disjoint ((positions.enum.filterMap selA).map ridxA)
      ((positions.enum.filterMap selB).map ridxB) := by
  intro i hiA hiB
  obtain ⟨ipA, hmA, hfA, hsA⟩ := mem_bucket_fst selA ridxA hA _ i hiA
  obtain ⟨ipB, hmB, hfB, hsB⟩ := mem_bucket_fst selB ridxB hB _ i hiB
  obtain ⟨iA, pA⟩ := ipA
  obtain ⟨iB, pB⟩ := ipB
  dsimp only at hfA hfB hsA hsB
  rw [hfA] at hmA hsA
  rw [hfB] at hmB hsB
  have hgA : positions[i]? = some pA := (mem_enum_iff _ _ _).mp hmA
  have hgB : positions[i]? = some pB := (mem_enum_iff _ _ _).mp hmB
  rw [hgA] at hgB
  injection hgB with hgB
  subst hgB
  exact hexcl (i, pA) hsA hsB

theorem resolveSingle_fixedOff (text : List Int) (i : ℕ) (nn : Int)
    (hn : nn < 0) :
    resolveWith (bucketHit false qOff ⟨i, -nn⟩)
      (cursorTrace createMachine 0 (1, 1) text)
      (scanEofLineChar createMachine (1, 1) text) =
    resolveSingle text (.off nn) := by
  have hcong : ∀ e, bucketHit false qOff (⟨i, -nn⟩ : OffWrapper) e =
      fixedOffHit (-nn) e := by
    intro e
    simp [bucketHit, qOff, fixedOffHit]
  simp only [resolveSingle]
  rw [if_pos hn]
  unfold resolveWith
  rw [find?_congr _ _ hcong]

theorem resolveSingle_skipOff (text : List Int) (i : ℕ) (nn : Int)
    (hn : ¬nn < 0) :
    resolveWith (bucketHit true qOff ⟨i, nn⟩)
      (cursorTrace createMachine 0 (1, 1) text)
      (scanEofLineChar createMachine (1, 1) text) =
    resolveSingle text (.off nn) := by
  have hcong : ∀ e, bucketHit true qOff (⟨i, nn⟩ : OffWrapper) e =
      skipOffHit nn e := by
    intro e
    cases htr : e.trivia <;> simp [bucketHit, qOff, skipOffHit, htr]
  simp only [resolveSingle]
  rw [if_neg hn]
  unfold resolveWith
  rw [find?_congr _ _ hcong]

theorem resolveSingle_fixedLc (text : List Int) (i : ℕ) (lv cv : Int)
    (hl : lv < 0 ∨ cv < 0) :
    resolveWith (bucketHit false qLc ⟨i, (|lv|, |cv|)⟩)
      (cursorTrace createMachine 0 (1, 1) text)
      (scanEofLineChar createMachine (1, 1) text) =
    resolveSingle text (.lineChar lv cv) := by
  have hcong : ∀ e, bucketHit false qLc (⟨i, (|lv|, |cv|)⟩ : LcWrapper) e =
      fixedLcHit (|lv|, |cv|) e := by
    intro e
    simp [bucketHit, qLc, fixedLcHit]
  simp only [resolveSingle]
  rw [if_pos hl]
  unfold resolveWith
  rw [find?_congr _ _ hcong]

theorem resolveSingle_skipLc (text : List Int) (i : ℕ) (lv cv : Int)
    (hl : ¬(lv < 0 ∨ cv < 0)) :
    resolveWith (bucketHit true qLc ⟨i, (lv, cv)⟩)
      (cursorTrace createMachine 0 (1, 1) text)
      (scanEofLineChar createMachine (1, 1) text) =
    resolveSingle text (.lineChar lv cv) := by
  have hcong : ∀ e, bucketHit true qLc (⟨i, (lv, cv)⟩ : LcWrapper) e =
      skipLcHit (lv, cv) e := by
    intro e
    cases htr : e.trivia <;> simp [bucketHit, qLc, skipLcHit, htr]
  simp only [resolveSingle]
  rw [if_neg hl]
  unfold resolveWith
  rw [find?_congr _ _ hcong]

theorem lcWLe_trans (a b c : LcWrapper) (h1 : lcWLe a b = true)
    (h2 : lcWLe b c = true) : lcWLe a c = true := by
  simp only [lcWLe] at h1 h2 ⊢
  exact lcLe_trans _ _ _ h1 h2

theorem lcWLe_total (a b : LcWrapper) : lcWLe a b = true ∨ lcWLe b a = true := by
  simp only [lcWLe]
  exact lcLe_total _ _

/-- The full result-pair list of one `normalizePositions` run: each bucket,
sorted, mapped to its per-query resolution against the cursor trace. -/
theorem eofResultPairs_eq (text : List Int) (positions : List RawPosition) :
    eofResultPairs (runScan { fixedOffDone := [], fixedOffPending := sortW offWLe (partitionPositions positions).fixedOffsetWrappers, offDone := [], offPending := sortW offWLe (partitionPositions positions).offsetWrappers, fixedLcDone := [], fixedLcPending := sortW lcWLe (partitionPositions positions).fixedLineCharWrappers, lcDone := [], lcPending := sortW lcWLe (partitionPositions positions).lineCharWrappers, currOffset := 0, currLineChar := (1, 1), machine := createMachine } text) =
      (sortW offWLe (partitionPositions positions).fixedOffsetWrappers).map (fun w => (w.returnIndex, resolveWith (bucketHit false qOff w) (cursorTrace createMachine 0 (1, 1) text) (scanEofLineChar createMachine (1, 1) text))) ++
      ((sortW offWLe (partitionPositions positions).offsetWrappers).map (fun w => (w.returnIndex, resolveWith (bucketHit true qOff w) (cursorTrace createMachine 0 (1, 1) text) (scanEofLineChar createMachine (1, 1) text))) ++
      ((sortW lcWLe (partitionPositions positions).fixedLineCharWrappers).map (fun w => (w.returnIndex, resolveWith (bucketHit false qLc w) (cursorTrace createMachine 0 (1, 1) text) (scanEofLineChar createMachine (1, 1) text))) ++
      (sortW lcWLe (partitionPositions positions).lineCharWrappers).map (fun w => (w.returnIndex, resolveWith (bucketHit true qLc w) (cursorTrace createMachine 0 (1, 1) text) (scanEofLineChar createMachine (1, 1) text))))) := by
  obtain ⟨hp1, hp2, hp3, hp4, hp5⟩ := runScan_proj text { fixedOffDone := [], fixedOffPending := sortW offWLe (partitionPositions positions).fixedOffsetWrappers, offDone := [], offPending := sortW offWLe (partitionPositions positions).offsetWrappers, fixedLcDone := [], fixedLcPending := sortW lcWLe (partitionPositions positions).fixedLineCharWrappers, lcDone := [], lcPending := sortW lcWLe (partitionPositions positions).lineCharWrappers, currOffset := 0, currLineChar := (1, 1), machine := createMachine }
  dsimp only at hp1 hp2 hp3 hp4 hp5
  have e1 := congrArg Prod.fst hp1
  have e2 := congrArg Prod.snd hp1
  have e3 := congrArg Prod.fst hp2
  have e4 := congrArg Prod.snd hp2
  have e5 := congrArg Prod.fst hp3
  have e6 := congrArg Prod.snd hp3
  have e7 := congrArg Prod.fst hp4
  have e8 := congrArg Prod.snd hp4
  dsimp only at e1 e2 e3 e4 e5 e6 e7 e8
  unfold eofResultPairs
  rw [hp5, e1, e2, e3, e4, e5, e6, e7, e8]
  rw [bucketRun_resolve false qOff OffWrapper.returnIndex offWLe qOff_mono
      (scanEofLineChar createMachine (1, 1) text) (cursorTrace createMachine 0 (1, 1) text) [] (sortW offWLe (partitionPositions positions).fixedOffsetWrappers)
      (sortW_pairwise offWLe offWLe_trans offWLe_total _),
    bucketRun_resolve true qOff OffWrapper.returnIndex offWLe qOff_mono
      (scanEofLineChar createMachine (1, 1) text) (cursorTrace createMachine 0 (1, 1) text) [] (sortW offWLe (partitionPositions positions).offsetWrappers)
      (sortW_pairwise offWLe offWLe_trans offWLe_total _),
    bucketRun_resolve false qLc LcWrapper.returnIndex lcWLe qLc_mono
      (scanEofLineChar createMachine (1, 1) text) (cursorTrace createMachine 0 (1, 1) text) [] (sortW lcWLe (partitionPositions positions).fixedLineCharWrappers)
      (sortW_pairwise lcWLe lcWLe_trans lcWLe_total _),
    bucketRun_resolve true qLc LcWrapper.returnIndex lcWLe qLc_mono
      (scanEofLineChar createMachine (1, 1) text) (cursorTrace createMachine 0 (1, 1) text) [] (sortW lcWLe (partitionPositions positions).lineCharWrappers)
      (sortW_pairwise lcWLe lcWLe_trans lcWLe_total _)]
  simp only [List.nil_append]

/-- `normalizePositions` computes, in request order, exactly the per-query
resolution `resolveSingle`. -/
theorem normalize_resolve (text : List Int) (positions : List RawPosition) :
    normalizePositions text positions = positions.map (resolveSingle text) := by
  cases hemp : positions.isEmpty with
  | true =>
    have hnil : positions = [] := by
      cases positions with
      | nil => rfl
      | cons a as => simp at hemp
    subst hnil
    rfl
  | false =>
    unfold normalizePositions
    rw [if_neg (by rw [hemp]; exact Bool.false_ne_true)]
    dsimp only
    simp only [eofResultPairs_eq]
    have hfowE : (partitionPositions positions).fixedOffsetWrappers =
        positions.enum.filterMap selFixedOff := by
      unfold partitionPositions
      rw [partition_fow]
      rfl
    have howE : (partitionPositions positions).offsetWrappers =
        positions.enum.filterMap selOff := by
      unfold partitionPositions
      rw [partition_ow]
      rfl
    have hflwE : (partitionPositions positions).fixedLineCharWrappers =
        positions.enum.filterMap selFixedLc := by
      unfold partitionPositions
      rw [partition_flw]
      rfl
    have hlwE : (partitionPositions positions).lineCharWrappers =
        positions.enum.filterMap selLc := by
      unfold partitionPositions
      rw [partition_lw]
      rfl
    simp only [hfowE, howE, hflwE, hlwE]
    have hnd1 : (((positions.enum.filterMap selFixedOff)).map
        OffWrapper.returnIndex).Nodup := by
      have hsub := filterMap_ridx_sublist selFixedOff OffWrapper.returnIndex
        selFixedOff_ridx positions.enum
      rw [List.enum_map_fst] at hsub
      exact List.Nodup.sublist hsub (List.nodup_range _)
    have hnd2 : (((positions.enum.filterMap selOff)).map
        OffWrapper.returnIndex).Nodup := by
      have hsub := filterMap_ridx_sublist selOff OffWrapper.returnIndex
        selOff_ridx positions.enum
      rw [List.enum_map_fst] at hsub
      exact List.Nodup.sublist hsub (List.nodup_range _)
    have hnd3 : (((positions.enum.filterMap selFixedLc)).map
        LcWrapper.returnIndex).Nodup := by
      have hsub := filterMap_ridx_sublist selFixedLc LcWrapper.returnIndex
        selFixedLc_ridx positions.enum
      rw [List.enum_map_fst] at hsub
      exact List.Nodup.sublist hsub (List.nodup_range _)
    have hnd4 : (((positions.enum.filterMap selLc)).map
        LcWrapper.returnIndex).Nodup := by
      have hsub := filterMap_ridx_sublist selLc LcWrapper.returnIndex
        selLc_ridx positions.enum
      rw [List.enum_map_fst] at hsub
      exact List.Nodup.sublist hsub (List.nodup_range _)
    have hd12 : List.Disjoint ((sortW offWLe (positions.enum.filterMap selFixedOff)).map OffWrapper.returnIndex)
        ((sortW offWLe (positions.enum.filterMap selOff)).map OffWrapper.returnIndex) := by
      intro a ha hb
      exact bucket_fst_disjoint selFixedOff selOff _ _ selFixedOff_ridx selOff_ridx
        (fun ip hs => ((sel_exclusive ip).1 hs).1) positions
        (((sortW_perm _ _).map _).mem_iff.mp ha)
        (((sortW_perm _ _).map _).mem_iff.mp hb)
    have hd13 : List.Disjoint ((sortW offWLe (positions.enum.filterMap selFixedOff)).map OffWrapper.returnIndex)
        ((sortW lcWLe (positions.enum.filterMap selFixedLc)).map LcWrapper.returnIndex) := by
      intro a ha hb
      exact bucket_fst_disjoint selFixedOff selFixedLc _ _ selFixedOff_ridx
        selFixedLc_ridx (fun ip hs => ((sel_exclusive ip).1 hs).2.1) positions
        (((sortW_perm _ _).map _).mem_iff.mp ha)
        (((sortW_perm _ _).map _).mem_iff.mp hb)
    have hd14 : List.Disjoint ((sortW offWLe (positions.enum.filterMap selFixedOff)).map OffWrapper.returnIndex)
        ((sortW lcWLe (positions.enum.filterMap selLc)).map LcWrapper.returnIndex) := by
      intro a ha hb
      exact bucket_fst_disjoint selFixedOff selLc _ _ selFixedOff_ridx
        selLc_ridx (fun ip hs => ((sel_exclusive ip).1 hs).2.2) positions
        (((sortW_perm _ _).map _).mem_iff.mp ha)
        (((sortW_perm _ _).map _).mem_iff.mp hb)
    have hd23 : List.Disjoint ((sortW offWLe (positions.enum.filterMap selOff)).map OffWrapper.returnIndex)
        ((sortW lcWLe (positions.enum.filterMap selFixedLc)).map LcWrapper.returnIndex) := by
      intro a ha hb
      exact bucket_fst_disjoint selOff selFixedLc _ _ selOff_ridx
        selFixedLc_ridx (fun ip hs => ((sel_exclusive ip).2.1 hs).1) positions
        (((sortW_perm _ _).map _).mem_iff.mp ha)
        (((sortW_perm _ _).map _).mem_iff.mp hb)
    have hd24 : List.Disjoint ((sortW offWLe (positions.enum.filterMap selOff)).map OffWrapper.returnIndex)
        ((sortW lcWLe (positions.enum.filterMap selLc)).map LcWrapper.returnIndex) := by
      intro a ha hb
      exact bucket_fst_disjoint selOff selLc _ _ selOff_ridx
        selLc_ridx (fun ip hs => ((sel_exclusive ip).2.1 hs).2) positions
        (((sortW_perm _ _).map _).mem_iff.mp ha)
        (((sortW_perm _ _).map _).mem_iff.mp hb)
    have hd34 : List.Disjoint ((sortW lcWLe (positions.enum.filterMap selFixedLc)).map LcWrapper.returnIndex)
        ((sortW lcWLe (positions.enum.filterMap selLc)).map LcWrapper.returnIndex) := by
      intro a ha hb
      exact bucket_fst_disjoint selFixedLc selLc _ _ selFixedLc_ridx
        selLc_ridx (fun ip hs => (sel_exclusive ip).2.2 hs) positions
        (((sortW_perm _ _).map _).mem_iff.mp ha)
        (((sortW_perm _ _).map _).mem_iff.mp hb)
    have hnodup : ((((sortW offWLe (positions.enum.filterMap selFixedOff)).map (fun w => (w.returnIndex, resolveWith (bucketHit false qOff w) (cursorTrace createMachine 0 (1, 1) text) (scanEofLineChar createMachine (1, 1) text))) ++ ((sortW offWLe (positions.enum.filterMap selOff)).map (fun w => (w.returnIndex, resolveWith (bucketHit true qOff w) (cursorTrace createMachine 0 (1, 1) text) (scanEofLineChar createMachine (1, 1) text))) ++ ((sortW lcWLe (positions.enum.filterMap selFixedLc)).map (fun w => (w.returnIndex, resolveWith (bucketHit false qLc w) (cursorTrace createMachine 0 (1, 1) text) (scanEofLineChar createMachine (1, 1) text))) ++ (sortW lcWLe (positions.enum.filterMap selLc)).map (fun w => (w.returnIndex, resolveWith (bucketHit true qLc w) (cursorTrace createMachine 0 (1, 1) text) (scanEofLineChar createMachine (1, 1) text))))))).map Prod.fst).Nodup := by
      rw [List.map_append, List.map_append, List.map_append,
        List.map_map, List.map_map, List.map_map, List.map_map]
      rw [show Prod.fst ∘ (fun w => (w.returnIndex, resolveWith (bucketHit false qOff w) (cursorTrace createMachine 0 (1, 1) text) (scanEofLineChar createMachine (1, 1) text))) = OffWrapper.returnIndex from rfl,
        show Prod.fst ∘ (fun w => (w.returnIndex, resolveWith (bucketHit true qOff w) (cursorTrace createMachine 0 (1, 1) text) (scanEofLineChar createMachine (1, 1) text))) = OffWrapper.returnIndex from rfl,
        show Prod.fst ∘ (fun w => (w.returnIndex, resolveWith (bucketHit false qLc w) (cursorTrace createMachine 0 (1, 1) text) (scanEofLineChar createMachine (1, 1) text))) = LcWrapper.returnIndex from rfl,
        show Prod.fst ∘ (fun w => (w.returnIndex, resolveWith (bucketHit true qLc w) (cursorTrace createMachine 0 (1, 1) text) (scanEofLineChar createMachine (1, 1) text))) = LcWrapper.returnIndex from rfl]
      rw [List.nodup_append, List.nodup_append, List.nodup_append]
      refine ⟨?_, ⟨?_, ⟨?_, ?_, hd34⟩, ?_⟩, ?_⟩
      · exact ((sortW_perm _ _).map _).nodup_iff.mpr hnd1
      · exact ((sortW_perm _ _).map _).nodup_iff.mpr hnd2
      · exact ((sortW_perm _ _).map _).nodup_iff.mpr hnd3
      · exact ((sortW_perm _ _).map _).nodup_iff.mpr hnd4
      · exact List.disjoint_append_right.mpr ⟨hd23, hd24⟩
      · exact List.disjoint_append_right.mpr
          ⟨hd12, List.disjoint_append_right.mpr ⟨hd13, hd14⟩⟩
    apply List.ext_getElem
    · simp
    · intro i h1 h2
      have hi : i < positions.length := by simpa using h2
      simp only [List.getElem_map, List.getElem_range]
      have hp : positions[i]? = some positions[i] := List.getElem?_eq_getElem hi
      cases hpp : positions[i] with
      | off nn =>
        rw [hpp] at hp
        by_cases hn : nn < 0
        · have hw : (⟨ i, -nn⟩ : OffWrapper) ∈ (sortW offWLe (positions.enum.filterMap selFixedOff)) :=
            (mem_sortW _ _ _).mpr (List.mem_filterMap.mpr
              ⟨(i, .off nn), (mem_enum_iff _ _ _).mpr hp, by simp [selFixedOff, hn]⟩)
          have hmem : ((i : ℕ), resolveSingle text (RawPosition.off nn)) ∈ ((sortW offWLe (positions.enum.filterMap selFixedOff)).map (fun w => (w.returnIndex, resolveWith (bucketHit false qOff w) (cursorTrace createMachine 0 (1, 1) text) (scanEofLineChar createMachine (1, 1) text))) ++ ((sortW offWLe (positions.enum.filterMap selOff)).map (fun w => (w.returnIndex, resolveWith (bucketHit true qOff w) (cursorTrace createMachine 0 (1, 1) text) (scanEofLineChar createMachine (1, 1) text))) ++ ((sortW lcWLe (positions.enum.filterMap selFixedLc)).map (fun w => (w.returnIndex, resolveWith (bucketHit false qLc w) (cursorTrace createMachine 0 (1, 1) text) (scanEofLineChar createMachine (1, 1) text))) ++ (sortW lcWLe (positions.enum.filterMap selLc)).map (fun w => (w.returnIndex, resolveWith (bucketHit true qLc w) (cursorTrace createMachine 0 (1, 1) text) (scanEofLineChar createMachine (1, 1) text)))))) := by
            refine List.mem_append_left _ (List.mem_map.mpr ⟨⟨ i, -nn⟩, hw, ?_⟩)
            rw [resolveSingle_fixedOff text i nn hn]
          rw [find?_fst_nodup i (resolveSingle text (RawPosition.off nn)) _ hnodup hmem]
          rfl
        · have hw : (⟨ i, nn⟩ : OffWrapper) ∈ (sortW offWLe (positions.enum.filterMap selOff)) :=
            (mem_sortW _ _ _).mpr (List.mem_filterMap.mpr
              ⟨(i, .off nn), (mem_enum_iff _ _ _).mpr hp, by simp [selOff, hn]⟩)
          have hmem : ((i : ℕ), resolveSingle text (RawPosition.off nn)) ∈ ((sortW offWLe (positions.enum.filterMap selFixedOff)).map (fun w => (w.returnIndex, resolveWith (bucketHit false qOff w) (cursorTrace createMachine 0 (1, 1) text) (scanEofLineChar createMachine (1, 1) text))) ++ ((sortW offWLe (positions.enum.filterMap selOff)).map (fun w => (w.returnIndex, resolveWith (bucketHit true qOff w) (cursorTrace createMachine 0 (1, 1) text) (scanEofLineChar createMachine (1, 1) text))) ++ ((sortW lcWLe (positions.enum.filterMap selFixedLc)).map (fun w => (w.returnIndex, resolveWith (bucketHit false qLc w) (cursorTrace createMachine 0 (1, 1) text) (scanEofLineChar createMachine (1, 1) text))) ++ (sortW lcWLe (positions.enum.filterMap selLc)).map (fun w => (w.returnIndex, resolveWith (bucketHit true qLc w) (cursorTrace createMachine 0 (1, 1) text) (scanEofLineChar createMachine (1, 1) text)))))) := by
            refine List.mem_append_right _ (List.mem_append_left _
              (List.mem_map.mpr ⟨⟨ i, nn⟩, hw, ?_⟩))
            rw [resolveSingle_skipOff text i nn hn]
          rw [find?_fst_nodup i (resolveSingle text (RawPosition.off nn)) _ hnodup hmem]
          rfl
      | lineChar lv cv =>
        rw [hpp] at hp
        by_cases hl : lv < 0 ∨ cv < 0
        · have hw : (⟨ i, (|lv|, |cv|)⟩ : LcWrapper) ∈ (sortW lcWLe (positions.enum.filterMap selFixedLc)) :=
            (mem_sortW _ _ _).mpr (List.mem_filterMap.mpr
              ⟨(i, .lineChar lv cv), (mem_enum_iff _ _ _).mpr hp,
                by simp [selFixedLc, hl]⟩)
          have hmem : ((i : ℕ), resolveSingle text (RawPosition.lineChar lv cv)) ∈
              ((sortW offWLe (positions.enum.filterMap selFixedOff)).map (fun w => (w.returnIndex, resolveWith (bucketHit false qOff w) (cursorTrace createMachine 0 (1, 1) text) (scanEofLineChar createMachine (1, 1) text))) ++ ((sortW offWLe (positions.enum.filterMap selOff)).map (fun w => (w.returnIndex, resolveWith (bucketHit true qOff w) (cursorTrace createMachine 0 (1, 1) text) (scanEofLineChar createMachine (1, 1) text))) ++ ((sortW lcWLe (positions.enum.filterMap selFixedLc)).map (fun w => (w.returnIndex, resolveWith (bucketHit false qLc w) (cursorTrace createMachine 0 (1, 1) text) (scanEofLineChar createMachine (1, 1) text))) ++ (sortW lcWLe (positions.enum.filterMap selLc)).map (fun w => (w.returnIndex, resolveWith (bucketHit true qLc w) (cursorTrace createMachine 0 (1, 1) text) (scanEofLineChar createMachine (1, 1) text)))))) := by
            refine List.mem_append_right _ (List.mem_append_right _
              (List.mem_append_left _ (List.mem_map.mpr ⟨⟨ i, (|lv|, |cv|)⟩, hw, ?_⟩)))
            rw [resolveSingle_fixedLc text i lv cv hl]
          rw [find?_fst_nodup i (resolveSingle text (RawPosition.lineChar lv cv)) _
            hnodup hmem]
          rfl
        · have hw : (⟨ i, (lv, cv)⟩ : LcWrapper) ∈ (sortW lcWLe (positions.enum.filterMap selLc)) :=
            (mem_sortW _ _ _).mpr (List.mem_filterMap.mpr
              ⟨(i, .lineChar lv cv), (mem_enum_iff _ _ _).mpr hp,
                by simp [selLc, hl]⟩)
          have hmem : ((i : ℕ), resolveSingle text (RawPosition.lineChar lv cv)) ∈
              ((sortW offWLe (positions.enum.filterMap selFixedOff)).map (fun w => (w.returnIndex, resolveWith (bucketHit false qOff w) (cursorTrace createMachine 0 (1, 1) text) (scanEofLineChar createMachine (1, 1) text))) ++ ((sortW offWLe (positions.enum.filterMap selOff)).map (fun w => (w.returnIndex, resolveWith (bucketHit true qOff w) (cursorTrace createMachine 0 (1, 1) text) (scanEofLineChar createMachine (1, 1) text))) ++ ((sortW lcWLe (positions.enum.filterMap selFixedLc)).map (fun w => (w.returnIndex, resolveWith (bucketHit false qLc w) (cursorTrace createMachine 0 (1, 1) text) (scanEofLineChar createMachine (1, 1) text))) ++ (sortW lcWLe (positions.enum.filterMap selLc)).map (fun w => (w.returnIndex, resolveWith (bucketHit true qLc w) (cursorTrace createMachine 0 (1, 1) text) (scanEofLineChar createMachine (1, 1) text)))))) := by
            refine List.mem_append_right _ (List.mem_append_right _
              (List.mem_append_right _ (List.mem_map.mpr ⟨⟨ i, (lv, cv)⟩, hw, ?_⟩)))
            rw [resolveSingle_skipLc text i lv cv hl]
          rw [find?_fst_nodup i (resolveSingle text (RawPosition.lineChar lv cv)) _
            hnodup hmem]
          rfl

theorem lcLe_refl (a : LineChar) : lcLe a a = true := by
  obtain ⟨x, y⟩ := a
  simp [lcLe]

theorem lc_advance_le (lc : LineChar) (w : Bool) :
    lcLe lc (cursorAdvance lc w) = true := by
  obtain ⟨x, y⟩ := lc
  cases w <;> simp [cursorAdvance, lcLe]

/-- The cursor only moves forward: its start position is at most its final
position. -/
theorem scanEof_lc_le :
    ∀ (text : List Int) (m : MachineState) (lc : LineChar),
      lcLe lc (scanEofLineChar m lc text) = true := by
  intro text
  induction text with
  | nil =>
    intro m lc
    exact lcLe_refl lc
  | cons c rest ih =>
    intro m lc
    cases rest with
    | nil =>
      show lcLe lc (cursorAdvance lc (step c (-1) m).wrapLine) = true
      exact lc_advance_le _ _
    | cons d rest2 =>
      show lcLe lc (scanEofLineChar (step c d m).next
        (cursorAdvance lc (step c d m).wrapLine) (d :: rest2)) = true
      exact lcLe_trans _ _ _ (lc_advance_le _ _) (ih _ _)

/-- Every cursor position in the trace is at most the final position. -/
theorem cursorTrace_lc_le :
    ∀ (text : List Int) (m : MachineState) (off : Int) (lc : LineChar)
      (e : TraceEntry), e ∈ cursorTrace m off lc text →
      lcLe e.lineChar (scanEofLineChar m lc text) = true := by
  intro text
  induction text with
  | nil =>
    intro m off lc e he
    simp [cursorTrace] at he
  | cons c rest ih =>
    intro m off lc e he
    simp only [cursorTrace, List.mem_cons] at he
    rcases he with he | he
    · subst he
      exact scanEof_lc_le (c :: rest) m lc
    · exact ih _ _ _ e he

/-- C9: the normalizer answers in request order — the whole response list is
the per-query resolution mapped over the request list, so the `i`-th answer
belongs to the `i`-th query — and any query whose target lies beyond the end
of the streamed text (an offset at or past the text length, in either sign
encoding, or a line/char past the final cursor position) resolves to the
final observed (line, char). -/
theorem C9_request_order (text : List Int) (positions : List RawPosition)
    (i : ℕ) (p : RawPosition) (hp : positions[i]? = some p) :
    normalizePositions text positions = positions.map (resolveSingle text) ∧
    (normalizePositions text positions)[i]? = some (resolveSingle text p) ∧
    (∀ t : Int, (text.length : Int) ≤ t →
      resolveSingle text (.off t) = scanEofLineChar createMachine (1, 1) text ∧
      resolveSingle text (.off (-t)) = scanEofLineChar createMachine (1, 1) text) ∧
    (∀ lv cv : Int, ¬(lv < 0 ∨ cv < 0) →
      lcLe (lv, cv) (scanEofLineChar createMachine (1, 1) text) = false →
      resolveSingle text (.lineChar lv cv) =
        scanEofLineChar createMachine (1, 1) text) ∧
    (∀ lv cv : Int, (lv < 0 ∨ cv < 0) →
      lcLe (|lv|, |cv|) (scanEofLineChar createMachine (1, 1) text) = false →
      resolveSingle text (.lineChar lv cv) =
        scanEofLineChar createMachine (1, 1) text) := by
  refine ⟨normalize_resolve text positions, ?_, ?_, ?_, ?_⟩
  · rw [normalize_resolve, List.getElem?_map, hp]
    rfl
  · intro t ht
    have h0 : (0 : Int) ≤ (text.length : Int) := by omega
    constructor
    · have hnn : ¬t < 0 := by omega
      simp only [resolveSingle]
      rw [if_neg hnn]
      have hnone : (cursorTrace createMachine 0 (1, 1) text).find?
          (skipOffHit t) = none := by
        rw [List.find?_eq_none]
        intro e he
        have hb := cursorTrace_offset_lt text createMachine 0 (1, 1) e he
        simp only [skipOffHit, decide_eq_true_eq]
        rintro ⟨h1, -⟩
        omega
      unfold resolveWith
      rw [hnone]
      rfl
    · by_cases hneg : -t < 0
      · simp only [resolveSingle]
        rw [if_pos hneg]
        have hnone : (cursorTrace createMachine 0 (1, 1) text).find?
            (fixedOffHit (-(-t))) = none := by
          rw [List.find?_eq_none]
          intro e he
          have hb := cursorTrace_offset_lt text createMachine 0 (1, 1) e he
          simp only [fixedOffHit, decide_eq_true_eq]
          omega
        unfold resolveWith
        rw [hnone]
        rfl
      · have hlen0 : text.length = 0 := by omega
        have htext : text = [] := List.length_eq_zero.mp hlen0
        subst htext
        simp only [resolveSingle]
        rw [if_neg hneg]
        rfl
  · intro lv cv hl hbeyond
    simp only [resolveSingle]
    rw [if_neg hl]
    have hnone : (cursorTrace createMachine 0 (1, 1) text).find?
        (skipLcHit (lv, cv)) = none := by
      rw [List.find?_eq_none]
      intro e he
      have hb := cursorTrace_lc_le text createMachine 0 (1, 1) e he
      simp only [skipLcHit, decide_eq_true_eq]
      rintro ⟨h1, -⟩
      have hcontra := lcLe_trans _ _ _ h1 hb
      rw [hbeyond] at hcontra
      exact Bool.noConfusion hcontra
    unfold resolveWith
    rw [hnone]
    rfl
  · intro lv cv hl hbeyond
    simp only [resolveSingle]
    rw [if_pos hl]
    have hnone : (cursorTrace createMachine 0 (1, 1) text).find?
        (fixedLcHit (|lv|, |cv|)) = none := by
      rw [List.find?_eq_none]
      intro e he
      have hb := cursorTrace_lc_le text createMachine 0 (1, 1) e he
      simp only [fixedLcHit, decide_eq_true_eq]
      intro h1
      have hcontra := lcLe_trans _ _ _ h1 hb
      rw [hbeyond] at hcontra
      exact Bool.noConfusion hcontra
    unfold resolveWith
    rw [hnone]
    rfl

/-- Witness for C9 at the concrete text `a b`. -/
theorem C9_request_order_witness :
    exPosC9[1]? = some (RawPosition.off (-2)) ∧
    (normalizePositions exTextC9 exPosC9 =
      exPosC9.map (resolveSingle exTextC9) ∧
    (normalizePositions exTextC9 exPosC9)[1]? =
      some (resolveSingle exTextC9 (RawPosition.off (-2))) ∧
    (∀ t : Int, (exTextC9.length : Int) ≤ t →
      resolveSingle exTextC9 (.off t) =
        scanEofLineChar createMachine (1, 1) exTextC9 ∧
      resolveSingle exTextC9 (.off (-t)) =
        scanEofLineChar createMachine (1, 1) exTextC9) ∧
    (∀ lv cv : Int, ¬(lv < 0 ∨ cv < 0) →
      lcLe (lv, cv) (scanEofLineChar createMachine (1, 1) exTextC9) = false →
      resolveSingle exTextC9 (.lineChar lv cv) =
        scanEofLineChar createMachine (1, 1) exTextC9) ∧
    (∀ lv cv : Int, (lv < 0 ∨ cv < 0) →
      lcLe (|lv|, |cv|) (scanEofLineChar createMachine (1, 1) exTextC9) = false →
      resolveSingle exTextC9 (.lineChar lv cv) =
        scanEofLineChar createMachine (1, 1) exTextC9)) :=
  ⟨by decide, C9_request_order exTextC9 exPosC9 1 (RawPosition.off (-2)) (by decide)⟩

/-- C3: per query, the normalizer's answer at the query's request slot: a
negative-encoded ("fixed") query — offset or line/char — resolves at the
first cursor position at/past its decoded target, with no condition on the
character's triviality; a non-negative ("skipping") query resolves at the
first position at/past its raw target whose character the lexer classifies
as neither comment nor whitespace. -/
theorem C3_fixed_and_skipping (text : List Int) (positions : List RawPosition)
    (i : ℕ) (p : RawPosition) (hp : positions[i]? = some p) :
    (∀ nn : Int, nn < 0 → p = .off nn →
      ∀ (j : ℕ) (e : TraceEntry), (cursorTrace createMachine 0 (1, 1) text)[j]? = some e →
        -nn ≤ e.offset →
        (∀ k x, k < j → (cursorTrace createMachine 0 (1, 1) text)[k]? = some x →
          fixedOffHit (-nn) x = false) →
        (normalizePositions text positions)[i]? = some e.lineChar) ∧
    (∀ nn : Int, ¬nn < 0 → p = .off nn →
      ∀ (j : ℕ) (e : TraceEntry), (cursorTrace createMachine 0 (1, 1) text)[j]? = some e →
        nn ≤ e.offset → e.trivia = false →
        (∀ k x, k < j → (cursorTrace createMachine 0 (1, 1) text)[k]? = some x →
          skipOffHit nn x = false) →
        (normalizePositions text positions)[i]? = some e.lineChar) ∧
    (∀ lv cv : Int, (lv < 0 ∨ cv < 0) → p = .lineChar lv cv →
      ∀ (j : ℕ) (e : TraceEntry), (cursorTrace createMachine 0 (1, 1) text)[j]? = some e →
        lcLe (|lv|, |cv|) e.lineChar = true →
        (∀ k x, k < j → (cursorTrace createMachine 0 (1, 1) text)[k]? = some x →
          fixedLcHit (|lv|, |cv|) x = false) →
        (normalizePositions text positions)[i]? = some e.lineChar) ∧
    (∀ lv cv : Int, ¬(lv < 0 ∨ cv < 0) → p = .lineChar lv cv →
      ∀ (j : ℕ) (e : TraceEntry), (cursorTrace createMachine 0 (1, 1) text)[j]? = some e →
        lcLe (lv, cv) e.lineChar = true → e.trivia = false →
        (∀ k x, k < j → (cursorTrace createMachine 0 (1, 1) text)[k]? = some x →
          skipLcHit (lv, cv) x = false) →
        (normalizePositions text positions)[i]? = some e.lineChar) := by
  refine ⟨?_, ?_, ?_, ?_⟩
  · intro nn hn hpeq j e hje hoff hpre
    rw [hpeq] at hp
    rw [normalize_resolve, List.getElem?_map, hp]
    show some (resolveSingle text (RawPosition.off nn)) = some e.lineChar
    simp only [resolveSingle]
    rw [if_pos hn]
    unfold resolveWith
    rw [find?_first (fixedOffHit (-nn)) _ j e hje
      (by simp only [fixedOffHit, decide_eq_true_eq]; exact hoff) hpre]
    rfl
  · intro nn hn hpeq j e hje hoff htr hpre
    rw [hpeq] at hp
    rw [normalize_resolve, List.getElem?_map, hp]
    show some (resolveSingle text (RawPosition.off nn)) = some e.lineChar
    simp only [resolveSingle]
    rw [if_neg hn]
    unfold resolveWith
    rw [find?_first (skipOffHit nn) _ j e hje
      (by simp only [skipOffHit, decide_eq_true_eq]; exact ⟨hoff, by simp [htr]⟩) hpre]
    rfl
  · intro lv cv hl hpeq j e hje hlc hpre
    rw [hpeq] at hp
    rw [normalize_resolve, List.getElem?_map, hp]
    show some (resolveSingle text (RawPosition.lineChar lv cv)) = some e.lineChar
    simp only [resolveSingle]
    rw [if_pos hl]
    unfold resolveWith
    rw [find?_first (fixedLcHit (|lv|, |cv|)) _ j e hje
      (by simp only [fixedLcHit, decide_eq_true_eq]; exact hlc) hpre]
    rfl
  · intro lv cv hl hpeq j e hje hlc htr hpre
    rw [hpeq] at hp
    rw [normalize_resolve, List.getElem?_map, hp]
    show some (resolveSingle text (RawPosition.lineChar lv cv)) = some e.lineChar
    simp only [resolveSingle]
    rw [if_neg hl]
    unfold resolveWith
    rw [find?_first (skipLcHit (lv, cv)) _ j e hje
      (by simp only [skipLcHit, decide_eq_true_eq]; exact ⟨hlc, by simp [htr]⟩) hpre]
    rfl

/-- Witness for C3 at the concrete text `a/*x*/b`: the query at request
slot 0 is the skipping offset query 1. -/
theorem C3_fixed_and_skipping_witness :
    exPosC3[0]? = some (RawPosition.off 1) ∧
    ((∀ nn : Int, nn < 0 → RawPosition.off 1 = .off nn →
      ∀ (j : ℕ) (e : TraceEntry), (cursorTrace createMachine 0 (1, 1) exTextC3)[j]? = some e →
        -nn ≤ e.offset →
        (∀ k x, k < j →
          (cursorTrace createMachine 0 (1, 1) exTextC3)[k]? = some x →
          fixedOffHit (-nn) x = false) →
        (normalizePositions exTextC3 exPosC3)[0]? = some e.lineChar) ∧
    (∀ nn : Int, ¬nn < 0 → RawPosition.off 1 = .off nn →
      ∀ (j : ℕ) (e : TraceEntry), (cursorTrace createMachine 0 (1, 1) exTextC3)[j]? = some e →
        nn ≤ e.offset → e.trivia = false →
        (∀ k x, k < j →
          (cursorTrace createMachine 0 (1, 1) exTextC3)[k]? = some x →
          skipOffHit nn x = false) →
        (normalizePositions exTextC3 exPosC3)[0]? = some e.lineChar) ∧
    (∀ lv cv : Int, (lv < 0 ∨ cv < 0) → RawPosition.off 1 = .lineChar lv cv →
      ∀ (j : ℕ) (e : TraceEntry), (cursorTrace createMachine 0 (1, 1) exTextC3)[j]? = some e →
        lcLe (|lv|, |cv|) e.lineChar = true →
        (∀ k x, k < j →
          (cursorTrace createMachine 0 (1, 1) exTextC3)[k]? = some x →
          fixedLcHit (|lv|, |cv|) x = false) →
        (normalizePositions exTextC3 exPosC3)[0]? = some e.lineChar) ∧
    (∀ lv cv : Int, ¬(lv < 0 ∨ cv < 0) → RawPosition.off 1 = .lineChar lv cv →
      ∀ (j : ℕ) (e : TraceEntry), (cursorTrace createMachine 0 (1, 1) exTextC3)[j]? = some e →
        lcLe (lv, cv) e.lineChar = true → e.trivia = false →
        (∀ k x, k < j →
          (cursorTrace createMachine 0 (1, 1) exTextC3)[k]? = some x →
          skipLcHit (lv, cv) x = false) →
        (normalizePositions exTextC3 exPosC3)[0]? = some e.lineChar)) :=
  ⟨by decide,
    C3_fixed_and_skipping exTextC3 exPosC3 0 (RawPosition.off 1) (by decide)⟩

end AnalyzeTrace

